import Mathlib

set_option maxHeartbeats 1000000

/-!
Verification development for the libfirm core subsystems:
stack frame layout and stack-pointer simulation (bestack.c),
the Belady spill heuristic (bespillbelady.c), and the
Phi-SCC redundancy elimination pass (opt_phi_scc.c).

All definitions are shallow embeddings translated from the C sources.
Machine arithmetic is modelled with Nat/Int; conversions from int to
unsigned are taken modulo 2^32.  Code paths guarded by assert are
modelled with Option (none = assertion failure).
-/

/-! ## Part 1: bestack.c - frame layout and stack pointer simulation -/

def UINT_MOD : Nat := 4294967296

/-- Modelled from the spec: the helper round_up2 lives in util.h which is not
part of the sources; the spec describes it as rounding x up to the next
multiple of the power of two po2. -/
def round_up2 (x po2 : Nat) : Nat := ((x + po2 - 1) / po2) * po2

/-- bestack.c round_up2_misaligned. -/
def round_up2_misaligned (offset alignment misalign : Nat) : Nat :=
  round_up2 (offset + misalign) alignment - misalign

/-- The QSORT_CMP macro: ((a) > (b)) - ((a) < (b)). -/
def qsortCmp (a b : Nat) : Int := if a > b then 1 else if a < b then -1 else 0

inductive EntKind where
  | spillslot
  | normal
deriving DecidableEq, Repr

/-- A frame type member (ir_entity restricted to the fields bestack.c reads).
offset = none models INVALID_OFFSET. -/
structure FrameEntity where
  nr : Nat
  kind : EntKind
  alignment : Nat
  slotSize : Nat
  typeSize : Nat
  typeAlignment : Nat
  offset : Option Int
deriving DecidableEq, Repr

/-- bestack.c cmp_slots_last. -/
def cmp_slots_last (e0 e1 : FrameEntity) : Int :=
  match e0.kind, e1.kind with
  | .spillslot, .normal => -1
  | .normal, .spillslot => 1
  | _, _ => qsortCmp e1.nr e0.nr

/-- bestack.c cmp_slots_first. -/
def cmp_slots_first (e0 e1 : FrameEntity) : Int :=
  match e0.kind, e1.kind with
  | .spillslot, .normal => 1
  | .normal, .spillslot => -1
  | _, _ => qsortCmp e0.nr e1.nr

/-- bestack.c be_sort_frame_entities: qsort of the member list with the
selected comparator (modelled with a stable insertion sort). -/
def be_sort_frame_entities (frame : List FrameEntity) (spillslots_first : Bool) :
    List FrameEntity :=
  List.insertionSort
    (fun e0 e1 => (if spillslots_first then cmp_slots_first else cmp_slots_last) e0 e1 ≤ 0)
    frame

/-- One step of the layout loop of be_layout_frame_type.
Returns the updated member and the new running offset, or none when the
assertion member_offset >= begin fails for a pre-assigned member. -/
def layoutMember (begin_ : Int) (misalign : Nat) (member : FrameEntity) (offset : Int) :
    Option (FrameEntity × Int) :=
  match member.offset with
  | some o => if o < begin_ then none else some (member, offset)
  | none =>
      let (size, alignment) :=
        match member.kind with
        | .spillslot => (member.slotSize, member.alignment)
        | .normal => (member.typeSize, max member.alignment member.typeAlignment)
      let offset1 : Int := offset - size
      let offset2 : Int := -(round_up2_misaligned (-offset1).toNat alignment misalign : Int)
      some ({ member with offset := some offset2 }, offset2)

/-- bestack.c be_layout_frame_type: lay members out in negative direction,
returning the updated member list and the final frame size. -/
def be_layout_frame_type (frame : List FrameEntity) (begin_ : Int) (misalign : Nat) :
    Option (List FrameEntity × Nat) :=
  let rec go : List FrameEntity → Int → Option (List FrameEntity × Int)
    | [], offset => some ([], offset)
    | m :: rest, offset =>
        match layoutMember begin_ misalign m offset with
        | none => none
        | some (m2, offset2) =>
            match go rest offset2 with
            | none => none
            | some (rest2, offsetF) => some (m2 :: rest2, offsetF)
  match go frame begin_ with
  | none => none
  | some (members, offsetF) => some (members, (-offsetF).toNat)

/-- The nodes the stack pointer simulator distinguishes
(process_stack_bias): IncSP nodes, MemPerm nodes (which record the current
offset), and all other nodes, whose effect is whatever the target supplied
sim function returns for them (modelled by carrying that return value). -/
inductive SpInsn where
  | incsp (ofs : Int) (align : Nat)
  | memperm (recorded : Option Int)
  | other (newOffset : Int)
deriving DecidableEq, Repr

/-- One scheduled node of process_stack_bias.  The state is
(offset, wanted_bias); the result carries the possibly rewritten node.
none models a failing assert. -/
def processNode (p2align misalign : Nat) (insn : SpInsn) (offset bias : Int) :
    Option (SpInsn × Int × Int) :=
  match insn with
  | .incsp ofs align =>
      let al := max align p2align
      if 0 < al then
        if ofs < 0 then none
        else
          let alignment := 2 ^ al
          let aligned : Int :=
            (round_up2_misaligned (((offset + ofs) % (UINT_MOD : Int)).toNat) alignment
              misalign : Nat)
          let slack : Int := aligned - (offset + ofs)
          if 0 < slack then some (.incsp (ofs + slack) align, (offset + slack) + ofs, bias + ofs)
          else some (.incsp ofs align, offset + ofs, bias + ofs)
      else
        let delta : Int := bias - offset
        if 0 < delta then none
        else
          if delta ≠ 0 then some (.incsp (ofs + delta) align, (offset + delta) + ofs, bias + ofs)
          else some (.incsp ofs align, offset + ofs, bias + ofs)
  | .memperm _ => some (.memperm (some offset), offset, bias)
  | .other newOffset =>
      let bias2 : Int := if newOffset = 0 then 0 else bias + (newOffset - offset)
      some (.other newOffset, newOffset, bias2)

/-- The scheduled sweep of one block in process_stack_bias. -/
def simInsns (p2align misalign : Nat) :
    List SpInsn → Int → Int → Option (List SpInsn × Int × Int)
  | [], offset, bias => some ([], offset, bias)
  | insn :: rest, offset, bias =>
      match processNode p2align misalign insn offset bias with
      | none => none
      | some (insn2, offset2, bias2) =>
          match simInsns p2align misalign rest offset2 bias2 with
          | none => none
          | some (rest2, offsetF, biasF) => some (insn2 :: rest2, offsetF, biasF)

/-- A chain of blocks as visited along one control flow path of the
simulator (be_sim_stack_pointer starts at the start block with offset 0 and
wanted_bias 0 and passes the post block state to each successor). -/
def simBlockPath (p2align misalign : Nat) :
    List (List SpInsn) → Int → Int → Option (Int × Int)
  | [], offset, bias => some (offset, bias)
  | blk :: rest, offset, bias =>
      match simInsns p2align misalign blk offset bias with
      | none => none
      | some (_, offset2, bias2) => simBlockPath p2align misalign rest offset2 bias2

/-! ### bestack.c - be_fix_stack_nodes -/

/-- A node as seen by be_fix_stack_nodes: mode (tuple or not), assigned
register, Proj flag and operand edges. -/
structure FixNode where
  idx : Nat
  modeT : Bool
  reg : Option Nat
  isProj : Bool
  preds : List Nat
deriving DecidableEq, Repr

/-- The graph as seen by be_fix_stack_nodes: all nodes reached by the walk
plus the keep-alive operands of the End node. -/
structure FixGraph where
  nodes : List FixNode
  endKeeps : List Nat
deriving DecidableEq, Repr

/-- collect_stack_nodes_walker: a node is collected when its mode is not
mode_T and its assigned register is the stack pointer. -/
def isSpNode (sp : Nat) (n : FixNode) : Bool :=
  !n.modeT && n.reg == some sp

/-- Whether node index i names a collected stack pointer node of g. -/
def spLike (g : FixGraph) (sp i : Nat) : Bool :=
  match g.nodes.find? (fun n => n.idx == i) with
  | some n => isSpNode sp n
  | none => false

/-- Number of remaining references to node i (operand edges plus keep-alive
edges), the get_irn_n_edges check of the final loop. -/
def refCount (g : FixGraph) (i : Nat) : Nat :=
  (g.nodes.map (fun n => n.preds.count i)).sum + g.endKeeps.count i

/-- The final loop of be_fix_stack_nodes: remove keep-alive edges that
reference stack pointer producers and kill producers that lost their last
user.  (The sched_remove call only touches the schedule, which this model
does not carry.) -/
def pruneEndKeeps (g : FixGraph) (sp : Nat) : FixGraph :=
  let keeps2 := g.endKeeps.filter (fun i => !(spLike g sp i))
  let g1 : FixGraph := { g with endKeeps := keeps2 }
  { g1 with nodes := g1.nodes.filter (fun n => !(isSpNode sp n && refCount g1 n.idx == 0)) }

/-- bestack.c be_fix_stack_nodes.  The SSA construction helper
(bessaconstr, outside the sources) is a parameter; it receives the graph
and the collected stack pointer producers.  When no producer is found the
function returns before doing anything. -/
def be_fix_stack_nodes (ssaConstr : FixGraph → List Nat → FixGraph)
    (g : FixGraph) (sp : Nat) : FixGraph :=
  let spNodes := (g.nodes.filter (isSpNode sp)).map (fun n => n.idx)
  if spNodes.isEmpty then g
  else pruneEndKeeps (ssaConstr g spNodes) sp

/-! ## Part 2: bespillbelady.c - the Belady spill heuristic -/

def INT_MAX : Nat := 2147483647

/-- An association between a node and a point in time (loc_t). -/
structure Loc where
  irn : Nat
  time : Nat
deriving DecidableEq, Repr

instance : Inhabited Loc := ⟨⟨0, 0⟩⟩

/-- The pieces of belady_env_t (and of the graph) that displace reads.
Nodes are identified by their index.  nextUse is the external next-use
oracle be_get_next_use (beuses is not part of the sources) queried from the
current instruction; its Bool argument is skip_from_uses. -/
structure BeladyEnv where
  nRegs : Nat
  considered : Nat → Bool
  dontSpill : Nat → Bool
  isPhi : Nat → Bool
  instr : Nat
  nextUse : Bool → Nat → Nat
  users : Nat → List Nat
  blockOf : Nat → Nat
  scheduled : Nat → Bool
  schedPos : Nat → Nat

/-- bespillbelady.c get_distance: 0 for dont_spill nodes, otherwise the
oracle distance (the USES_IS_INFINITE cap is part of the oracle here). -/
def get_distance (env : BeladyEnv) (skipFromUses : Bool) (node : Nat) : Nat :=
  if env.dontSpill node then 0 else env.nextUse skipFromUses node

/-- bespillbelady.c loc_compare orders by ascending time; the workset_sort
macro (qsort) is modelled with a stable insertion sort under that order. -/
def worksetSort (ws : List Loc) : List Loc :=
  List.insertionSort (fun a b => a.time ≤ b.time) ws

instance : IsTotal Loc (fun a b => a.time ≤ b.time) :=
  ⟨fun a b => Nat.le_total a.time b.time⟩

instance : IsTrans Loc (fun a b => a.time ≤ b.time) :=
  ⟨fun _ _ _ => Nat.le_trans⟩

/-- bespillbelady.c workset_contains. -/
def workset_contains (ws : List Loc) (val : Nat) : Bool :=
  ws.any (fun l => l.irn == val)

/-- bespillbelady.c workset_insert: drop values of a foreign register
class, do nothing if the value is present, else append it.  (The C code
leaves the time field of the new slot stale; it is always refreshed before
being read, so 0 is used here.) -/
def workset_insert (env : BeladyEnv) (ws : List Loc) (val : Nat) : List Loc :=
  if !env.considered val then ws
  else if workset_contains ws val then ws
  else ws ++ [⟨val, 0⟩]

/-- bespillbelady.c workset_remove: replace the found entry by the last
one and shrink (order is not preserved, exactly as in the C code). -/
def workset_remove (ws : List Loc) (val : Nat) : List Loc :=
  match ws.findIdx? (fun l => l.irn == val) with
  | none => ws
  | some i => (ws.set i (ws.getLast?.getD default)).dropLast

/-- bespillbelady.c fix_dead_values: every workset member all of whose
users sit in the block of the current instruction and are scheduled
strictly before it (the current instruction itself not counting as such a
user) gets its distance set to INT_MAX. -/
def fix_dead_values (env : BeladyEnv) (ws : List Loc) : List Loc :=
  ws.map (fun l =>
    if l.time == INT_MAX then l
    else if (env.users l.irn).any (fun u =>
        env.blockOf u != env.blockOf env.instr
        || (env.scheduled u && env.schedPos env.instr < env.schedPos u)
        || u == env.instr) then l
    else { l with time := INT_MAX })

/-- Result of one displace call: the new workset, the (possibly trimmed)
start workset of the block, the used set and the reload requests issued via
be_add_reload. -/
structure DisplaceResult where
  ws : List Loc
  wsStart : List Loc
  used : List Nat
  reloads : List Nat
deriving DecidableEq, Repr

/-- bespillbelady.c displace.  (When demand exceeds n_regs the C code
overflows a stack buffer; the model truncates max_allowed at zero, and the
theorems assume the workset capacity the rest of the pass guarantees.) -/
def displace (env : BeladyEnv) (used : List Nat) (wsStart ws newVals : List Loc)
    (isUsage : Bool) : DisplaceResult :=
  let used1 := if isUsage then used ++ newVals.map (fun l => l.irn) else used
  let toInsert := newVals.filter (fun l => !workset_contains ws l.irn)
  let reloads := if isUsage then toInsert.map (fun l => l.irn) else []
  let demand := toInsert.length
  let maxAllowed := env.nRegs - demand
  if ws.length > maxAllowed then
    let refreshed := ws.map (fun l =>
      { l with time := get_distance env (!isUsage) l.irn })
    let fixed := fix_dead_values env refreshed
    let sorted := worksetSort fixed
    let wsStart1 := (sorted.drop maxAllowed).foldl (fun acc l =>
      if env.isPhi l.irn then acc
      else if l.irn ∈ used1 then acc
      else workset_remove acc l.irn) wsStart
    let ws1 := toInsert.foldl (fun acc l => workset_insert env acc l.irn)
      (sorted.take maxAllowed)
    ⟨ws1, wsStart1, used1, reloads⟩
  else
    let ws1 := toInsert.foldl (fun acc l => workset_insert env acc l.irn) ws
    ⟨ws1, wsStart, used1, reloads⟩

/-- spill_phi_walker: the start workset of a join block keeps the (at
most n_regs) starters with the smallest next-use distance. -/
def startWorkset (env : BeladyEnv) (starters : List Loc) : List Loc :=
  (worksetSort starters).take env.nRegs

/-! ## Part 3: opt_phi_scc.c - removal of unnecessary Phi SCCs -/

/-- The graph as the pass sees it: a walk order over the node indices,
operand edges, and the Phi/loop-Phi predicates. -/
structure PhiGraph where
  nodes : List Nat
  preds : Nat → List Nat
  isPhi : Nat → Bool
  phiLoop : Nat → Bool

/-- An SCC of the working set / work stack: its node set (in pop order)
and its iteration depth. -/
structure Scc where
  sccNodes : List Nat
  depth : Nat
deriving DecidableEq, Repr

/-- The algorithm state: the per-node link-slot info (dfn, uplink, depth,
in_stack), the Tarjan stack (top at head), the dfn counter, the freshly
found SCCs (working_set_sccs, appended at the tail) and the replacement
map in insertion order. -/
structure SccState where
  dfn : Nat → Nat
  uplink : Nat → Nat
  depth : Nat → Nat
  inStack : Nat → Bool
  stack : List Nat
  nextIndex : Nat
  working : List Scc
  repMap : List (Nat × Nat)

def updF (f : Nat → Nat) (k v : Nat) : Nat → Nat := fun m => if m = k then v else f m

def updB (f : Nat → Bool) (k : Nat) (v : Bool) : Nat → Bool :=
  fun m => if m = k then v else f m

def initSccState : SccState :=
  ⟨fun _ => 0, fun _ => 0, fun _ => 0, fun _ => false, [], 0, [], []⟩

/-- ir_nodehashmap_get on the replacement map, defaulting to the node
itself (the canonical predecessor of find_scc_at / get_unique_pred). -/
def resolve1 (map : List (Nat × Nat)) (n : Nat) : Nat :=
  match map.lookup n with
  | some v => v
  | none => n

/-- opt_phi_scc.c is_removable. -/
def is_removable (g : PhiGraph) (st : SccState) (depth n : Nat) : Bool :=
  g.isPhi n && !g.phiLoop n && decide (depth ≤ st.depth n)

/-- The do-while pop loop of find_scc_at: pop nodes until n, collecting
them in pop order and clearing their in_stack marks. -/
def popLoop (n : Nat) : List Nat → (Nat → Bool) → List Nat × List Nat × (Nat → Bool)
  | [], inStack => ([], [], inStack)
  | m :: rest, inStack =>
      let inStack2 := updB inStack m false
      if m == n then ([m], rest, inStack2)
      else
        let (collected, rest2, inStack3) := popLoop n rest inStack2
        (m :: collected, rest2, inStack3)

/-- The body of the foreach_irn_in loop of find_scc_at, with the recursive
call supplied as recCall (the canonical predecessor is resolved through the
replacement map first). -/
def predStep (recCall : Nat → SccState → Bool × SccState) (n : Nat)
    (st : SccState) (p : Nat) : SccState :=
  let cp := resolve1 st.repMap p
  if st.dfn cp == 0 then
    let (ok, stA) := recCall cp st
    if ok then
      { stA with uplink := updF stA.uplink n (min (stA.uplink cp) (stA.uplink n)) }
    else if stA.inStack cp then
      { stA with uplink := updF stA.uplink n (min (stA.dfn cp) (stA.uplink n)) }
    else stA
  else if st.inStack cp then
    { st with uplink := updF st.uplink n (min (st.dfn cp) (st.uplink n)) }
  else st

/-- opt_phi_scc.c find_scc_at (Tarjan), with a fuel bound on the recursion
depth; the pass always supplies sufficient fuel. -/
def findSccAt (g : PhiGraph) : Nat → Nat → Nat → SccState → Bool × SccState
  | 0, _, _, st => (false, st)
  | fuel + 1, n, depth, st =>
      if !is_removable g st depth n then (false, st)
      else if st.dfn n != 0 then (true, st)
      else
        let idx := st.nextIndex + 1
        let st1 : SccState :=
          { st with dfn := updF st.dfn n idx, uplink := updF st.uplink n idx,
                    nextIndex := idx,
                    stack := n :: st.stack, inStack := updB st.inStack n true }
        let st3 := (g.preds n).foldl
          (predStep (fun m s => findSccAt g fuel m depth s) n) st1
        if st3.dfn n == st3.uplink n then
          let (collected, rest, inStack2) := popLoop n st3.stack st3.inStack
          let scc : Scc := ⟨collected, st3.depth n⟩
          (true, { st3 with stack := rest, inStack := inStack2,
                            working := st3.working ++ [scc] })
        else (true, st3)

/-- opt_phi_scc.c get_unique_pred: returns the unique predecessor of a
redundant SCC (none if not redundant, or if there is no outside
predecessor at all), marks eligible members by clearing their dfn and
bumping their depth, and updates the depth recorded on the SCC. -/
def getUniquePred (g : PhiGraph) (st0 : SccState) (scc : Scc) :
    Option Nat × Scc × SccState :=
  let fin := scc.sccNodes.foldl
    (fun (acc : Option Nat × Bool × Scc × SccState) m =>
      let st := acc.2.2.2
      let inner := (g.preds m).foldl
        (fun (ac2 : Option Nat × Bool × Bool) p =>
          if p == m then ac2
          else if resolve1 st.repMap p ∈ scc.sccNodes then ac2
          else
            (some (resolve1 st.repMap p),
             if ac2.1.isSome && ac2.1 != some (resolve1 st.repMap p) then false
             else ac2.2.1,
             false))
        (acc.1, acc.2.1, true)
      if inner.2.2 then
        let newDepth := st.depth m + 1
        (inner.1, inner.2.1, { acc.2.2.1 with depth := newDepth },
         { st with depth := updF st.depth m newDepth, dfn := updF st.dfn m 0 })
      else (inner.1, inner.2.1, acc.2.2.1, st))
    (none, true, scc, st0)
  (if fin.2.1 then fin.1 else none, fin.2.2)

/-- The list_for_each_entry_safe loop of prepare_next_iteration: insert the
members of each redundant SCC into the replacement map and discard it;
shrink a non-redundant SCC to its eligible members and stop at the first
one that stays (size greater than one). -/
def prepareLoop (g : PhiGraph) : List Scc → SccState → List Scc × SccState
  | [], st => ([], st)
  | scc :: rest, st =>
      let (res, scc2, st2) := getUniquePred g st scc
      match res with
      | some up =>
          let st3 :=
            { st2 with repMap := st2.repMap ++ scc.sccNodes.map (fun m => (m, up)) }
          prepareLoop g rest st3
      | none =>
          let kept := scc2.sccNodes.filter (fun m => st2.dfn m == 0)
          if kept.length > 1 then (⟨kept, scc2.depth⟩ :: rest, st2)
          else prepareLoop g rest st2

/-- opt_phi_scc.c prepare_next_iteration: splice the freshly found SCCs
onto the front of the work stack, then run the evaluation loop. -/
def prepareNextIteration (g : PhiGraph) (workStack : List Scc) (st : SccState) :
    List Scc × SccState :=
  prepareLoop g (st.working ++ workStack) { st with working := [] }

/-- Recursion-depth fuel for one find_scc_at entry. -/
def sccFuel (g : PhiGraph) : Nat := g.nodes.length + 1

/-- The while loop of opt_remove_unnecessary_phi_sccs: pop an SCC from the
front of the queue, re-run Tarjan on its members at its depth, and prepare
the next iteration.  The Bool result reports whether the work stack was
exhausted within the given fuel (the C code simply loops). -/
def mainLoop (g : PhiGraph) : Nat → List Scc → SccState → SccState × Bool
  | 0, stack, st => (st, stack.isEmpty)
  | _ + 1, [], st => (st, true)
  | fuel + 1, scc :: rest, st =>
      let st1 := scc.sccNodes.foldl
        (fun s m => (findSccAt g (sccFuel g) m scc.depth s).2) st
      let (stack2, st2) := prepareNextIteration g rest st1
      mainLoop g fuel stack2 st2

/-- irgmod.c exchange: reroute every user of k to v and remove k from the
graph. -/
def exchangeOne (g : PhiGraph) (k v : Nat) : PhiGraph :=
  { g with nodes := g.nodes.filter (fun m => m ≠ k),
           preds := fun m => (g.preds m).map (fun q => if q = k then v else q) }

/-- The final rewiring loop of opt_remove_unnecessary_phi_sccs over the
given entry sequence (the C hash map iterates in an unspecified order;
entries holds one pair per key). -/
def exchangeAll (g : PhiGraph) (entries : List (Nat × Nat)) : PhiGraph :=
  entries.foldl (fun h e => exchangeOne h e.1 e.2) g

/-- Fuel for the main loop: enough for every run that terminates on graphs
of this size. -/
def mainFuel (g : PhiGraph) : Nat := (g.nodes.length + 1) * (g.nodes.length + 1)

/-- opt_phi_scc.c opt_remove_unnecessary_phi_sccs.  Returns the rewritten
graph, the replacement map in insertion order, and whether the work-stack
loop finished within the fuel (false models the C code looping forever). -/
def optPhiSccFull (g : PhiGraph) : PhiGraph × List (Nat × Nat) × Bool :=
  let st1 := g.nodes.foldl (fun s n => (findSccAt g (sccFuel g) n 0 s).2) initSccState
  let (stack1, st2) := prepareNextIteration g [] st1
  let (st3, done) := mainLoop g (mainFuel g) stack1 st2
  (exchangeAll g st3.repMap, st3.repMap, done)

/-- The pass as a graph transformation (exchange applied in map insertion
order). -/
def optRemoveUnnecessaryPhiSccs (g : PhiGraph) : PhiGraph :=
  (optPhiSccFull g).1

/-! ## Concrete instances used by witnesses and counterexamples -/

/-- The displace environment of the C5 counterexample: register class of
two registers; node 1 is a dont_spill value with a user in another block;
nodes 2 and 3 are ordinary values; the current instruction is node 5 and
uses nodes 2 and 3; the oracle reports distance 0 for everything. -/
def envC5 : BeladyEnv :=
  { nRegs := 2, considered := fun _ => true, dontSpill := fun n => n == 1,
    isPhi := fun _ => false, instr := 5,
    nextUse := fun _ _ => 0,
    users := fun n => if n == 1 then [9] else if n == 2 then [5] else [],
    blockOf := fun n => if n == 9 then 7 else 0,
    scheduled := fun _ => true,
    schedPos := fun _ => 0 }

/-- The displace environment of the C6 counterexample: two values in the
workset with next-use distances 5 and 3, both used again in another
block. -/
def envC6 : BeladyEnv :=
  { nRegs := 2, considered := fun _ => true, dontSpill := fun _ => false,
    isPhi := fun _ => false, instr := 5,
    nextUse := fun _ n => if n == 1 then 5 else if n == 2 then 3 else 0,
    users := fun n => if n == 1 || n == 2 then [9] else [],
    blockOf := fun n => if n == 9 then 7 else 0,
    scheduled := fun _ => true, schedPos := fun _ => 0 }

/-- The C1 counterexample graph: node 0 is a constant y; node 1 is the
Phi x = phi(y, y); the pair is phi1 = node 2 = phi(x, phi2) and
phi2 = node 3 = phi(y, phi1); node 4 is a user of phi1. -/
def gC1cex : PhiGraph :=
  { nodes := [4, 2, 3, 1, 0],
    preds := fun i =>
      if i = 1 then [0, 0] else if i = 2 then [1, 3]
      else if i = 3 then [0, 2] else if i = 4 then [2] else [],
    isPhi := fun i => i = 1 || i = 2 || i = 3,
    phiLoop := fun _ => false }

/-- All nodes collected in a list of SCCs. -/
def sccListNodes (L : List Scc) : List Nat :=
  L.foldr (fun s acc => s.sccNodes ++ acc) []

/-- Number of unvisited removable nodes, the bound on the remaining
recursion depth of find_scc_at. -/
def roundBudget (g : PhiGraph) (R : Nat → Bool) (st : SccState) : Nat :=
  (g.nodes.filter (fun m => R m && (st.dfn m == 0))).length

/-- The state invariant of one Tarjan round of the pass (one initial walk
or one re-examination of a popped SCC).  d is the round depth, R the
removability predicate of the round, S the closed node set the round
explores, M the frozen replacement map, dep0 the common depth of the
nodes of S. -/
structure RInv (g : PhiGraph) (d : Nat) (R : Nat → Bool) (S : Nat → Prop)
    (M : List (Nat × Nat)) (dep0 : Nat) (st : SccState) : Prop where
  map_eq : st.repMap = M
  rem_eq : ∀ n, is_removable g st d n = R n
  dep_eq : ∀ n, S n → st.depth n = dep0
  stack_nodup : st.stack.Nodup
  instack_iff : ∀ n, st.inStack n = true ↔ n ∈ st.stack
  stack_pos : ∀ n ∈ st.stack, 0 < st.dfn n
  stack_S : ∀ n ∈ st.stack, S n
  stack_uplink : ∀ n ∈ st.stack, st.uplink n ≤ st.dfn n
  stack_sorted : List.Pairwise (fun a b => st.dfn b < st.dfn a) st.stack
  dfn_le : ∀ n, st.dfn n ≤ st.nextIndex
  uplink_wit : ∀ v ∈ st.stack, ∃ w ∈ st.stack, st.uplink v = st.dfn w
  vs : ∀ n, S n → st.dfn n ≠ 0 → n ∈ st.stack ∨ n ∈ sccListNodes st.working
  work_nodup : ∀ scc ∈ st.working, scc.sccNodes.Nodup
  work_mem : ∀ scc ∈ st.working, ∀ m ∈ scc.sccNodes, S m ∧ st.dfn m ≠ 0 ∧ m ∉ st.stack
  work_depth : ∀ scc ∈ st.working, scc.depth = dep0
  work_disj : ∀ l1 s1 l2, st.working = l1 ++ s1 :: l2 → ∀ m ∈ s1.sccNodes,
      ∀ s2 ∈ l2, m ∉ s2.sccNodes
  work_ord : ∀ l1 s1 l2, st.working = l1 ++ s1 :: l2 → ∀ m ∈ s1.sccNodes,
      ∀ p ∈ g.preds m, R (resolve1 M p) = true →
      resolve1 M p ∈ sccListNodes l1 ∨ resolve1 M p ∈ s1.sccNodes

/-- The pred ledger of a node whose pred loop has completed: every
removable canonical predecessor has been visited, and either bounds the
node's uplink from above by its dfn or has already been collected. -/
def Ledger (g : PhiGraph) (R : Nat → Bool) (M : List (Nat × Nat))
    (a : Nat) (st : SccState) : Prop :=
  ∀ p ∈ g.preds a, R (resolve1 M p) = true →
    st.dfn (resolve1 M p) ≠ 0 ∧
    (st.uplink a ≤ st.dfn (resolve1 M p) ∨
      resolve1 M p ∈ sccListNodes st.working)

/-- The per-call postcondition of find_scc_at within a round.  st is the
entry state, st2 the exit state, n the node the call was made on. -/
structure RStep (g : PhiGraph) (R : Nat → Bool) (S : Nat → Prop)
    (M : List (Nat × Nat)) (st st2 : SccState) (n : Nat) : Prop where
  stack_ext : ∃ A, st2.stack = A ++ st.stack ∧ ∀ a ∈ A, S a ∧ st.dfn a = 0
  dfn_frame : ∀ m, st.dfn m ≠ 0 → st2.dfn m = st.dfn m
  uplink_frame : ∀ m, st.dfn m ≠ 0 → st2.uplink m = st.uplink m
  depth_frame : ∀ m, st2.depth m = st.depth m
  next_mono : st.nextIndex ≤ st2.nextIndex
  dfn_new_S : ∀ m, st2.dfn m ≠ 0 → st.dfn m ≠ 0 ∨ S m
  dfn_new_big : ∀ m, st.dfn m = 0 → st2.dfn m ≠ 0 → st.nextIndex < st2.dfn m
  work_ext : ∃ W, st2.working = st.working ++ W ∧
      ∀ scc ∈ W, ∀ m ∈ scc.sccNodes, S m ∧ st.dfn m = 0
  ledger : ∀ a ∈ st2.stack, a ∉ st.stack →
      Ledger g R M a st2 ∧ st2.uplink n ≤ st2.uplink a
  stack_empty : st.stack = [] → st2.stack = []
  budget_mono : ∀ m, st2.dfn m = 0 → st.dfn m = 0

/-- The full postcondition of one find_scc_at call within a round, out
being the returned flag and state. -/
structure RCall (g : PhiGraph) (d : Nat) (R : Nat → Bool) (S : Nat → Prop)
    (M : List (Nat × Nat)) (dep0 : Nat) (n : Nat) (st : SccState)
    (out : Bool × SccState) : Prop where
  rinv : RInv g d R S M dep0 out.2
  rstep : RStep g R S M st out.2 n
  bool_eq : out.1 = R n
  false_frame : out.1 = false → out.2 = st
  root_pop : st.dfn n = 0 → out.1 = true →
      out.2.dfn n = st.nextIndex + 1 ∧
      (n ∈ out.2.stack ∨ out.2.uplink n = out.2.dfn n)

/-- The invariant of the pred loop of one fresh find_scc_at call on n:
st0 is the state the call was entered in, done the prefix of the pred
list already processed, stC the current state. -/
structure FInv (g : PhiGraph) (d : Nat) (R : Nat → Bool) (S : Nat → Prop)
    (M : List (Nat × Nat)) (dep0 : Nat) (n : Nat) (st0 : SccState)
    (done : List Nat) (stC : SccState) : Prop where
  rinv : RInv g d R S M dep0 stC
  stack_shape : ∃ B, stC.stack = B ++ n :: st0.stack ∧
      ∀ b ∈ B, S b ∧ st0.dfn b = 0 ∧ Ledger g R M b stC ∧
        stC.uplink n ≤ stC.uplink b
  dfn_n : stC.dfn n = st0.nextIndex + 1
  dfn_frame : ∀ m, st0.dfn m ≠ 0 → stC.dfn m = st0.dfn m
  uplink_frame : ∀ m, m ≠ n → st0.dfn m ≠ 0 → stC.uplink m = st0.uplink m
  depth_frame : ∀ m, stC.depth m = st0.depth m
  next_mono : st0.nextIndex < stC.nextIndex
  dfn_new_S : ∀ m, stC.dfn m ≠ 0 → st0.dfn m ≠ 0 ∨ S m
  dfn_new_big : ∀ m, st0.dfn m = 0 → stC.dfn m ≠ 0 → st0.nextIndex < stC.dfn m
  work_ext : ∃ W, stC.working = st0.working ++ W ∧
      ∀ scc ∈ W, ∀ m ∈ scc.sccNodes, S m ∧ st0.dfn m = 0
  budget_mono : ∀ m, stC.dfn m = 0 → st0.dfn m = 0
  pledger : ∀ p ∈ done, R (resolve1 M p) = true →
      stC.dfn (resolve1 M p) ≠ 0 ∧
      (stC.uplink n ≤ stC.dfn (resolve1 M p) ∨
        resolve1 M p ∈ sccListNodes stC.working)

/-- The C1 witness graph: constant 0, the pair phi1 = node 2 = phi(0, 3)
and phi2 = node 3 = phi(0, 2), and a user node 5. -/
def gC1w : PhiGraph :=
  { nodes := [5, 2, 3, 0],
    preds := fun i =>
      if i = 2 then [0, 3] else if i = 3 then [0, 2] else if i = 5 then [2] else [],
    isPhi := fun i => i = 2 || i = 3,
    phiLoop := fun _ => false }

/-- The aggregate effect of a sequence of find_scc_at calls of one round. -/
structure RRun (g : PhiGraph) (S : Nat → Prop) (st st2 : SccState) : Prop where
  dfn_frame : ∀ m, st.dfn m ≠ 0 → st2.dfn m = st.dfn m
  depth_frame : ∀ m, st2.depth m = st.depth m
  dfn_new_S : ∀ m, st2.dfn m ≠ 0 → st.dfn m ≠ 0 ∨ S m
  work_ext : ∃ W, st2.working = st.working ++ W ∧
      ∀ scc ∈ W, ∀ m ∈ scc.sccNodes, S m ∧ st.dfn m = 0
  budget_mono : ∀ m, st2.dfn m = 0 → st.dfn m = 0
  stack_eq : st.stack = [] → st2.stack = []
  next_mono : st.nextIndex ≤ st2.nextIndex

/-- The resolved outside predecessors a member contributes in
get_unique_pred, in scan order. -/
def memberOutPreds (g : PhiGraph) (M : List (Nat × Nat)) (sccN : List Nat)
    (m : Nat) : List Nat :=
  ((g.preds m).filter
    (fun p => !(p == m) && !(decide (resolve1 M p ∈ sccN)))).map (resolve1 M)

/-- A member is eligible iff it contributes no outside predecessor. -/
def eligMember (g : PhiGraph) (M : List (Nat × Nat)) (sccN : List Nat)
    (m : Nat) : Bool :=
  (memberOutPreds g M sccN m).isEmpty

/-- All resolved outside predecessors of the listed members. -/
def outScc (g : PhiGraph) (M : List (Nat × Nat)) (sccN : List Nat) :
    List Nat → List Nat
  | [] => []
  | m :: ms => memberOutPreds g M sccN m ++ outScc g M sccN ms

/-- The unique-pred/redundant accumulator of get_unique_pred, fed one
outside predecessor at a time. -/
def upRed : Option Nat × Bool → List Nat → Option Nat × Bool
  | ur, [] => ur
  | (u, r), c :: cs =>
      upRed (some c, if u.isSome && u != some c then false else r) cs

/-- The outcome of the member loop of get_unique_pred. -/
structure GupOut (g : PhiGraph) (M : List (Nat × Nat)) (sccN : List Nat)
    (dp : Nat) (ms : List Nat) (u : Option Nat) (r : Bool) (sccA : Scc)
    (st : SccState) (fin : Option Nat × Bool × Scc × SccState) : Prop where
  up_eq : fin.1 = (upRed (u, r) (outScc g M sccN ms)).1
  red_eq : fin.2.1 = (upRed (u, r) (outScc g M sccN ms)).2
  nodes_eq : fin.2.2.1.sccNodes = sccA.sccNodes
  depth_none : (∀ m ∈ ms, eligMember g M sccN m = false) →
      fin.2.2.1.depth = sccA.depth
  depth_some : (∃ m ∈ ms, eligMember g M sccN m = true) →
      fin.2.2.1.depth = dp + 1
  map_eq : fin.2.2.2.repMap = st.repMap
  stack_eq : fin.2.2.2.stack = st.stack
  instack_eq : fin.2.2.2.inStack = st.inStack
  next_eq : fin.2.2.2.nextIndex = st.nextIndex
  work_eq : fin.2.2.2.working = st.working
  out_frame : ∀ x, x ∉ ms →
      fin.2.2.2.dfn x = st.dfn x ∧ fin.2.2.2.depth x = st.depth x
  mem_char : ∀ x ∈ ms,
      (eligMember g M sccN x = true →
        fin.2.2.2.dfn x = 0 ∧ fin.2.2.2.depth x = dp + 1) ∧
      (eligMember g M sccN x = false →
        fin.2.2.2.dfn x = st.dfn x ∧ fin.2.2.2.depth x = st.depth x)

/-- Full characterization of one get_unique_pred evaluation. -/
structure GupRes (g : PhiGraph) (M : List (Nat × Nat)) (st0 : SccState)
    (scc : Scc) (dp : Nat) (out : Option Nat × Scc × SccState) : Prop where
  map_eq : out.2.2.repMap = st0.repMap
  stack_eq : out.2.2.stack = st0.stack
  instack_eq : out.2.2.inStack = st0.inStack
  next_eq : out.2.2.nextIndex = st0.nextIndex
  work_eq : out.2.2.working = st0.working
  nodes_eq : out.2.1.sccNodes = scc.sccNodes
  out_frame : ∀ x, x ∉ scc.sccNodes →
      out.2.2.dfn x = st0.dfn x ∧ out.2.2.depth x = st0.depth x
  mem_elig : ∀ x ∈ scc.sccNodes, eligMember g M scc.sccNodes x = true →
      out.2.2.dfn x = 0 ∧ out.2.2.depth x = dp + 1
  mem_inelig : ∀ x ∈ scc.sccNodes, eligMember g M scc.sccNodes x = false →
      out.2.2.dfn x = st0.dfn x ∧ out.2.2.depth x = st0.depth x
  some_char : ∀ u, out.1 = some u →
      u ∉ scc.sccNodes ∧
      (∃ m ∈ scc.sccNodes, ∃ p ∈ g.preds m, p ≠ m ∧ resolve1 M p = u) ∧
      (∀ m ∈ scc.sccNodes, ∀ p ∈ g.preds m, p ≠ m →
        resolve1 M p ∈ scc.sccNodes ∨ resolve1 M p = u)
  depth_kept : (∃ x ∈ scc.sccNodes, eligMember g M scc.sccNodes x = true) →
      out.2.1.depth = dp + 1

/-- The invariant of the work-stack evaluation loop of
prepare_next_iteration. -/
structure PInv (g : PhiGraph) (L : List Scc) (st : SccState) : Prop where
  chain_free : ∀ e ∈ st.repMap, ∀ e2 ∈ st.repMap, e.2 ≠ e2.1
  keys_nodup : (st.repMap.map Prod.fst).Nodup
  keys_pend : ∀ e ∈ st.repMap, e.1 ∉ sccListNodes L
  vals_pend : ∀ e ∈ st.repMap, e.2 ∉ sccListNodes L
  pend_nodup : ∀ scc ∈ L, scc.sccNodes.Nodup
  pend_disj : ∀ l1 s1 l2, L = l1 ++ s1 :: l2 → ∀ m ∈ s1.sccNodes,
      ∀ s2 ∈ l2, m ∉ s2.sccNodes
  pend_ord : ∀ l1 s1 l2, L = l1 ++ s1 :: l2 → ∀ m ∈ s1.sccNodes,
      ∀ p ∈ g.preds m, st.repMap.lookup p = none → p ∉ sccListNodes l2
  pend_depth : ∀ scc ∈ L, ∀ m ∈ scc.sccNodes, st.depth m = scc.depth
  pend_phi : ∀ scc ∈ L, ∀ m ∈ scc.sccNodes,
      g.isPhi m = true ∧ g.phiLoop m = false
  key_phi : ∀ e ∈ st.repMap, g.isPhi e.1 = true ∧ g.phiLoop e.1 = false
  key_pred : ∀ e ∈ st.repMap, ∀ p ∈ g.preds e.1, p ≠ e.1 →
      resolve1 st.repMap p = e.2

/-- The outcome of one prepare_next_iteration evaluation loop. -/
structure PrepOut (g : PhiGraph) (st : SccState) (out : List Scc × SccState) :
    Prop where
  pinv : PInv g out.1 out.2
  map_ext : ∃ N, out.2.repMap = st.repMap ++ N
  stack_eq : out.2.stack = st.stack
  instack_eq : out.2.inStack = st.inStack
  next_eq : out.2.nextIndex = st.nextIndex
  work_eq : out.2.working = st.working
  dfn_or : ∀ m, out.2.dfn m = st.dfn m ∨ out.2.dfn m = 0
  head_char : ∀ s1 rest2, out.1 = s1 :: rest2 →
      (∀ m ∈ s1.sccNodes, out.2.dfn m = 0) ∧
      (∀ m ∈ s1.sccNodes, ∀ p ∈ g.preds m,
        is_removable g out.2 s1.depth (resolve1 out.2.repMap p) = true →
        resolve1 out.2.repMap p ∈ s1.sccNodes) ∧
      (∀ scc ∈ rest2, ∀ m ∈ scc.sccNodes, out.2.dfn m ≠ 0) ∧
      1 < s1.sccNodes.length

/-- The between-phase invariant of the main loop. -/
structure OInv (g : PhiGraph) (L : List Scc) (st : SccState) : Prop where
  pinv : PInv g L st
  stack_nil : st.stack = []
  instack_false : ∀ n, st.inStack n = false
  work_nil : st.working = []
  dfn_le : ∀ n, st.dfn n ≤ st.nextIndex
  head_f : ∀ s1 rest, L = s1 :: rest →
      (∀ m ∈ s1.sccNodes, st.dfn m = 0) ∧
      (∀ m ∈ s1.sccNodes, ∀ p ∈ g.preds m,
        is_removable g st s1.depth (resolve1 st.repMap p) = true →
        resolve1 st.repMap p ∈ s1.sccNodes) ∧
      (∀ scc ∈ rest, ∀ m ∈ scc.sccNodes, st.dfn m ≠ 0)

/-- Total number of node slots pending on the work stack. -/
def sccSize (L : List Scc) : Nat := (sccListNodes L).length

/-- The head SCC of a prepare result is nonempty and closed under all of
its members' resolved non-self operands: the shape of a completely
isolated Phi SCC, which keeps the work-stack loop spinning. -/
def headClosed (g : PhiGraph) (out : List Scc × SccState) : Prop :=
  ∃ s1 rest2, out.1 = s1 :: rest2 ∧ s1.sccNodes ≠ [] ∧
    ∀ m ∈ s1.sccNodes, ∀ p ∈ g.preds m, p ≠ m →
      resolve1 out.2.repMap p ∈ s1.sccNodes

/-! # Theorems -/

/-! ### Arithmetic facts about round_up2 -/

theorem round_up2_facts (x a : Nat) (ha : 0 < a) :
    x ≤ round_up2 x a ∧ round_up2 x a < x + a ∧ round_up2 x a % a = 0 := by
  unfold round_up2
  have h1 := Nat.div_add_mod (x + a - 1) a
  have h2 : (x + a - 1) % a < a := Nat.mod_lt _ ha
  refine ⟨?_, ?_, Nat.mul_mod_left _ _⟩
  · rw [Nat.mul_comm]; omega
  · rw [Nat.mul_comm]; omega

/-! ### C7: concrete frame layout -/

/-- C7: a frame with two unassigned spill slots, slot nr 2 of size and
alignment 8 and slot nr 1 of size and alignment 4, sorted with spill slots
not placed last and laid out with begin 0 and misalign 0, puts member nr 1
at offset -4 and member nr 2 at offset -16 and sets the frame size to
16. -/
theorem c7_frame_layout_example :
    be_layout_frame_type
      (be_sort_frame_entities
        [⟨2, .spillslot, 8, 8, 0, 0, none⟩, ⟨1, .spillslot, 4, 4, 0, 0, none⟩] true) 0 0 =
      some ([⟨1, .spillslot, 4, 4, 0, 0, some (-4)⟩,
             ⟨2, .spillslot, 8, 8, 0, 0, some (-16)⟩], 16) := by
  decide

/-! ### C8: IncSP rewriting in the stack pointer simulation -/

/-- C8 counterexample: an IncSP with delta -12 and align 4 starting at
offset 0 with misalign 0 fails the assertion ofs >= 0 of
process_stack_bias (it is not rewritten to -16 with post-offset -16); and
for the well-formed delta 12 the slack is added to delta and offset but
not to wanted_bias. -/
theorem c8_counterexample :
    simInsns 0 0 [SpInsn.incsp (-12) 4] 0 0 = none ∧
    simInsns 0 0 [SpInsn.incsp 12 4] 0 0 = some ([SpInsn.incsp 16 4], 16, 12) := by
  decide

/-- C8 amended: for an IncSP with align > 0, the simulator requires a
non-negative delta; it then computes the (minimal, non-negative) slack
that makes offset + delta + misalign a multiple of 2^align, rewrites the
node delta by adding that slack, accumulates slack and original delta into
offset, but accumulates only the original delta into wanted_bias.  In
particular delta 12 at offset 0 with align 4 becomes 16 with post-offset
16. -/
theorem c8_amended (off wb ofs : Int) (align p2align misalign : Nat)
    (hoff : 0 ≤ off) (hofs : 0 ≤ ofs) (hal : 0 < max align p2align)
    (hbound : off + ofs + misalign + 2 ^ max align p2align ≤ (UINT_MOD : Int)) :
    ∃ slack : Int, 0 ≤ slack ∧ slack < 2 ^ max align p2align ∧
      (off + ofs + slack + misalign) % ((2 : Int) ^ max align p2align) = 0 ∧
      processNode p2align misalign (.incsp ofs align) off wb =
        some (.incsp (ofs + slack) align, off + ofs + slack, wb + ofs) := by
  have hApos : 0 < 2 ^ max align p2align := Nat.pos_pow_of_pos _ (by norm_num)
  have hA1 : (1 : Int) ≤ 2 ^ max align p2align := by exact_mod_cast hApos
  have hmis : (0 : Int) ≤ misalign := Int.natCast_nonneg _
  have hlt : off + ofs < (UINT_MOD : Int) := by omega
  have hmodeq : (off + ofs) % (UINT_MOD : Int) = off + ofs :=
    Int.emod_eq_of_lt (by omega) hlt
  have hScast : ((off + ofs).toNat : Int) = off + ofs := Int.toNat_of_nonneg (by omega)
  obtain ⟨hge, hltr, hmod⟩ :=
    round_up2_facts ((off + ofs).toNat + misalign) (2 ^ max align p2align) hApos
  have hRUge : misalign ≤ round_up2 ((off + ofs).toNat + misalign) (2 ^ max align p2align) :=
    le_trans (Nat.le_add_left _ _) hge
  have hrum : round_up2_misaligned (off + ofs).toNat (2 ^ max align p2align) misalign =
      round_up2 ((off + ofs).toNat + misalign) (2 ^ max align p2align) - misalign := rfl
  have hgeZ : ((off + ofs).toNat : Int) + misalign ≤
      (round_up2 ((off + ofs).toNat + misalign) (2 ^ max align p2align) : Int) := by
    exact_mod_cast hge
  have hltZ : (round_up2 ((off + ofs).toNat + misalign) (2 ^ max align p2align) : Int) <
      ((off + ofs).toNat : Int) + misalign + 2 ^ max align p2align := by
    exact_mod_cast hltr
  have hmodZ : (round_up2 ((off + ofs).toNat + misalign) (2 ^ max align p2align) : Int) %
      ((2 : Int) ^ max align p2align) = 0 := by
    exact_mod_cast hmod
  have hsubZ : ((round_up2_misaligned (off + ofs).toNat (2 ^ max align p2align) misalign : Nat) : Int) =
      (round_up2 ((off + ofs).toNat + misalign) (2 ^ max align p2align) : Int) - misalign := by
    rw [hrum]
    exact_mod_cast Int.ofNat_sub hRUge
  refine ⟨((round_up2_misaligned (off + ofs).toNat (2 ^ max align p2align) misalign : Nat) : Int)
      - (off + ofs), ?_, ?_, ?_, ?_⟩
  · omega
  · omega
  · have hexpr : off + ofs +
        (((round_up2_misaligned (off + ofs).toNat (2 ^ max align p2align) misalign : Nat) : Int)
          - (off + ofs)) + misalign =
        (round_up2 ((off + ofs).toNat + misalign) (2 ^ max align p2align) : Int) := by
      omega
    rw [hexpr, hmodZ]
  · simp only [processNode, hmodeq]
    rw [if_pos hal, if_neg (not_lt.mpr hofs)]
    by_cases hsl : 0 <
        (((round_up2_misaligned (off + ofs).toNat (2 ^ max align p2align) misalign : Nat) : Int)
          - (off + ofs))
    · rw [if_pos hsl]
      have hassoc : off +
          (((round_up2_misaligned (off + ofs).toNat (2 ^ max align p2align) misalign : Nat) : Int)
            - (off + ofs)) + ofs =
          off + ofs +
          (((round_up2_misaligned (off + ofs).toNat (2 ^ max align p2align) misalign : Nat) : Int)
            - (off + ofs)) := by ring
      rw [hassoc]
    · rw [if_neg hsl]
      have h0 : ((round_up2_misaligned (off + ofs).toNat (2 ^ max align p2align) misalign : Nat) : Int)
          - (off + ofs) = 0 := by omega
      rw [h0, add_zero, add_zero]

theorem c8_amended_witness :
    (0 : Int) ≤ 0 ∧ (0 : Int) ≤ 12 ∧ 0 < max 4 0 ∧
    ((0 : Int) + 12 + (0 : Nat) + 2 ^ max 4 0 ≤ (UINT_MOD : Int)) ∧
    (∃ slack : Int, 0 ≤ slack ∧ slack < 2 ^ max 4 0 ∧
      ((0 : Int) + 12 + slack + (0 : Nat)) % ((2 : Int) ^ max 4 0) = 0 ∧
      processNode 0 0 (.incsp 12 4) 0 0 =
        some (.incsp (12 + slack) 4, 0 + 12 + slack, 0 + 12)) :=
  ⟨le_refl 0, by norm_num, by decide, by decide,
   c8_amended 0 0 12 4 0 0 (le_refl 0) (by norm_num) (by decide) (by decide)⟩

/-! ### C9: the simulator invariant offset >= wanted_bias -/

theorem processNode_inv (p2 mis : Nat) (i i2 : SpInsn) (off wb off2 wb2 : Int)
    (h : processNode p2 mis i off wb = some (i2, off2, wb2)) (hwb : wb ≤ off) :
    wb2 ≤ off2 := by
  cases i with
  | incsp ofs align =>
      simp only [processNode] at h
      split_ifs at h with h1 h2 h3 h4 h5 <;>
        simp only [Option.some.injEq, Prod.mk.injEq] at h <;> omega
  | memperm r =>
      simp only [processNode, Option.some.injEq, Prod.mk.injEq] at h
      omega
  | other newOffset =>
      simp only [processNode, Option.some.injEq, Prod.mk.injEq] at h
      obtain ⟨-, h2, h3⟩ := h
      by_cases hz : newOffset = 0
      · rw [if_pos hz] at h3; omega
      · rw [if_neg hz] at h3; omega

theorem processNode_incsp_nonneg (p2 mis : Nat) (ofs : Int) (align : Nat)
    (off wb : Int) (r : SpInsn × Int × Int)
    (h : processNode p2 mis (.incsp ofs align) off wb = some r)
    (hal : 0 < max align p2) : 0 ≤ ofs := by
  simp only [processNode] at h
  rw [if_pos hal] at h
  by_cases hneg : ofs < 0
  · rw [if_pos hneg] at h; exact absurd h (by simp)
  · omega

theorem simInsns_inv (p2 mis : Nat) (l : List SpInsn) (off wb : Int)
    (r : List SpInsn × Int × Int)
    (h : simInsns p2 mis l off wb = some r) (hwb : wb ≤ off) :
    r.2.2 ≤ r.2.1 := by
  induction l generalizing off wb r with
  | nil => simp only [simInsns, Option.some.injEq] at h; rw [← h]; exact hwb
  | cons insn rest ih =>
      cases hp : processNode p2 mis insn off wb with
      | none => simp only [simInsns, hp] at h; exact Option.noConfusion h
      | some st =>
          obtain ⟨i2, off2, wb2⟩ := st
          cases hq : simInsns p2 mis rest off2 wb2 with
          | none => simp only [simInsns, hp, hq] at h; exact Option.noConfusion h
          | some st2 =>
              obtain ⟨r2, offF, wbF⟩ := st2
              simp only [simInsns, hp, hq, Option.some.injEq] at h
              have hinv := processNode_inv p2 mis insn i2 off wb off2 wb2 hp hwb
              have hrec := ih off2 wb2 (r2, offF, wbF) hq hinv
              rw [← h]
              exact hrec

theorem simInsns_take (p2 mis : Nat) (l : List SpInsn) (off wb : Int)
    (r : List SpInsn × Int × Int)
    (h : simInsns p2 mis l off wb = some r) (k : Nat) :
    ∃ m : List SpInsn × Int × Int, simInsns p2 mis (l.take k) off wb = some m := by
  induction l generalizing off wb r k with
  | nil => exact ⟨([], off, wb), by cases k <;> simp [simInsns]⟩
  | cons insn rest ih =>
      cases k with
      | zero => exact ⟨([], off, wb), by simp [simInsns]⟩
      | succ k2 =>
          cases hp : processNode p2 mis insn off wb with
          | none => simp only [simInsns, hp] at h; exact Option.noConfusion h
          | some st =>
              obtain ⟨i2, off2, wb2⟩ := st
              cases hq : simInsns p2 mis rest off2 wb2 with
              | none => simp only [simInsns, hp, hq] at h; exact Option.noConfusion h
              | some st2 =>
                  obtain ⟨m, hm⟩ := ih off2 wb2 st2 hq k2
                  refine ⟨(i2 :: m.1, m.2.1, m.2.2), ?_⟩
                  simp only [List.take, simInsns, hp, hm]

theorem simInsns_incsp_nonneg (p2 mis : Nat) (l : List SpInsn) (off wb : Int)
    (r : List SpInsn × Int × Int)
    (h : simInsns p2 mis l off wb = some r) (ofs : Int) (align : Nat)
    (hmem : SpInsn.incsp ofs align ∈ l) (hal : 0 < max align p2) : 0 ≤ ofs := by
  induction l generalizing off wb r with
  | nil => cases hmem
  | cons insn rest ih =>
      cases hp : processNode p2 mis insn off wb with
      | none => simp only [simInsns, hp] at h; exact Option.noConfusion h
      | some st =>
          obtain ⟨i2, off2, wb2⟩ := st
          cases hq : simInsns p2 mis rest off2 wb2 with
          | none => simp only [simInsns, hp, hq] at h; exact Option.noConfusion h
          | some st2 =>
              rcases List.mem_cons.mp hmem with heq | hmem2
              · exact processNode_incsp_nonneg p2 mis ofs align off wb
                  (i2, off2, wb2) (heq ▸ hp) hal
              · exact ih off2 wb2 st2 hq hmem2

theorem simBlockPath_inv (p2 mis : Nat) (bs : List (List SpInsn)) (off wb : Int)
    (r : Int × Int) (h : simBlockPath p2 mis bs off wb = some r) (hwb : wb ≤ off) :
    r.2 ≤ r.1 := by
  induction bs generalizing off wb with
  | nil => simp only [simBlockPath, Option.some.injEq] at h; rw [← h]; exact hwb
  | cons blk rest ih =>
      cases hq : simInsns p2 mis blk off wb with
      | none => simp only [simBlockPath, hq] at h; exact Option.noConfusion h
      | some st =>
          obtain ⟨l2, off2, wb2⟩ := st
          simp only [simBlockPath, hq] at h
          exact ih off2 wb2 h (simInsns_inv p2 mis blk off wb (l2, off2, wb2) hq hwb)

theorem simBlockPath_append_inv (p2 mis : Nat) (bs1 bs2 : List (List SpInsn))
    (off wb : Int) (r : Int × Int)
    (h : simBlockPath p2 mis (bs1 ++ bs2) off wb = some r) :
    ∃ st : Int × Int, simBlockPath p2 mis bs1 off wb = some st ∧
      simBlockPath p2 mis bs2 st.1 st.2 = some r := by
  induction bs1 generalizing off wb with
  | nil => exact ⟨(off, wb), rfl, h⟩
  | cons blk rest ih =>
      rw [List.cons_append] at h
      cases hq : simInsns p2 mis blk off wb with
      | none => simp only [simBlockPath, hq] at h; exact Option.noConfusion h
      | some st =>
          obtain ⟨l2, off2, wb2⟩ := st
          simp only [simBlockPath, hq] at h
          obtain ⟨st2, h1, h2⟩ := ih off2 wb2 h
          exact ⟨st2, by simp only [simBlockPath, hq]; exact h1, h2⟩

/-- C9: starting from offset 0 and wanted_bias 0, at every program point
the simulator reaches (the end, every block boundary, and every step
inside every block along the path) the invariant offset >= wanted_bias
holds; and every IncSP node processed with an alignment in force has a
non-negative delta. -/
theorem c9_sp_simulation (p2 mis : Nat) (blocks : List (List SpInsn)) (res : Int × Int)
    (h : simBlockPath p2 mis blocks 0 0 = some res) :
    res.2 ≤ res.1 ∧
    (∀ bpre blk bpost, blocks = bpre ++ blk :: bpost →
      ∃ st : Int × Int, simBlockPath p2 mis bpre 0 0 = some st ∧ st.2 ≤ st.1 ∧
        ∀ k, ∃ m : List SpInsn × Int × Int,
          simInsns p2 mis (blk.take k) st.1 st.2 = some m ∧ m.2.2 ≤ m.2.1) ∧
    (∀ blk ∈ blocks, ∀ ofs align, SpInsn.incsp ofs align ∈ blk →
      0 < max align p2 → 0 ≤ ofs) := by
  refine ⟨simBlockPath_inv p2 mis blocks 0 0 res h (le_refl 0), ?_, ?_⟩
  · intro bpre blk bpost heq
    subst heq
    obtain ⟨st, h1, h2⟩ := simBlockPath_append_inv p2 mis bpre (blk :: bpost) 0 0 res h
    have hstinv : st.2 ≤ st.1 := simBlockPath_inv p2 mis bpre 0 0 st h1 (le_refl 0)
    refine ⟨st, h1, hstinv, ?_⟩
    intro k
    cases hq : simInsns p2 mis blk st.1 st.2 with
    | none => simp only [simBlockPath, hq] at h2; exact Option.noConfusion h2
    | some m0 =>
        obtain ⟨m, hm⟩ := simInsns_take p2 mis blk st.1 st.2 m0 hq k
        exact ⟨m, hm, simInsns_inv p2 mis (blk.take k) st.1 st.2 m hm hstinv⟩
  · intro blk hmem ofs align hin hal
    obtain ⟨l1, l2, heq⟩ := List.append_of_mem hmem
    subst heq
    obtain ⟨st, h1, h2⟩ := simBlockPath_append_inv p2 mis l1 (blk :: l2) 0 0 res h
    cases hq : simInsns p2 mis blk st.1 st.2 with
    | none => simp only [simBlockPath, hq] at h2; exact Option.noConfusion h2
    | some m0 =>
        exact simInsns_incsp_nonneg p2 mis blk st.1 st.2 m0 hq ofs align hin hal

theorem c9_sp_simulation_witness :
    simBlockPath 0 0 [[SpInsn.incsp 8 2], [SpInsn.other 5, SpInsn.memperm none]] 0 0 =
      some (5, 5) ∧
    (((5 : Int), (5 : Int)).2 ≤ ((5 : Int), (5 : Int)).1 ∧
    (∀ bpre blk bpost,
      [[SpInsn.incsp 8 2], [SpInsn.other 5, SpInsn.memperm none]] = bpre ++ blk :: bpost →
      ∃ st : Int × Int, simBlockPath 0 0 bpre 0 0 = some st ∧ st.2 ≤ st.1 ∧
        ∀ k, ∃ m : List SpInsn × Int × Int,
          simInsns 0 0 (blk.take k) st.1 st.2 = some m ∧ m.2.2 ≤ m.2.1) ∧
    (∀ blk ∈ [[SpInsn.incsp 8 2], [SpInsn.other 5, SpInsn.memperm none]],
      ∀ ofs align, SpInsn.incsp ofs align ∈ blk → 0 < max align 0 → 0 ≤ ofs)) :=
  ⟨by decide, c9_sp_simulation 0 0 _ (5, 5) (by decide)⟩

/-! ### C10: early return of be_fix_stack_nodes -/

/-- C10: when the walk collects no stack pointer node (no node outside
mode_T carries the sp register), be_fix_stack_nodes returns before the SSA
construction and leaves the graph unchanged, whatever the SSA construction
would do. -/
theorem c10_fix_stack_noop (ssaConstr : FixGraph → List Nat → FixGraph)
    (g : FixGraph) (sp : Nat)
    (h : (g.nodes.filter (isSpNode sp)).isEmpty = true) :
    be_fix_stack_nodes ssaConstr g sp = g := by
  rw [List.isEmpty_iff] at h
  simp only [be_fix_stack_nodes, h, List.map_nil, List.isEmpty_nil, if_true]

theorem c10_fix_stack_noop_witness :
    ((FixGraph.mk [⟨0, false, some 1, false, []⟩] [0]).nodes.filter (isSpNode 3)).isEmpty
      = true ∧
    be_fix_stack_nodes (fun _ _ => ⟨[], []⟩) ⟨[⟨0, false, some 1, false, []⟩], [0]⟩ 3 =
      ⟨[⟨0, false, some 1, false, []⟩], [0]⟩ :=
  ⟨by decide, c10_fix_stack_noop (fun _ _ => ⟨[], []⟩) ⟨[⟨0, false, some 1, false, []⟩], [0]⟩ 3
    (by decide)⟩

/-! ### C5: the workset bound and operand admission of displace -/

theorem workset_contains_iff (ws : List Loc) (v : Nat) :
    workset_contains ws v = true ↔ v ∈ ws.map Loc.irn := by
  unfold workset_contains
  rw [List.any_eq_true]
  constructor
  · rintro ⟨l, hl, he⟩
    exact List.mem_map.mpr ⟨l, hl, by simpa using he⟩
  · intro h
    obtain ⟨l, hl, he⟩ := List.mem_map.mp h
    exact ⟨l, hl, by simp [he]⟩

theorem workset_insert_length (env : BeladyEnv) (ws : List Loc) (v : Nat) :
    (workset_insert env ws v).length ≤ ws.length + 1 := by
  unfold workset_insert
  split_ifs <;> simp

theorem foldl_insert_length (env : BeladyEnv) (l : List Loc) (ws : List Loc) :
    (l.foldl (fun acc lc => workset_insert env acc lc.irn) ws).length ≤
      ws.length + l.length := by
  induction l generalizing ws with
  | nil => simp
  | cons a rest ih =>
      calc (List.foldl (fun acc lc => workset_insert env acc lc.irn) (workset_insert env ws a.irn) rest).length
          ≤ (workset_insert env ws a.irn).length + rest.length := ih _
        _ ≤ ws.length + 1 + rest.length := by
            have := workset_insert_length env ws a.irn
            omega
        _ = ws.length + (a :: rest).length := by simp only [List.length_cons]; omega

theorem workset_insert_mem_self (env : BeladyEnv) (ws : List Loc) (v : Nat)
    (hc : env.considered v = true) : v ∈ (workset_insert env ws v).map Loc.irn := by
  unfold workset_insert
  rw [hc]
  simp only [Bool.not_true, Bool.false_eq_true, if_false]
  by_cases hw : workset_contains ws v = true
  · rw [if_pos hw]; exact (workset_contains_iff ws v).mp hw
  · rw [if_neg hw]; simp

theorem workset_insert_mem_mono (env : BeladyEnv) (ws : List Loc) (u v : Nat)
    (h : v ∈ ws.map Loc.irn) : v ∈ (workset_insert env ws u).map Loc.irn := by
  unfold workset_insert
  split_ifs <;> simp_all

theorem foldl_insert_mem_mono (env : BeladyEnv) (l : List Loc) (ws : List Loc) (v : Nat)
    (h : v ∈ ws.map Loc.irn) :
    v ∈ (l.foldl (fun acc lc => workset_insert env acc lc.irn) ws).map Loc.irn := by
  induction l generalizing ws with
  | nil => exact h
  | cons a rest ih => exact ih _ (workset_insert_mem_mono env ws a.irn v h)

theorem foldl_insert_mem (env : BeladyEnv) (l : List Loc) (ws : List Loc) (lc : Loc)
    (hmem : lc ∈ l) (hc : env.considered lc.irn = true) :
    lc.irn ∈ (l.foldl (fun acc x => workset_insert env acc x.irn) ws).map Loc.irn := by
  induction l generalizing ws with
  | nil => cases hmem
  | cons a rest ih =>
      rcases List.mem_cons.mp hmem with heq | hmem2
      · subst heq
        exact foldl_insert_mem_mono env rest _ lc.irn
          (workset_insert_mem_self env ws lc.irn hc)
      · exact ih _ hmem2

theorem displace_ws_eq (env : BeladyEnv) (used : List Nat)
    (wsStart ws newVals : List Loc) (isUsage : Bool) :
    (displace env used wsStart ws newVals isUsage).ws =
      (if ws.length > env.nRegs -
          (newVals.filter (fun l => !workset_contains ws l.irn)).length then
        (newVals.filter (fun l => !workset_contains ws l.irn)).foldl
          (fun acc l => workset_insert env acc l.irn)
          ((worksetSort (fix_dead_values env (ws.map (fun l =>
            { l with time := get_distance env (!isUsage) l.irn })))).take
            (env.nRegs - (newVals.filter (fun l => !workset_contains ws l.irn)).length))
      else
        (newVals.filter (fun l => !workset_contains ws l.irn)).foldl
          (fun acc l => workset_insert env acc l.irn) ws) := by
  simp only [displace]
  split_ifs <;> rfl

theorem displace_reloads_eq (env : BeladyEnv) (used : List Nat)
    (wsStart ws newVals : List Loc) (isUsage : Bool) :
    (displace env used wsStart ws newVals isUsage).reloads =
      (if isUsage then
        (newVals.filter (fun l => !workset_contains ws l.irn)).map (fun l => l.irn)
      else []) := by
  simp only [displace]
  split_ifs <;> rfl

/-- C5 amended: the starting workset and the workset after every displace
hold at most n_regs values (given the capacity bound on new_vals the rest
of the pass guarantees); and every value of new_vals in the register class
that is absent from the workset is inserted by displace, with a reload
requested when the displace is for uses.  (A value already in the workset
can be evicted by the very displace that processes the instruction using
it, see the counterexample.) -/
theorem c5_amended (env : BeladyEnv) (used : List Nat)
    (wsStart ws newVals starters : List Loc) (isUsage : Bool)
    (hws : ws.length ≤ env.nRegs) (hnv : newVals.length ≤ env.nRegs) :
    (startWorkset env starters).length ≤ env.nRegs ∧
    (displace env used wsStart ws newVals isUsage).ws.length ≤ env.nRegs ∧
    (∀ l ∈ newVals, env.considered l.irn = true →
      workset_contains ws l.irn = false →
        l.irn ∈ (displace env used wsStart ws newVals isUsage).ws.map Loc.irn ∧
        (isUsage = true →
          l.irn ∈ (displace env used wsStart ws newVals isUsage).reloads)) := by
  have hfil : (newVals.filter (fun l => !workset_contains ws l.irn)).length ≤
      newVals.length := List.length_filter_le _ _
  refine ⟨?_, ?_, ?_⟩
  · simp only [startWorkset, List.length_take]
    exact min_le_left _ _
  · rw [displace_ws_eq]
    split_ifs with hlen
    · have h1 := foldl_insert_length env
        (newVals.filter (fun l => !workset_contains ws l.irn))
        ((worksetSort (fix_dead_values env (ws.map (fun l =>
          { l with time := get_distance env (!isUsage) l.irn })))).take
          (env.nRegs - (newVals.filter (fun l => !workset_contains ws l.irn)).length))
      have h2 : ((worksetSort (fix_dead_values env (ws.map (fun l =>
          { l with time := get_distance env (!isUsage) l.irn })))).take
          (env.nRegs - (newVals.filter (fun l => !workset_contains ws l.irn)).length)).length ≤
          env.nRegs - (newVals.filter (fun l => !workset_contains ws l.irn)).length := by
        rw [List.length_take]; exact min_le_left _ _
      omega
    · have h1 := foldl_insert_length env
        (newVals.filter (fun l => !workset_contains ws l.irn)) ws
      omega
  · intro l hl hc hnc
    have hmemf : l ∈ newVals.filter (fun l => !workset_contains ws l.irn) :=
      List.mem_filter.mpr ⟨hl, by rw [hnc]; rfl⟩
    constructor
    · rw [displace_ws_eq]
      split_ifs with hlen
      · exact foldl_insert_mem env _ _ l hmemf hc
      · exact foldl_insert_mem env _ _ l hmemf hc
    · intro hu
      rw [displace_reloads_eq, if_pos hu]
      exact List.mem_map.mpr ⟨l, hmemf, rfl⟩

/-- C5 counterexample: node 2 is an operand (in the class) of the current
instruction and is in the workset when displace for uses runs, yet the
eviction step drops it (it ties at distance 0 with the dont_spill value 1
that sits in front of it), so the instruction is processed with operand 2
absent from the workset and no reload was requested for it. -/
theorem c5_counterexample :
    (2 : Nat) ∈ ([⟨2, 0⟩, ⟨3, 0⟩] : List Loc).map Loc.irn ∧
    envC5.considered 2 = true ∧
    workset_contains [⟨1, 0⟩, ⟨2, 0⟩] 2 = true ∧
    (displace envC5 [] [] [⟨1, 0⟩, ⟨2, 0⟩] [⟨2, 0⟩, ⟨3, 0⟩] true).ws.map Loc.irn
      = [1, 3] ∧
    ¬ ((2 : Nat) ∈
      (displace envC5 [] [] [⟨1, 0⟩, ⟨2, 0⟩] [⟨2, 0⟩, ⟨3, 0⟩] true).ws.map Loc.irn) ∧
    ¬ ((2 : Nat) ∈
      (displace envC5 [] [] [⟨1, 0⟩, ⟨2, 0⟩] [⟨2, 0⟩, ⟨3, 0⟩] true).reloads) := by
  decide

theorem c5_amended_witness :
    ([⟨1, 0⟩] : List Loc).length ≤ envC5.nRegs ∧
    ([⟨2, 0⟩] : List Loc).length ≤ envC5.nRegs ∧
    ((startWorkset envC5 [⟨7, 3⟩]).length ≤ envC5.nRegs ∧
     (displace envC5 [] [] [⟨1, 0⟩] [⟨2, 0⟩] true).ws.length ≤ envC5.nRegs ∧
     (∀ l ∈ ([⟨2, 0⟩] : List Loc), envC5.considered l.irn = true →
       workset_contains [⟨1, 0⟩] l.irn = false →
         l.irn ∈ (displace envC5 [] [] [⟨1, 0⟩] [⟨2, 0⟩] true).ws.map Loc.irn ∧
         (true = true →
           l.irn ∈ (displace envC5 [] [] [⟨1, 0⟩] [⟨2, 0⟩] true).reloads))) :=
  ⟨by decide, by decide,
   c5_amended envC5 [] [] [⟨1, 0⟩] [⟨2, 0⟩] [⟨7, 3⟩] true (by decide) (by decide)⟩

/-! ### C6: the eviction step of displace -/

/-- C6 counterexample: loc_compare sorts by ascending distance, not
descending: on times 5 and 3 the sort puts 3 first, and the subsequent
tail eviction of displace keeps the smallest-distance member (node 2 with
distance 3), not the largest. -/
theorem c6_counterexample :
    worksetSort [⟨1, 5⟩, ⟨2, 3⟩] = [⟨2, 3⟩, ⟨1, 5⟩] ∧
    ¬ List.Sorted (fun a b : Loc => b.time ≤ a.time) (worksetSort [⟨1, 5⟩, ⟨2, 3⟩]) ∧
    (displace envC6 [] [] [⟨1, 0⟩, ⟨2, 0⟩] [⟨3, 0⟩] true).ws = [⟨2, 3⟩, ⟨3, 0⟩] := by
  decide

/-- C6 amended: when the workset has fewer free slots than the demand,
displace refreshes every distance from the current instruction, applies
the dead-value fix (INT_MAX for members whose remaining users all precede
the instruction in its block), sorts by distance ascending (INT_MAX
greatest) and evicts from the tail, so every surviving member has a
refreshed distance no larger than that of any evicted member: dead values
are evicted first and the survivors are the members with the smallest
refreshed distances. -/
theorem c6_amended (env : BeladyEnv) (used : List Nat)
    (wsStart ws newVals : List Loc) (isUsage : Bool)
    (hlen : ws.length > env.nRegs -
      (newVals.filter (fun l => !workset_contains ws l.irn)).length) :
    ((displace env used wsStart ws newVals isUsage).ws =
      (newVals.filter (fun l => !workset_contains ws l.irn)).foldl
        (fun acc l => workset_insert env acc l.irn)
        ((worksetSort (fix_dead_values env (ws.map (fun l =>
          { l with time := get_distance env (!isUsage) l.irn })))).take
          (env.nRegs - (newVals.filter (fun l => !workset_contains ws l.irn)).length))) ∧
    (∀ a ∈ (worksetSort (fix_dead_values env (ws.map (fun l =>
        { l with time := get_distance env (!isUsage) l.irn })))).take
        (env.nRegs - (newVals.filter (fun l => !workset_contains ws l.irn)).length),
     ∀ b ∈ (worksetSort (fix_dead_values env (ws.map (fun l =>
        { l with time := get_distance env (!isUsage) l.irn })))).drop
        (env.nRegs - (newVals.filter (fun l => !workset_contains ws l.irn)).length),
       a.time ≤ b.time) := by
  constructor
  · rw [displace_ws_eq, if_pos hlen]
  · have hsorted : List.Sorted (fun a b : Loc => a.time ≤ b.time)
        (worksetSort (fix_dead_values env (ws.map (fun l =>
          { l with time := get_distance env (!isUsage) l.irn })))) :=
      List.sorted_insertionSort _ _
    rw [← List.take_append_drop
      (env.nRegs - (newVals.filter (fun l => !workset_contains ws l.irn)).length)
      (worksetSort (fix_dead_values env (ws.map (fun l =>
        { l with time := get_distance env (!isUsage) l.irn }))))] at hsorted
    exact (List.pairwise_append.mp hsorted).2.2

theorem c6_amended_witness :
    (([⟨1, 0⟩, ⟨2, 0⟩] : List Loc).length > envC6.nRegs -
      (([⟨3, 0⟩] : List Loc).filter
        (fun l => !workset_contains [⟨1, 0⟩, ⟨2, 0⟩] l.irn)).length) ∧
    (((displace envC6 [] [] [⟨1, 0⟩, ⟨2, 0⟩] [⟨3, 0⟩] true).ws =
      (([⟨3, 0⟩] : List Loc).filter
        (fun l => !workset_contains [⟨1, 0⟩, ⟨2, 0⟩] l.irn)).foldl
        (fun acc l => workset_insert envC6 acc l.irn)
        ((worksetSort (fix_dead_values envC6 (([⟨1, 0⟩, ⟨2, 0⟩] : List Loc).map (fun l =>
          { l with time := get_distance envC6 (!true) l.irn })))).take
          (envC6.nRegs - (([⟨3, 0⟩] : List Loc).filter
            (fun l => !workset_contains [⟨1, 0⟩, ⟨2, 0⟩] l.irn)).length))) ∧
    (∀ a ∈ (worksetSort (fix_dead_values envC6 (([⟨1, 0⟩, ⟨2, 0⟩] : List Loc).map (fun l =>
        { l with time := get_distance envC6 (!true) l.irn })))).take
        (envC6.nRegs - (([⟨3, 0⟩] : List Loc).filter
          (fun l => !workset_contains [⟨1, 0⟩, ⟨2, 0⟩] l.irn)).length),
     ∀ b ∈ (worksetSort (fix_dead_values envC6 (([⟨1, 0⟩, ⟨2, 0⟩] : List Loc).map (fun l =>
        { l with time := get_distance envC6 (!true) l.irn })))).drop
        (envC6.nRegs - (([⟨3, 0⟩] : List Loc).filter
          (fun l => !workset_contains [⟨1, 0⟩, ⟨2, 0⟩] l.irn)).length),
       a.time ≤ b.time)) :=
  ⟨by decide, c6_amended envC6 [] [] [⟨1, 0⟩, ⟨2, 0⟩] [⟨3, 0⟩] true (by decide)⟩

/-! ### C1: the two-Phi cycle -/

/-- C1 counterexample: in gC1cex the pair phi1 = node 2 = phi(x, phi2),
phi2 = node 3 = phi(y, phi1) has x = node 1 and y = node 0, two distinct
nodes, yet the pass removes both Phis (x is itself a redundant Phi that the
pass resolves to y, after which both outside values coincide) and rewires
the user node 4 to y. -/
theorem c1_counterexample :
    gC1cex.isPhi 2 = true ∧ gC1cex.isPhi 3 = true ∧
    gC1cex.phiLoop 2 = false ∧ gC1cex.phiLoop 3 = false ∧
    gC1cex.preds 2 = [1, 3] ∧ gC1cex.preds 3 = [0, 2] ∧
    (1 : Nat) ≠ 0 ∧
    ¬ ((2 : Nat) ∈ (optRemoveUnnecessaryPhiSccs gC1cex).nodes) ∧
    ¬ ((3 : Nat) ∈ (optRemoveUnnecessaryPhiSccs gC1cex).nodes) ∧
    (optRemoveUnnecessaryPhiSccs gC1cex).preds 4 = [0] := by
  decide

theorem findSccAt_notRemovable (g : PhiGraph) (f n d : Nat) (st : SccState)
    (h : is_removable g st d n = false) :
    findSccAt g f n d st = (false, st) := by
  cases f with
  | zero => rfl
  | succ f2 => simp [findSccAt, h]

theorem findSccAt_visited (g : PhiGraph) (f n d : Nat) (st : SccState)
    (h : st.dfn n ≠ 0) : (findSccAt g f n d st).2 = st := by
  cases f with
  | zero => rfl
  | succ f2 =>
      by_cases hr : is_removable g st d n = true
      · simp [findSccAt, hr, bne, h]
      · have hfalse : is_removable g st d n = false := by
          revert hr; cases is_removable g st d n <;> simp
        simp [findSccAt, hfalse]

theorem not_removable_of_other (g : PhiGraph) (p1 p2 : Nat)
    (honly : ∀ n, g.isPhi n = true → g.phiLoop n = false → n = p1 ∨ n = p2)
    (n : Nat) (h1 : n ≠ p1) (h2 : n ≠ p2) (st : SccState) (d : Nat) :
    is_removable g st d n = false := by
  unfold is_removable
  cases hphi : g.isPhi n with
  | false => rfl
  | true =>
      cases hloop : g.phiLoop n with
      | false => exact absurd (honly n hphi hloop) (by tauto)
      | true => simp

theorem pairVisit (g : PhiGraph) (p1 p2 x y : Nat) (f : Nat)
    (hp12 : p1 ≠ p2)
    (hx1 : x ≠ p1) (hx2 : x ≠ p2) (hy1 : y ≠ p1) (hy2 : y ≠ p2)
    (hphi1 : g.isPhi p1 = true) (hloop1 : g.phiLoop p1 = false)
    (hphi2 : g.isPhi p2 = true) (hloop2 : g.phiLoop p2 = false)
    (hpreds1 : g.preds p1 = [x, p2]) (hpreds2 : g.preds p2 = [y, p1])
    (honly : ∀ n, g.isPhi n = true → g.phiLoop n = false → n = p1 ∨ n = p2) :
    (findSccAt g (f + 2) p1 0 initSccState).1 = true ∧
    (findSccAt g (f + 2) p1 0 initSccState).2.repMap = [] ∧
    (findSccAt g (f + 2) p1 0 initSccState).2.working = [⟨[p2, p1], 0⟩] ∧
    (findSccAt g (f + 2) p1 0 initSccState).2.dfn p1 = 1 ∧
    (findSccAt g (f + 2) p1 0 initSccState).2.dfn p2 = 2 ∧
    (findSccAt g (f + 2) p1 0 initSccState).2.depth p1 = 0 ∧
    (findSccAt g (f + 2) p1 0 initSccState).2.depth p2 = 0 := by
  have hp21 : p2 ≠ p1 := hp12.symm
  have hax : ∀ fl s, findSccAt g fl x 0 s = (false, s) := fun fl s =>
    findSccAt_notRemovable g fl x 0 s (not_removable_of_other g p1 p2 honly x hx1 hx2 s 0)
  have hay : ∀ fl s, findSccAt g fl y 0 s = (false, s) := fun fl s =>
    findSccAt_notRemovable g fl y 0 s (not_removable_of_other g p1 p2 honly y hy1 hy2 s 0)
  have hrem1 : ∀ st, is_removable g st 0 p1 = true := fun st => by
    simp [is_removable, hphi1, hloop1]
  have hrem2 : ∀ st, is_removable g st 0 p2 = true := fun st => by
    simp [is_removable, hphi2, hloop2]
  have hremx : ∀ (st : SccState) (d : Nat), is_removable g st d x = false :=
    not_removable_of_other g p1 p2 honly x hx1 hx2
  have hremy : ∀ (st : SccState) (d : Nat), is_removable g st d y = false :=
    not_removable_of_other g p1 p2 honly y hy1 hy2
  refine ⟨?_, ?_, ?_, ?_, ?_, ?_, ?_⟩ <;>
    simp [findSccAt, predStep, popLoop, resolve1, updF, updB, initSccState,
      Nat.min_def, hpreds1, hpreds2, hrem1, hrem2, hremx, hremy, hax, hay,
      hp12, hp21, hx1, hx2, hy1, hy2]

theorem getUniquePredPair (g : PhiGraph) (a b u v : Nat) (st : SccState)
    (hab : a ≠ b)
    (hu1 : u ≠ a) (hu2 : u ≠ b) (hv1 : v ≠ a) (hv2 : v ≠ b)
    (hpa : g.preds a = [u, b]) (hpb : g.preds b = [v, a])
    (hmap : st.repMap = []) :
    getUniquePred g st ⟨[a, b], 0⟩ =
      (if u = v then some v else none, ⟨[a, b], 0⟩, st) := by
  have hba : b ≠ a := hab.symm
  by_cases huv : u = v
  · subst huv
    simp [getUniquePred, hpa, hpb, resolve1, hmap, hab, hba, hu1, hu2]
  · simp [getUniquePred, hpa, hpb, resolve1, hmap, hab, hba, hu1, hu2, hv1, hv2, huv]

theorem foldAbsorb (step : SccState → Nat → SccState) (p1 p2 : Nat) (st : SccState)
    (hother : ∀ n, n ≠ p1 → n ≠ p2 → ∀ s, step s n = s)
    (h1 : step st p1 = st) (h2 : step st p2 = st) :
    ∀ ns : List Nat, ns.foldl step st = st := by
  intro ns
  induction ns with
  | nil => rfl
  | cons n rest ih =>
      by_cases hn1 : n = p1
      · subst hn1; rw [List.foldl_cons, h1]; exact ih
      · by_cases hn2 : n = p2
        · subst hn2; rw [List.foldl_cons, h2]; exact ih
        · rw [List.foldl_cons, hother n hn1 hn2]; exact ih

theorem foldWalk (step : SccState → Nat → SccState) (p1 p2 : Nat)
    (S0 S1 S2 : SccState)
    (hother : ∀ n, n ≠ p1 → n ≠ p2 → ∀ s, step s n = s)
    (h01 : step S0 p1 = S1) (h02 : step S0 p2 = S2)
    (h11 : step S1 p1 = S1) (h12 : step S1 p2 = S1)
    (h21 : step S2 p1 = S2) (h22 : step S2 p2 = S2) :
    ∀ ns : List Nat, p1 ∈ ns ∨ p2 ∈ ns →
      ns.foldl step S0 = S1 ∨ ns.foldl step S0 = S2 := by
  intro ns
  induction ns with
  | nil => rintro (h | h) <;> cases h
  | cons n rest ih =>
      intro hmem
      by_cases hn1 : n = p1
      · rw [List.foldl_cons, hn1, h01]
        exact Or.inl (foldAbsorb step p1 p2 S1 hother h11 h12 rest)
      · by_cases hn2 : n = p2
        · rw [List.foldl_cons, hn2, h02]
          exact Or.inr (foldAbsorb step p1 p2 S2 hother h21 h22 rest)
        · rw [List.foldl_cons, hother n hn1 hn2]
          apply ih
          rcases hmem with h | h
          · rcases List.mem_cons.mp h with h2 | h2
            · exact absurd h2.symm hn1
            · exact Or.inl h2
          · rcases List.mem_cons.mp h with h2 | h2
            · exact absurd h2.symm hn2
            · exact Or.inr h2

theorem mainLoopNil (g : PhiGraph) (f : Nat) (st : SccState) :
    mainLoop g f [] st = (st, true) := by
  cases f <;> simp [mainLoop]

theorem phaseBC (g : PhiGraph) (a b u v : Nat) (T : SccState)
    (hab : a ≠ b)
    (hu1 : u ≠ a) (hu2 : u ≠ b) (hv1 : v ≠ a) (hv2 : v ≠ b)
    (hpa : g.preds a = [u, b]) (hpb : g.preds b = [v, a])
    (hmap : T.repMap = []) (hwork : T.working = [⟨[a, b], 0⟩])
    (hdfna : T.dfn a ≠ 0) (hdfnb : T.dfn b ≠ 0) :
    (prepareNextIteration g [] T).1 = [] ∧
    (prepareNextIteration g [] T).2.repMap =
      (if u = v then [(a, v), (b, v)] else []) := by
  have hgup := getUniquePredPair g a b u v { T with working := [] } hab hu1 hu2 hv1 hv2
    hpa hpb (by simp [hmap])
  simp only [hmap] at hgup
  have ha0 : (T.dfn a == 0) = false := by simp [hdfna]
  have hb0 : (T.dfn b == 0) = false := by simp [hdfnb]
  by_cases huv : u = v
  · rw [if_pos huv]
    rw [if_pos huv] at hgup
    constructor <;>
      simp [prepareNextIteration, hwork, prepareLoop, hgup, hmap]
  · rw [if_neg huv]
    rw [if_neg huv] at hgup
    constructor <;>
      simp [prepareNextIteration, hwork, prepareLoop, hgup, hmap, ha0, hb0]

theorem optPass_eq (g : PhiGraph) :
    optRemoveUnnecessaryPhiSccs g =
      exchangeAll g (mainLoop g (mainFuel g)
        (prepareNextIteration g []
          (g.nodes.foldl (fun s n => (findSccAt g (sccFuel g) n 0 s).2) initSccState)).1
        (prepareNextIteration g []
          (g.nodes.foldl (fun s n => (findSccAt g (sccFuel g) n 0 s).2) initSccState)).2).1.repMap :=
  rfl

/-- C1 amended: in a graph whose only non-loop Phi nodes are phi1 and phi2
with operands phi1 = phi(x, phi2) and phi2 = phi(y, phi1) (x and y thus
not removable Phis themselves), the pass removes both Phis and rewires
every operand edge that referenced them to x when x = y, and changes
nothing at all when x differs from y. -/
theorem c1_amended (g : PhiGraph) (p1 p2 x y : Nat)
    (hp12 : p1 ≠ p2)
    (hx1 : x ≠ p1) (hx2 : x ≠ p2) (hy1 : y ≠ p1) (hy2 : y ≠ p2)
    (hphi1 : g.isPhi p1 = true) (hloop1 : g.phiLoop p1 = false)
    (hphi2 : g.isPhi p2 = true) (hloop2 : g.phiLoop p2 = false)
    (hpreds1 : g.preds p1 = [x, p2]) (hpreds2 : g.preds p2 = [y, p1])
    (honly : ∀ n, g.isPhi n = true → g.phiLoop n = false → n = p1 ∨ n = p2)
    (hmem : p1 ∈ g.nodes ∨ p2 ∈ g.nodes) :
    (x = y →
      (optRemoveUnnecessaryPhiSccs g).nodes =
        g.nodes.filter (fun m => decide (m ≠ p1) && decide (m ≠ p2)) ∧
      ∀ n, (optRemoveUnnecessaryPhiSccs g).preds n =
        (g.preds n).map (fun q => if q = p1 ∨ q = p2 then x else q)) ∧
    (x ≠ y → optRemoveUnnecessaryPhiSccs g = g) := by
  have hp21 : p2 ≠ p1 := hp12.symm
  obtain ⟨k, hk⟩ : ∃ k, g.nodes.length = k + 1 := by
    have hpos : 0 < g.nodes.length := by
      rcases hmem with h | h
      · exact List.length_pos.mpr (List.ne_nil_of_mem h)
      · exact List.length_pos.mpr (List.ne_nil_of_mem h)
    exact ⟨g.nodes.length - 1, by omega⟩
  have hfuel : sccFuel g = k + 2 := by simp [sccFuel, hk]
  have F1 := pairVisit g p1 p2 x y k hp12 hx1 hx2 hy1 hy2 hphi1 hloop1 hphi2 hloop2
    hpreds1 hpreds2 honly
  have honly2 : ∀ n, g.isPhi n = true → g.phiLoop n = false → n = p2 ∨ n = p1 :=
    fun n h1 h2 => (honly n h1 h2).symm
  have F2 := pairVisit g p2 p1 y x k hp21 hy2 hy1 hx2 hx1 hphi2 hloop2 hphi1 hloop1
    hpreds2 hpreds1 honly2
  rw [← hfuel] at F1 F2
  obtain ⟨-, hm1, hw1, hd11, hd12, -, -⟩ := F1
  obtain ⟨-, hm2, hw2, hd22, hd21, -, -⟩ := F2
  have hother : ∀ n, n ≠ p1 → n ≠ p2 → ∀ s : SccState,
      (findSccAt g (sccFuel g) n 0 s).2 = s := fun n h1 h2 s => by
    rw [findSccAt_notRemovable g (sccFuel g) n 0 s
      (not_removable_of_other g p1 p2 honly n h1 h2 s 0)]
  have h11 := findSccAt_visited g (sccFuel g) p1 0
    (findSccAt g (sccFuel g) p1 0 initSccState).2 (by rw [hd11]; omega)
  have h12 := findSccAt_visited g (sccFuel g) p2 0
    (findSccAt g (sccFuel g) p1 0 initSccState).2 (by rw [hd12]; omega)
  have h21 := findSccAt_visited g (sccFuel g) p1 0
    (findSccAt g (sccFuel g) p2 0 initSccState).2 (by rw [hd21]; omega)
  have h22 := findSccAt_visited g (sccFuel g) p2 0
    (findSccAt g (sccFuel g) p2 0 initSccState).2 (by rw [hd22]; omega)
  have hfold := foldWalk (fun s n => (findSccAt g (sccFuel g) n 0 s).2) p1 p2
    initSccState
    (findSccAt g (sccFuel g) p1 0 initSccState).2
    (findSccAt g (sccFuel g) p2 0 initSccState).2
    hother rfl rfl h11 h12 h21 h22 g.nodes hmem
  rcases hfold with hF | hF
  · -- the walk discovered the SCC from phi1: pop order [p2, p1]
    have PB := phaseBC g p2 p1 y x
      (findSccAt g (sccFuel g) p1 0 initSccState).2
      hp21 hy2 hy1 hx2 hx1 hpreds2 hpreds1 hm1 hw1 (by rw [hd12]; omega) (by rw [hd11]; omega)
    constructor
    · intro hxy
      subst hxy
      rw [if_pos rfl] at PB
      have hfin : optRemoveUnnecessaryPhiSccs g = exchangeAll g [(p2, x), (p1, x)] := by
        rw [optPass_eq, hF, PB.1, mainLoopNil, PB.2]
      rw [hfin]
      constructor
      · show ((g.nodes.filter (fun m => decide (m ≠ p2))).filter (fun m => decide (m ≠ p1)))
            = g.nodes.filter (fun m => decide (m ≠ p1) && decide (m ≠ p2))
        rw [List.filter_filter]
      · intro n
        show ((g.preds n).map (fun q => if q = p2 then x else q)).map
            (fun q => if q = p1 then x else q) =
          (g.preds n).map (fun q => if q = p1 ∨ q = p2 then x else q)
        rw [List.map_map]
        refine List.map_congr_left (fun q _ => ?_)
        by_cases hq2 : q = p2
        · subst hq2
          simp [hx1, hp21]
        · by_cases hq1 : q = p1
          · subst hq1
            simp [hq2]
          · simp [hq1, hq2, Function.comp]
    · intro hxy
      have hyx : ¬ (y = x) := fun h => hxy h.symm
      rw [if_neg hyx] at PB
      rw [optPass_eq, hF, PB.1, mainLoopNil, PB.2]
      rfl
  · -- the walk discovered the SCC from phi2: pop order [p1, p2]
    have PB := phaseBC g p1 p2 x y
      (findSccAt g (sccFuel g) p2 0 initSccState).2
      hp12 hx1 hx2 hy1 hy2 hpreds1 hpreds2 hm2 hw2 (by rw [hd21]; omega) (by rw [hd22]; omega)
    constructor
    · intro hxy
      subst hxy
      rw [if_pos rfl] at PB
      have hfin : optRemoveUnnecessaryPhiSccs g = exchangeAll g [(p1, x), (p2, x)] := by
        rw [optPass_eq, hF, PB.1, mainLoopNil, PB.2]
      rw [hfin]
      constructor
      · show ((g.nodes.filter (fun m => decide (m ≠ p1))).filter (fun m => decide (m ≠ p2)))
            = g.nodes.filter (fun m => decide (m ≠ p1) && decide (m ≠ p2))
        rw [List.filter_filter]
        exact List.filter_congr (fun a _ => Bool.and_comm _ _)
      · intro n
        show ((g.preds n).map (fun q => if q = p1 then x else q)).map
            (fun q => if q = p2 then x else q) =
          (g.preds n).map (fun q => if q = p1 ∨ q = p2 then x else q)
        rw [List.map_map]
        refine List.map_congr_left (fun q _ => ?_)
        by_cases hq1 : q = p1
        · subst hq1
          simp [hx2, hp12]
        · by_cases hq2 : q = p2
          · subst hq2
            simp [hq1]
          · simp [hq1, hq2, Function.comp]
    · intro hxy
      rw [if_neg hxy] at PB
      rw [optPass_eq, hF, PB.1, mainLoopNil, PB.2]
      rfl

theorem c1_amended_witness :
    ((2 : Nat) ≠ 3) ∧ ((0 : Nat) ≠ 2) ∧ ((0 : Nat) ≠ 3) ∧
    gC1w.isPhi 2 = true ∧ gC1w.phiLoop 2 = false ∧
    gC1w.isPhi 3 = true ∧ gC1w.phiLoop 3 = false ∧
    gC1w.preds 2 = [0, 3] ∧ gC1w.preds 3 = [0, 2] ∧
    (∀ n, gC1w.isPhi n = true → gC1w.phiLoop n = false → n = 2 ∨ n = 3) ∧
    ((2 : Nat) ∈ gC1w.nodes ∨ (3 : Nat) ∈ gC1w.nodes) ∧
    (((0 : Nat) = 0 →
      (optRemoveUnnecessaryPhiSccs gC1w).nodes =
        gC1w.nodes.filter (fun m => decide (m ≠ 2) && decide (m ≠ 3)) ∧
      ∀ n, (optRemoveUnnecessaryPhiSccs gC1w).preds n =
        (gC1w.preds n).map (fun q => if q = 2 ∨ q = 3 then 0 else q)) ∧
     ((0 : Nat) ≠ 0 → optRemoveUnnecessaryPhiSccs gC1w = gC1w)) :=
  ⟨by decide, by decide, by decide, by decide, by decide, by decide, by decide,
   by decide, by decide,
   fun n h1 _ => by simpa [gC1w] using h1,
   Or.inl (by decide),
   c1_amended gC1w 2 3 0 0 (by decide) (by decide) (by decide) (by decide)
     (by decide) (by decide) (by decide) (by decide) (by decide) (by decide)
     (by decide) (fun n h1 _ => by simpa [gC1w] using h1) (Or.inl (by decide))⟩

/-! ### C2: order independence of the final rewiring -/

theorem lookup_mem (M : List (Nat × Nat)) (k v : Nat) (h : M.lookup k = some v) :
    (k, v) ∈ M := by
  induction M with
  | nil => cases h
  | cons e rest ih =>
      by_cases hk : k = e.1
      · subst hk
        simp only [List.lookup, beq_self_eq_true] at h
        obtain ⟨a, b⟩ := e
        simp only [List.lookup_cons, beq_self_eq_true] at h
        cases h
        exact List.mem_cons_self _ _
      · obtain ⟨a, b⟩ := e
        rw [List.lookup_cons] at h
        have hne : (k == a) = false := by simpa using hk
        rw [hne] at h
        exact List.mem_cons_of_mem _ (ih h)

theorem lookup_some_of_mem_nodup (M : List (Nat × Nat))
    (hnd : (M.map Prod.fst).Nodup) (k v : Nat) (hm : (k, v) ∈ M) :
    M.lookup k = some v := by
  induction M with
  | nil => cases hm
  | cons e rest ih =>
      obtain ⟨a, b⟩ := e
      rcases List.mem_cons.mp hm with he | hm2
      · cases he
        simp [List.lookup_cons]
      · by_cases hk : k = a
        · subst hk
          exfalso
          have : k ∈ rest.map Prod.fst := List.mem_map.mpr ⟨(k, v), hm2, rfl⟩
          exact (List.nodup_cons.mp hnd).1 this
        · rw [List.lookup_cons]
          have hne : (k == a) = false := by simpa using hk
          rw [hne]
          exact ih (List.nodup_cons.mp hnd).2 hm2

theorem lookup_none_of_not_mem (M : List (Nat × Nat)) (k : Nat)
    (h : ∀ v, (k, v) ∉ M) : M.lookup k = none := by
  induction M with
  | nil => rfl
  | cons e rest ih =>
      obtain ⟨a, b⟩ := e
      by_cases hk : k = a
      · subst hk
        exact absurd (List.mem_cons_self _ _) (h b)
      · rw [List.lookup_cons]
        have hne : (k == a) = false := by simpa using hk
        rw [hne]
        exact ih (fun v hv => h v (List.mem_cons_of_mem _ hv))

theorem lookup_eq_of_perm (σ M : List (Nat × Nat)) (hperm : σ.Perm M)
    (hnd : (M.map Prod.fst).Nodup) (q : Nat) : σ.lookup q = M.lookup q := by
  have hndσ : (σ.map Prod.fst).Nodup := ((hperm.map Prod.fst).nodup_iff).mpr hnd
  cases hM : M.lookup q with
  | some v =>
      exact lookup_some_of_mem_nodup σ hndσ q v (hperm.mem_iff.mpr (lookup_mem M q v hM))
  | none =>
      refine lookup_none_of_not_mem σ q (fun v hv => ?_)
      have : (q, v) ∈ M := hperm.mem_iff.mp hv
      rw [lookup_some_of_mem_nodup M hnd q v this] at hM
      cases hM

theorem resolve1_nil (a : Nat) : resolve1 [] a = a := rfl

theorem exchangeAll_preds_eq (E : List (Nat × Nat)) :
    ∀ (g : PhiGraph),
    (E.map Prod.fst).Nodup →
    (∀ e ∈ E, ∀ e2 ∈ E, e.2 ≠ e2.1) →
    (∀ n, (exchangeAll g E).preds n = (g.preds n).map (resolve1 E)) ∧
    (exchangeAll g E).nodes = g.nodes.filter (fun m => (E.lookup m).isNone) := by
  induction E with
  | nil =>
      intro g _ _
      constructor
      · intro n
        have h1 : ∀ a ∈ g.preds n, a = resolve1 [] a := fun a _ => rfl
        calc g.preds n = (g.preds n).map id := (List.map_id _).symm
          _ = (g.preds n).map (resolve1 []) := List.map_congr_left (fun a _ => rfl)
      · have : ∀ a ∈ g.nodes, (([] : List (Nat × Nat)).lookup a).isNone = true := fun a _ => rfl
        rw [List.filter_eq_self.mpr this]
        rfl
  | cons e rest ih =>
      intro g hnd hcf
      obtain ⟨k, v⟩ := e
      have hnd2 : (rest.map Prod.fst).Nodup := (List.nodup_cons.mp (by simpa using hnd)).2
      have hcf2 : ∀ e ∈ rest, ∀ e2 ∈ rest, e.2 ≠ e2.1 := fun e he e2 he2 =>
        hcf e (List.mem_cons_of_mem _ he) e2 (List.mem_cons_of_mem _ he2)
      have hstep : exchangeAll g ((k, v) :: rest) = exchangeAll (exchangeOne g k v) rest := rfl
      obtain ⟨ihp, ihn⟩ := ih (exchangeOne g k v) hnd2 hcf2
      constructor
      · intro n
        rw [hstep, ihp n]
        show ((g.preds n).map (fun q => if q = k then v else q)).map (resolve1 rest) = _
        rw [List.map_map]
        refine List.map_congr_left (fun q _ => ?_)
        by_cases hq : q = k
        · subst hq
          have hvnot : ∀ w, (v, w) ∉ rest := fun w hw =>
            hcf (q, v) (List.mem_cons_self _ _) (v, w) (List.mem_cons_of_mem _ hw) rfl
          have : rest.lookup v = none := lookup_none_of_not_mem rest v hvnot
          simp [Function.comp, resolve1, List.lookup_cons, this]
        · have hne : (q == k) = false := by simpa using hq
          simp [Function.comp, hq, resolve1, List.lookup_cons, hne]
      · rw [hstep, ihn]
        show (g.nodes.filter (fun m => decide (m ≠ k))).filter _ = _
        rw [List.filter_filter]
        refine List.filter_congr (fun a _ => ?_)
        by_cases ha : a = k
        · subst ha
          simp [List.lookup_cons]
        · have hne : (a == k) = false := by simpa using ha
          simp [List.lookup_cons, hne, ha]

theorem length_filter_le_of_imp (l : List Nat) (p q : Nat → Bool)
    (h : ∀ x, q x = true → p x = true) :
    (l.filter q).length ≤ (l.filter p).length := by
  induction l with
  | nil => simp
  | cons a l ih =>
    by_cases hq : q a = true
    · rw [List.filter_cons_of_pos hq, List.filter_cons_of_pos (h a hq)]
      simpa using ih
    · rw [List.filter_cons_of_neg hq]
      by_cases hp : p a = true
      · rw [List.filter_cons_of_pos hp]
        exact le_trans ih (by simp)
      · rw [List.filter_cons_of_neg hp]
        exact ih

theorem length_filter_lt_of_imp (l : List Nat) (p q : Nat → Bool)
    (h : ∀ x, q x = true → p x = true) (x : Nat) (hx : x ∈ l)
    (hpx : p x = true) (hqx : q x = false) :
    (l.filter q).length < (l.filter p).length := by
  induction l with
  | nil => cases hx
  | cons a l ih =>
    rcases List.mem_cons.mp hx with rfl | hx2
    · rw [List.filter_cons_of_pos hpx, List.filter_cons_of_neg (by simp [hqx])]
      exact Nat.lt_succ_of_le (length_filter_le_of_imp l p q h)
    · by_cases hq : q a = true
      · rw [List.filter_cons_of_pos hq, List.filter_cons_of_pos (h a hq)]
        simpa using ih hx2
      · rw [List.filter_cons_of_neg hq]
        by_cases hp : p a = true
        · rw [List.filter_cons_of_pos hp]
          exact Nat.lt_succ_of_lt (ih hx2)
        · rw [List.filter_cons_of_neg hp]
          exact ih hx2

theorem length_filter_lt_of_mem_false (l : List Nat) (q : Nat → Bool) (x : Nat)
    (hx : x ∈ l) (hqx : q x = false) : (l.filter q).length < l.length := by
  induction l with
  | nil => cases hx
  | cons a t ih =>
    rw [List.filter_cons]
    rcases List.mem_cons.mp hx with heq | hmem
    · subst heq
      rw [hqx]
      have := List.length_filter_le q t
      simp only [Bool.false_eq_true, if_false, List.length_cons]
      omega
    · cases hqa : q a with
      | true =>
        rw [if_pos (rfl : true = true)]
        have := ih hmem
        simp only [List.length_cons]
        omega
      | false =>
        rw [if_neg (by simp : ¬(false = true))]
        have := ih hmem
        have hle := List.length_filter_le q t
        simp only [List.length_cons]
        omega

theorem sccListNodes_cons (s : Scc) (L : List Scc) :
    sccListNodes (s :: L) = s.sccNodes ++ sccListNodes L := rfl

theorem sccListNodes_append (L1 L2 : List Scc) :
    sccListNodes (L1 ++ L2) = sccListNodes L1 ++ sccListNodes L2 := by
  induction L1 with
  | nil => rfl
  | cons s L ih => simp [sccListNodes_cons, ih]

theorem mem_sccListNodes (L : List Scc) (m : Nat) :
    m ∈ sccListNodes L ↔ ∃ s ∈ L, m ∈ s.sccNodes := by
  induction L with
  | nil => simp [sccListNodes]
  | cons s L ih => simp [sccListNodes_cons, ih]

theorem sccSize_cons (s : Scc) (L : List Scc) :
    sccSize (s :: L) = s.sccNodes.length + sccSize L := by
  rw [sccSize, sccSize, sccListNodes_cons, List.length_append]

theorem sccSize_append (L1 L2 : List Scc) :
    sccSize (L1 ++ L2) = sccSize L1 + sccSize L2 := by
  rw [sccSize, sccSize, sccSize, sccListNodes_append, List.length_append]

theorem sccListNodes_nodup : ∀ (L : List Scc),
    (∀ scc ∈ L, scc.sccNodes.Nodup) →
    (∀ l1 s1 l2, L = l1 ++ s1 :: l2 → ∀ m ∈ s1.sccNodes,
      ∀ s2 ∈ l2, m ∉ s2.sccNodes) →
    (sccListNodes L).Nodup := by
  intro L
  induction L with
  | nil => exact fun _ _ => List.nodup_nil
  | cons s L ih =>
    intro hn hd
    rw [sccListNodes_cons, List.nodup_append]
    refine ⟨hn s (List.mem_cons_self s L), ?_, ?_⟩
    · exact ih (fun scc h => hn scc (List.mem_cons_of_mem s h))
        (fun l1 s1 l2 h => hd (s :: l1) s1 l2 (by rw [h]; rfl))
    · intro m hm hm2
      rw [mem_sccListNodes] at hm2
      obtain ⟨s2, hs2, hm3⟩ := hm2
      exact hd [] s L rfl m hm s2 hs2 hm3

theorem mainLoop_nil (g : PhiGraph) : ∀ (fuel : Nat) (st : SccState),
    (mainLoop g fuel [] st).2 = true := by
  intro fuel st
  cases fuel with
  | zero => rfl
  | succ f => rfl

theorem resolve1_lookup_some (M : List (Nat × Nat)) (p w : Nat)
    (h : M.lookup p = some w) : resolve1 M p = w := by
  rw [resolve1, h]

theorem resolve1_lookup_none (M : List (Nat × Nat)) (p : Nat)
    (h : M.lookup p = none) : resolve1 M p = p := by
  rw [resolve1, h]

theorem popLoop_spec (n : Nat) (A : List Nat) :
    ∀ (rest : List Nat) (f : Nat → Bool), n ∉ A →
    ∃ f2, popLoop n (A ++ n :: rest) f = (A ++ [n], rest, f2) ∧
      ∀ m, f2 m = if m ∈ A ++ [n] then false else f m := by
  induction A with
  | nil =>
    intro rest f _
    refine ⟨updB f n false, by simp [popLoop], ?_⟩
    intro m
    simp only [List.nil_append, List.mem_singleton, updB]
  | cons a A ih =>
    intro rest f hA
    have han : a ≠ n := fun h => hA (h ▸ List.mem_cons_self a A)
    have hnA : n ∉ A := fun h => hA (List.mem_cons_of_mem a h)
    obtain ⟨f2, h1, h2⟩ := ih rest (updB f a false) hnA
    have hbeq : (a == n) = false := by simp [han]
    refine ⟨f2, ?_, ?_⟩
    · simp [popLoop, hbeq, h1]
    · intro m
      rw [h2 m]
      by_cases hma : m = a
      · subst hma
        simp [updB, han]
      · simp only [List.cons_append, List.mem_cons]
        rw [updB]
        simp [hma]

theorem ledgerTransfer (g : PhiGraph) (R : Nat → Bool) (M : List (Nat × Nat))
    (a : Nat) (st st2 : SccState)
    (hdfn : ∀ m, st.dfn m ≠ 0 → st2.dfn m = st.dfn m)
    (hup : st2.uplink a = st.uplink a)
    (hwork : ∃ W, st2.working = st.working ++ W)
    (hL : Ledger g R M a st) : Ledger g R M a st2 := by
  intro p hp hr
  obtain ⟨h1, h2⟩ := hL p hp hr
  have hd := hdfn _ h1
  refine ⟨by rw [hd]; exact h1, ?_⟩
  rcases h2 with h | h
  · left
    rw [hd, hup]
    exact h
  · right
    obtain ⟨W, hW⟩ := hwork
    rw [hW, sccListNodes_append]
    exact List.mem_append_left _ h

theorem RStep_refl (g : PhiGraph) (R : Nat → Bool) (S : Nat → Prop)
    (M : List (Nat × Nat)) (st : SccState) (n : Nat) :
    RStep g R S M st st n where
  stack_ext := ⟨[], rfl, by simp⟩
  dfn_frame := fun _ _ => rfl
  uplink_frame := fun _ _ => rfl
  depth_frame := fun _ => rfl
  next_mono := le_refl _
  dfn_new_S := fun _ h => Or.inl h
  dfn_new_big := fun _ h1 h2 => absurd h1 h2
  work_ext := ⟨[], by simp, by simp⟩
  ledger := fun a ha hna => absurd ha hna
  stack_empty := fun h => h
  budget_mono := fun _ h => h

theorem RInv_upd_uplink (g : PhiGraph) (d : Nat) (R : Nat → Bool) (S : Nat → Prop)
    (M : List (Nat × Nat)) (dep0 : Nat) (st : SccState) (n v : Nat)
    (hri : RInv g d R S M dep0 st) (hn : n ∈ st.stack)
    (hle : v ≤ st.dfn n) (hwit : ∃ w ∈ st.stack, v = st.dfn w) :
    RInv g d R S M dep0 { st with uplink := updF st.uplink n v } where
  map_eq := hri.map_eq
  rem_eq := hri.rem_eq
  dep_eq := hri.dep_eq
  stack_nodup := hri.stack_nodup
  instack_iff := hri.instack_iff
  stack_pos := hri.stack_pos
  stack_S := hri.stack_S
  stack_uplink := by
    intro m hm
    simp only [updF]
    split_ifs with h
    · subst h
      exact hle
    · exact hri.stack_uplink m hm
  stack_sorted := hri.stack_sorted
  dfn_le := hri.dfn_le
  uplink_wit := by
    intro m hm
    simp only [updF]
    split_ifs with h
    · exact hwit
    · exact hri.uplink_wit m hm
  vs := hri.vs
  work_nodup := hri.work_nodup
  work_mem := hri.work_mem
  work_depth := hri.work_depth
  work_disj := hri.work_disj
  work_ord := hri.work_ord

theorem predStepInv (g : PhiGraph) (d : Nat) (R : Nat → Bool) (S : Nat → Prop)
    (M : List (Nat × Nat)) (dep0 : Nat) (fuel : Nat)
    (hSclosed : ∀ m, S m → ∀ p ∈ g.preds m, R (resolve1 M p) = true → S (resolve1 M p))
    (hRnodes : ∀ n, R n = true → n ∈ g.nodes)
    (hSR : ∀ n, S n → R n = true)
    (hIH : ∀ m st, RInv g d R S M dep0 st → roundBudget g R st < fuel →
        (st.dfn m = 0 → R m = true → S m) →
        RCall g d R S M dep0 m st (findSccAt g fuel m d st))
    (n : Nat) (st0 : SccState) (hS : S n)
    (hbud : roundBudget g R st0 ≤ fuel)
    (hd0 : st0.dfn n = 0)
    (p : Nat) (hp : p ∈ g.preds n)
    (done : List Nat) (stC : SccState)
    (hFI : FInv g d R S M dep0 n st0 done stC) :
    FInv g d R S M dep0 n st0 (done ++ [p])
      (predStep (fun m s => findSccAt g fuel m d s) n stC p) := by
  have hmap : stC.repMap = M := hFI.rinv.map_eq
  have hdn : stC.dfn n = st0.nextIndex + 1 := hFI.dfn_n
  have hdnne : stC.dfn n ≠ 0 := by omega
  -- budget at the current state is strictly below the remaining fuel
  have himp : ∀ x, (R x && (stC.dfn x == 0)) = true →
      (R x && (st0.dfn x == 0)) = true := by
    intro x hx
    rw [Bool.and_eq_true] at hx ⊢
    refine ⟨hx.1, ?_⟩
    rw [beq_iff_eq] at hx ⊢
    exact hFI.budget_mono x hx.2
  have hqn : (R n && (stC.dfn n == 0)) = false := by
    rw [hdn]
    simp
  have hpn : (R n && (st0.dfn n == 0)) = true := by
    rw [hd0, hSR n hS]
    rfl
  have hbudC : roundBudget g R stC < fuel :=
    lt_of_lt_of_le
      (length_filter_lt_of_imp g.nodes _ _ himp n (hRnodes n (hSR n hS)) hpn hqn) hbud
  obtain ⟨B, hBstack, hBfacts⟩ := hFI.stack_shape
  have hn_stack : n ∈ stC.stack := by
    rw [hBstack]
    exact List.mem_append_right _ (List.mem_cons_self n _)
  have hnB : n ∉ B := by
    intro hmem
    have hnd := hFI.rinv.stack_nodup
    rw [hBstack, List.nodup_append] at hnd
    exact hnd.2.2 hmem (List.mem_cons_self n _)
  have hun_le : stC.uplink n ≤ stC.dfn n := hFI.rinv.stack_uplink n hn_stack
  set cp := resolve1 M p with hcp
  by_cases hfresh : stC.dfn cp = 0
  · -- the canonical predecessor is unvisited: find_scc_at recurses on it
    have hcall := hIH cp stC hFI.rinv hbudC (fun _ hR => hSclosed n hS p hp hR)
    cases hres : findSccAt g fuel cp d stC with
    | mk ok stA =>
    rw [hres] at hcall
    have heq : predStep (fun m s => findSccAt g fuel m d s) n stC p =
        (if ok then
          { stA with uplink := updF stA.uplink n (min (stA.uplink cp) (stA.uplink n)) }
         else if stA.inStack cp then
          { stA with uplink := updF stA.uplink n (min (stA.dfn cp) (stA.uplink n)) }
         else stA) := by
      simp only [predStep, hmap, ← hcp, hfresh, beq_self_eq_true, if_true, hres]
    rw [heq]
    cases ok with
    | false =>
      have hRcp : R cp = false := hcall.bool_eq.symm
      have hframe : stA = stC := hcall.false_frame rfl
      have hinsf : stC.inStack cp = false := by
        cases hcs : stC.inStack cp
        · rfl
        · exfalso
          have hmem := (hFI.rinv.instack_iff cp).mp hcs
          have hpos := hFI.rinv.stack_pos cp hmem
          omega
      rw [hframe, hinsf]
      simp only [Bool.false_eq_true, if_false]
      refine { rinv := hFI.rinv, stack_shape := ⟨B, hBstack, hBfacts⟩,
               dfn_n := hFI.dfn_n, dfn_frame := hFI.dfn_frame,
               uplink_frame := hFI.uplink_frame, depth_frame := hFI.depth_frame,
               next_mono := hFI.next_mono, dfn_new_S := hFI.dfn_new_S,
               dfn_new_big := hFI.dfn_new_big, work_ext := hFI.work_ext,
               budget_mono := hFI.budget_mono, pledger := ?_ }
      intro q hq hRq
      rcases List.mem_append.mp hq with hq2 | hq2
      · exact hFI.pledger q hq2 hRq
      · rw [List.mem_singleton] at hq2
        subst hq2
        rw [← hcp, hRcp] at hRq
        cases hRq
    | true =>
      rw [if_pos rfl]
      have hRcp : R cp = true := hcall.bool_eq.symm
      have hScp : S cp := hSclosed n hS p hp hRcp
      have hstep := hcall.rstep
      have hri2 := hcall.rinv
      obtain ⟨hdcpA, hcp_or⟩ := hcall.root_pop hfresh rfl
      have hdnA : stA.dfn n = stC.dfn n := hstep.dfn_frame n hdnne
      have hunA : stA.uplink n = stC.uplink n := hstep.uplink_frame n hdnne
      obtain ⟨A, hAstack, hAfacts⟩ := hstep.stack_ext
      obtain ⟨W, hWwork, hWfacts⟩ := hstep.work_ext
      have hn_stackA : n ∈ stA.stack := by
        rw [hAstack]
        exact List.mem_append_right _ hn_stack
      set mn := min (stA.uplink cp) (stA.uplink n) with hmn
      have hmn_un : mn ≤ stA.uplink n := min_le_right _ _
      have hmn_ucp : mn ≤ stA.uplink cp := min_le_left _ _
      have hdfnA_le : stA.uplink n ≤ stA.dfn n := by
        rw [hunA, hdnA]
        exact hun_le
      have hwit_mn : ∃ w ∈ stA.stack, mn = stA.dfn w := by
        by_cases hin : cp ∈ stA.stack
        · rcases le_total (stA.uplink cp) (stA.uplink n) with h | h
          · obtain ⟨w, hw, hwe⟩ := hri2.uplink_wit cp hin
            exact ⟨w, hw, by rw [hmn, min_eq_left h, hwe]⟩
          · obtain ⟨w, hw, hwe⟩ := hri2.uplink_wit n hn_stackA
            exact ⟨w, hw, by rw [hmn, min_eq_right h, hwe]⟩
        · rcases hcp_or with h | hupeq
          · exact absurd h hin
          · have hlt2 : stA.uplink n < stA.uplink cp := by
              rw [hupeq, hdcpA, hunA]
              have h1 := hFI.next_mono
              omega
            obtain ⟨w, hw, hwe⟩ := hri2.uplink_wit n hn_stackA
            exact ⟨w, hw, by rw [hmn, min_eq_right (le_of_lt hlt2), hwe]⟩
      have hriN := RInv_upd_uplink g d R S M dep0 stA n mn hri2 hn_stackA
        (le_trans hmn_un hdfnA_le) hwit_mn
      have hupd_n : updF stA.uplink n mn n = mn := by
        rw [updF]
        simp
      refine { rinv := hriN, stack_shape := ?_, dfn_n := ?_, dfn_frame := ?_,
               uplink_frame := ?_, depth_frame := ?_, next_mono := ?_,
               dfn_new_S := ?_, dfn_new_big := ?_, work_ext := ?_,
               budget_mono := ?_, pledger := ?_ }
      · refine ⟨A ++ B, ?_, ?_⟩
        · show stA.stack = (A ++ B) ++ n :: st0.stack
          rw [hAstack, hBstack, List.append_assoc]
        · intro b hb
          rcases List.mem_append.mp hb with hbA | hbB
          · obtain ⟨hSb, hdCb⟩ := hAfacts b hbA
            have hd0b : st0.dfn b = 0 := hFI.budget_mono b hdCb
            have hbne : b ≠ n := by
              intro hbe
              rw [hbe] at hdCb
              exact hdnne hdCb
            have hbnotC : b ∉ stC.stack := by
              intro hmem
              have := hFI.rinv.stack_pos b hmem
              omega
            have hbA2 : b ∈ stA.stack := by
              rw [hAstack]
              exact List.mem_append_left _ hbA
            obtain ⟨hLA, hQA⟩ := hstep.ledger b hbA2 hbnotC
            have hupd_b : updF stA.uplink n mn b = stA.uplink b := by
              rw [updF]
              simp [hbne]
            refine ⟨hSb, hd0b, ?_, ?_⟩
            · refine ledgerTransfer g R M b stA _ (fun m h => rfl) hupd_b
                ⟨[], by simp⟩ hLA
            · show updF stA.uplink n mn n ≤ updF stA.uplink n mn b
              rw [hupd_n, hupd_b]
              exact le_trans hmn_ucp hQA
          · obtain ⟨hSb, hd0b, hLb, hQb⟩ := hBfacts b hbB
            have hbC : b ∈ stC.stack := by
              rw [hBstack]
              exact List.mem_append_left _ hbB
            have hdCb : stC.dfn b ≠ 0 := by
              have := hFI.rinv.stack_pos b hbC
              omega
            have hbne : b ≠ n := fun hbe => hnB (hbe ▸ hbB)
            have hupb : stA.uplink b = stC.uplink b := hstep.uplink_frame b hdCb
            have hLbA : Ledger g R M b stA :=
              ledgerTransfer g R M b stC stA hstep.dfn_frame hupb ⟨W, hWwork⟩ hLb
            have hupd_b : updF stA.uplink n mn b = stA.uplink b := by
              rw [updF]
              simp [hbne]
            refine ⟨hSb, hd0b, ?_, ?_⟩
            · exact ledgerTransfer g R M b stA _ (fun m h => rfl) hupd_b
                ⟨[], by simp⟩ hLbA
            · show updF stA.uplink n mn n ≤ updF stA.uplink n mn b
              rw [hupd_n, hupd_b, hupb]
              calc mn ≤ stA.uplink n := hmn_un
                _ = stC.uplink n := hunA
                _ ≤ stC.uplink b := hQb
      · show stA.dfn n = st0.nextIndex + 1
        rw [hdnA, hdn]
      · intro m hm
        show stA.dfn m = st0.dfn m
        have h1 := hFI.dfn_frame m hm
        have h2 : stC.dfn m ≠ 0 := by
          rw [h1]
          exact hm
        rw [hstep.dfn_frame m h2, h1]
      · intro m hmn2 hm
        show updF stA.uplink n mn m = st0.uplink m
        have h1 := hFI.dfn_frame m hm
        have h2 : stC.dfn m ≠ 0 := by
          rw [h1]
          exact hm
        have h3 : updF stA.uplink n mn m = stA.uplink m := by
          rw [updF]
          simp [hmn2]
        rw [h3, hstep.uplink_frame m h2, hFI.uplink_frame m hmn2 hm]
      · intro m
        show stA.depth m = st0.depth m
        rw [hstep.depth_frame m, hFI.depth_frame m]
      · show st0.nextIndex < stA.nextIndex
        exact lt_of_lt_of_le hFI.next_mono hstep.next_mono
      · intro m hm
        rcases hstep.dfn_new_S m hm with h | h
        · exact hFI.dfn_new_S m h
        · exact Or.inr h
      · intro m h0 hm
        by_cases hC : stC.dfn m = 0
        · exact lt_trans hFI.next_mono (hstep.dfn_new_big m hC hm)
        · have hgoal := hFI.dfn_new_big m h0 hC
          show st0.nextIndex < stA.dfn m
          rw [hstep.dfn_frame m hC]
          exact hgoal
      · obtain ⟨W0, hW0, hW0f⟩ := hFI.work_ext
        refine ⟨W0 ++ W, ?_, ?_⟩
        · show stA.working = st0.working ++ (W0 ++ W)
          rw [hWwork, hW0, List.append_assoc]
        · intro scc hscc m hm
          rcases List.mem_append.mp hscc with h | h
          · exact hW0f scc h m hm
          · obtain ⟨hSm, hdm⟩ := hWfacts scc h m hm
            exact ⟨hSm, hFI.budget_mono m hdm⟩
      · intro m hm
        exact hFI.budget_mono m (hstep.budget_mono m hm)
      · intro q hq hRq
        rcases List.mem_append.mp hq with hq2 | hq2
        · obtain ⟨hne, hdisj⟩ := hFI.pledger q hq2 hRq
          have hdq : stA.dfn (resolve1 M q) = stC.dfn (resolve1 M q) :=
            hstep.dfn_frame _ hne
          refine ⟨?_, ?_⟩
          · show stA.dfn (resolve1 M q) ≠ 0
            rw [hdq]
            exact hne
          · rcases hdisj with h | h
            · left
              show updF stA.uplink n mn n ≤ stA.dfn (resolve1 M q)
              rw [hupd_n, hdq]
              exact le_trans hmn_un (le_trans (le_of_eq hunA) h)
            · right
              show resolve1 M q ∈ sccListNodes stA.working
              rw [hWwork, sccListNodes_append]
              exact List.mem_append_left _ h
        · rw [List.mem_singleton] at hq2
          subst hq2
          refine ⟨?_, ?_⟩
          · show stA.dfn cp ≠ 0
            rw [hdcpA]
            omega
          · by_cases hin : cp ∈ stA.stack
            · left
              show updF stA.uplink n mn n ≤ stA.dfn cp
              rw [hupd_n]
              exact le_trans hmn_ucp (hri2.stack_uplink cp hin)
            · right
              show cp ∈ sccListNodes stA.working
              have hne : stA.dfn cp ≠ 0 := by
                rw [hdcpA]
                omega
              rcases hri2.vs cp hScp hne with h | h
              · exact absurd h hin
              · exact h
  · -- the canonical predecessor was already visited
    have hg : (stC.dfn cp == 0) = false := by
      simp [hfresh]
    by_cases hins : stC.inStack cp = true
    · have hcpstack : cp ∈ stC.stack := (hFI.rinv.instack_iff cp).mp hins
      have heq : predStep (fun m s => findSccAt g fuel m d s) n stC p =
          { stC with
            uplink := updF stC.uplink n (min (stC.dfn cp) (stC.uplink n)) } := by
        simp only [predStep, hmap, ← hcp, hg, Bool.false_eq_true, if_false, hins,
          if_true]
      rw [heq]
      set mn := min (stC.dfn cp) (stC.uplink n) with hmn
      have hmn_un : mn ≤ stC.uplink n := min_le_right _ _
      have hmn_dcp : mn ≤ stC.dfn cp := min_le_left _ _
      have hwit_mn : ∃ w ∈ stC.stack, mn = stC.dfn w := by
        rcases le_total (stC.dfn cp) (stC.uplink n) with h | h
        · exact ⟨cp, hcpstack, by rw [hmn, min_eq_left h]⟩
        · obtain ⟨w, hw, hwe⟩ := hFI.rinv.uplink_wit n hn_stack
          exact ⟨w, hw, by rw [hmn, min_eq_right h, hwe]⟩
      have hriN := RInv_upd_uplink g d R S M dep0 stC n mn hFI.rinv hn_stack
        (le_trans hmn_un hun_le) hwit_mn
      have hupd_n : updF stC.uplink n mn n = mn := by
        rw [updF]
        simp
      refine { rinv := hriN, stack_shape := ?_, dfn_n := hFI.dfn_n,
               dfn_frame := hFI.dfn_frame, uplink_frame := ?_,
               depth_frame := hFI.depth_frame, next_mono := hFI.next_mono,
               dfn_new_S := hFI.dfn_new_S, dfn_new_big := hFI.dfn_new_big,
               work_ext := hFI.work_ext, budget_mono := hFI.budget_mono,
               pledger := ?_ }
      · refine ⟨B, hBstack, ?_⟩
        intro b hb
        obtain ⟨hSb, hd0b, hLb, hQb⟩ := hBfacts b hb
        have hbne : b ≠ n := fun hbe => hnB (hbe ▸ hb)
        have hupd_b : updF stC.uplink n mn b = stC.uplink b := by
          rw [updF]
          simp [hbne]
        refine ⟨hSb, hd0b, ?_, ?_⟩
        · exact ledgerTransfer g R M b stC _ (fun m h => rfl) hupd_b
            ⟨[], by simp⟩ hLb
        · show updF stC.uplink n mn n ≤ updF stC.uplink n mn b
          rw [hupd_n, hupd_b]
          exact le_trans hmn_un hQb
      · intro m hmn2 hm
        show updF stC.uplink n mn m = st0.uplink m
        have h3 : updF stC.uplink n mn m = stC.uplink m := by
          rw [updF]
          simp [hmn2]
        rw [h3, hFI.uplink_frame m hmn2 hm]
      · intro q hq hRq
        rcases List.mem_append.mp hq with hq2 | hq2
        · obtain ⟨hne, hdisj⟩ := hFI.pledger q hq2 hRq
          refine ⟨hne, ?_⟩
          rcases hdisj with h | h
          · left
            show updF stC.uplink n mn n ≤ stC.dfn (resolve1 M q)
            rw [hupd_n]
            exact le_trans hmn_un h
          · exact Or.inr h
        · rw [List.mem_singleton] at hq2
          subst hq2
          refine ⟨hfresh, Or.inl ?_⟩
          show updF stC.uplink n mn n ≤ stC.dfn cp
          rw [hupd_n]
          exact hmn_dcp
    · have hinsf : stC.inStack cp = false := by
        cases h : stC.inStack cp
        · rfl
        · exact absurd h hins
      have heq : predStep (fun m s => findSccAt g fuel m d s) n stC p = stC := by
        simp only [predStep, hmap, ← hcp, hg, Bool.false_eq_true, if_false, hinsf]
      rw [heq]
      refine { rinv := hFI.rinv, stack_shape := ⟨B, hBstack, hBfacts⟩,
               dfn_n := hFI.dfn_n, dfn_frame := hFI.dfn_frame,
               uplink_frame := hFI.uplink_frame, depth_frame := hFI.depth_frame,
               next_mono := hFI.next_mono, dfn_new_S := hFI.dfn_new_S,
               dfn_new_big := hFI.dfn_new_big, work_ext := hFI.work_ext,
               budget_mono := hFI.budget_mono, pledger := ?_ }
      intro q hq hRq
      rcases List.mem_append.mp hq with hq2 | hq2
      · exact hFI.pledger q hq2 hRq
      · rw [List.mem_singleton] at hq2
        subst hq2
        refine ⟨hfresh, Or.inr ?_⟩
        have hScp : S cp := hSclosed n hS q hp hRq
        rcases hFI.rinv.vs cp hScp hfresh with h | h
        · exact absurd ((hFI.rinv.instack_iff cp).mpr h) (by rw [hinsf]; simp)
        · exact h

theorem foldPredsAux (g : PhiGraph) (d : Nat) (R : Nat → Bool) (S : Nat → Prop)
    (M : List (Nat × Nat)) (dep0 : Nat) (fuel : Nat)
    (hSclosed : ∀ m, S m → ∀ p ∈ g.preds m, R (resolve1 M p) = true → S (resolve1 M p))
    (hRnodes : ∀ n, R n = true → n ∈ g.nodes)
    (hSR : ∀ n, S n → R n = true)
    (hIH : ∀ m st, RInv g d R S M dep0 st → roundBudget g R st < fuel →
        (st.dfn m = 0 → R m = true → S m) →
        RCall g d R S M dep0 m st (findSccAt g fuel m d st))
    (n : Nat) (st0 : SccState) (hS : S n)
    (hbud : roundBudget g R st0 ≤ fuel)
    (hd0 : st0.dfn n = 0) :
    ∀ (ps done : List Nat) (stC : SccState), g.preds n = done ++ ps →
      FInv g d R S M dep0 n st0 done stC →
      FInv g d R S M dep0 n st0 (done ++ ps)
        (ps.foldl (predStep (fun m s => findSccAt g fuel m d s) n) stC) := by
  intro ps
  induction ps with
  | nil =>
    intro done stC hsplit hFI
    simpa using hFI
  | cons p ps2 ih =>
    intro done stC hsplit hFI
    have hp : p ∈ g.preds n := by
      rw [hsplit]
      exact List.mem_append_right _ (List.mem_cons_self p ps2)
    have hstep := predStepInv g d R S M dep0 fuel hSclosed hRnodes hSR hIH
      n st0 hS hbud hd0 p hp done stC hFI
    have hsplit2 : g.preds n = (done ++ [p]) ++ ps2 := by
      rw [hsplit]
      simp
    have := ih (done ++ [p]) _ hsplit2 hstep
    simpa using this

theorem snoc_split (L : List Scc) (s : Scc) (l1 : List Scc) (s1 : Scc)
    (l2 : List Scc) (h : L ++ [s] = l1 ++ s1 :: l2) :
    (l2 = [] ∧ l1 = L ∧ s1 = s) ∨
    (∃ l2p, L = l1 ++ s1 :: l2p ∧ l2 = l2p ++ [s]) := by
  rcases List.append_eq_append_iff.mp h with ⟨a, h1, h2⟩ | ⟨c, h1, h2⟩
  · cases a with
    | nil =>
      simp only [List.nil_append] at h2
      rw [List.append_nil] at h1
      cases h2
      exact Or.inl ⟨rfl, h1, rfl⟩
    | cons x xs =>
      exfalso
      rw [List.cons_append] at h2
      injection h2 with h2a h2b
      simp at h2b
  · cases c with
    | nil =>
      rw [List.append_nil] at h1
      simp only [List.nil_append] at h2
      cases h2
      exact Or.inl ⟨rfl, h1.symm, rfl⟩
    | cons x xs =>
      simp only [List.cons_append, List.cons.injEq] at h2
      obtain ⟨hx, hl2⟩ := h2
      subst hx
      exact Or.inr ⟨xs, by rw [h1], hl2⟩

theorem tarjanCall (g : PhiGraph) (d : Nat) (R : Nat → Bool) (S : Nat → Prop)
    (M : List (Nat × Nat)) (dep0 : Nat)
    (hSclosed : ∀ m, S m → ∀ p ∈ g.preds m, R (resolve1 M p) = true → S (resolve1 M p))
    (hRnodes : ∀ n, R n = true → n ∈ g.nodes)
    (hSR : ∀ n, S n → R n = true) :
    ∀ (fuel : Nat) (n : Nat) (st : SccState),
      RInv g d R S M dep0 st →
      roundBudget g R st < fuel →
      (st.dfn n = 0 → R n = true → S n) →
      RCall g d R S M dep0 n st (findSccAt g fuel n d st) := by
  intro fuel
  induction fuel with
  | zero =>
    intro n st _ hbud _
    exact absurd hbud (Nat.not_lt_zero _)
  | succ fuel ih =>
    intro n st hri hbud hroot
    have hrem : is_removable g st d n = R n := hri.rem_eq n
    cases hR : R n with
    | false =>
      have heq : findSccAt g (fuel + 1) n d st = (false, st) := by
        simp only [findSccAt, hrem, hR, Bool.not_false, if_true]
      rw [heq]
      exact { rinv := hri, rstep := RStep_refl g R S M st n,
              bool_eq := hR.symm, false_frame := fun _ => rfl,
              root_pop := fun _ h => by cases h }
    | true =>
      cases hd : st.dfn n with
      | succ k =>
        have heq : findSccAt g (fuel + 1) n d st = (true, st) := by
          simp only [findSccAt, hrem, hR, Bool.not_true, Bool.false_eq_true,
            if_false, hd]
          simp
        rw [heq]
        refine { rinv := hri, rstep := RStep_refl g R S M st n,
                 bool_eq := hR.symm, false_frame := fun h => Bool.noConfusion h,
                 root_pop := fun h0 _ => absurd (hd.symm.trans h0)
                   (Nat.succ_ne_zero k) }
      | zero =>
        have hS : S n := hroot hd hR
        simp only [findSccAt, hrem, hR, Bool.not_true, Bool.false_eq_true,
          if_false, hd, bne_self_eq_false]
        set st1 : SccState :=
          { st with dfn := updF st.dfn n (st.nextIndex + 1),
                    uplink := updF st.uplink n (st.nextIndex + 1),
                    nextIndex := st.nextIndex + 1,
                    stack := n :: st.stack,
                    inStack := updB st.inStack n true } with hst1
        have hn_notin : n ∉ st.stack := by
          intro hm
          have := hri.stack_pos n hm
          omega
        have hFI1 : FInv g d R S M dep0 n st [] st1 := by
          refine { rinv := ?_, stack_shape := ⟨[], rfl, by simp⟩,
                   dfn_n := by simp [hst1, updF],
                   dfn_frame := ?_, uplink_frame := ?_,
                   depth_frame := fun m => rfl,
                   next_mono := Nat.lt_succ_self _,
                   dfn_new_S := ?_, dfn_new_big := ?_,
                   work_ext := ⟨[], by simp, by simp⟩,
                   budget_mono := ?_,
                   pledger := fun q hq => absurd hq (List.not_mem_nil q) }
          · refine { map_eq := hri.map_eq, rem_eq := hri.rem_eq,
                     dep_eq := hri.dep_eq, stack_nodup := ?_, instack_iff := ?_,
                     stack_pos := ?_, stack_S := ?_, stack_uplink := ?_,
                     stack_sorted := ?_, dfn_le := ?_, uplink_wit := ?_,
                     vs := ?_, work_nodup := hri.work_nodup, work_mem := ?_,
                     work_depth := hri.work_depth, work_disj := hri.work_disj,
                     work_ord := hri.work_ord }
            · exact List.nodup_cons.mpr ⟨hn_notin, hri.stack_nodup⟩
            · intro m
              show updB st.inStack n true m = true ↔ m ∈ n :: st.stack
              rw [updB]
              by_cases hm : m = n
              · subst hm
                simp
              · rw [if_neg hm, hri.instack_iff m]
                simp [hm]
            · intro m hm
              show 0 < updF st.dfn n (st.nextIndex + 1) m
              rw [updF]
              rcases List.mem_cons.mp hm with rfl | hm2
              · simp
              · have hmn : m ≠ n := fun h => hn_notin (h ▸ hm2)
                rw [if_neg hmn]
                exact hri.stack_pos m hm2
            · intro m hm
              rcases List.mem_cons.mp hm with rfl | hm2
              · exact hS
              · exact hri.stack_S m hm2
            · intro m hm
              show updF st.uplink n (st.nextIndex + 1) m ≤
                updF st.dfn n (st.nextIndex + 1) m
              rw [updF, updF]
              rcases List.mem_cons.mp hm with rfl | hm2
              · simp
              · have hmn : m ≠ n := fun h => hn_notin (h ▸ hm2)
                rw [if_neg hmn, if_neg hmn]
                exact hri.stack_uplink m hm2
            · refine List.pairwise_cons.mpr ⟨?_, ?_⟩
              · intro b hb
                have hbn : b ≠ n := fun h => hn_notin (h ▸ hb)
                show updF st.dfn n (st.nextIndex + 1) b <
                  updF st.dfn n (st.nextIndex + 1) n
                rw [updF, updF, if_neg hbn, if_pos rfl]
                have := hri.dfn_le b
                omega
              · refine List.Pairwise.imp_of_mem ?_ hri.stack_sorted
                intro a b ha hb hab
                have han : a ≠ n := fun h => hn_notin (h ▸ ha)
                have hbn : b ≠ n := fun h => hn_notin (h ▸ hb)
                show updF st.dfn n (st.nextIndex + 1) b <
                  updF st.dfn n (st.nextIndex + 1) a
                rw [updF, updF, if_neg hbn, if_neg han]
                exact hab
            · intro m
              show updF st.dfn n (st.nextIndex + 1) m ≤ st.nextIndex + 1
              rw [updF]
              by_cases hm : m = n
              · rw [if_pos hm]
              · rw [if_neg hm]
                have := hri.dfn_le m
                omega
            · intro v hv
              rcases List.mem_cons.mp hv with rfl | hv2
              · refine ⟨v, List.mem_cons_self v _, ?_⟩
                show updF st.uplink v (st.nextIndex + 1) v =
                  updF st.dfn v (st.nextIndex + 1) v
                rw [updF, updF, if_pos rfl, if_pos rfl]
              · obtain ⟨w, hw, hwe⟩ := hri.uplink_wit v hv2
                have hvn : v ≠ n := fun h => hn_notin (h ▸ hv2)
                have hwn : w ≠ n := fun h => hn_notin (h ▸ hw)
                refine ⟨w, List.mem_cons_of_mem n hw, ?_⟩
                show updF st.uplink n (st.nextIndex + 1) v =
                  updF st.dfn n (st.nextIndex + 1) w
                rw [updF, updF, if_neg hvn, if_neg hwn]
                exact hwe
            · intro m hSm hdm
              by_cases hm : m = n
              · subst hm
                exact Or.inl (List.mem_cons_self m _)
              · have hdm2 : st.dfn m ≠ 0 := by
                  revert hdm
                  show updF st.dfn n (st.nextIndex + 1) m ≠ 0 → st.dfn m ≠ 0
                  rw [updF, if_neg hm]
                  exact id
                rcases hri.vs m hSm hdm2 with h | h
                · exact Or.inl (List.mem_cons_of_mem n h)
                · exact Or.inr h
            · intro scc hscc m hm
              obtain ⟨hSm, hdm, hnst⟩ := hri.work_mem scc hscc m hm
              have hmn : m ≠ n := by
                intro h
                rw [h, hd] at hdm
                exact hdm rfl
              refine ⟨hSm, ?_, ?_⟩
              · show updF st.dfn n (st.nextIndex + 1) m ≠ 0
                rw [updF, if_neg hmn]
                exact hdm
              · intro hmem
                rcases List.mem_cons.mp hmem with h | h
                · exact hmn h
                · exact hnst h
          · intro m hm
            have hmn : m ≠ n := by
              intro h
              rw [h, hd] at hm
              exact hm rfl
            show updF st.dfn n (st.nextIndex + 1) m = st.dfn m
            rw [updF, if_neg hmn]
          · intro m hmn hm
            show updF st.uplink n (st.nextIndex + 1) m = st.uplink m
            rw [updF, if_neg hmn]
          · intro m hm
            by_cases hmn : m = n
            · exact Or.inr (hmn ▸ hS)
            · left
              revert hm
              show updF st.dfn n (st.nextIndex + 1) m ≠ 0 → st.dfn m ≠ 0
              rw [updF, if_neg hmn]
              exact id
          · intro m h0 hm
            by_cases hmn : m = n
            · subst hmn
              show st.nextIndex < updF st.dfn m (st.nextIndex + 1) m
              rw [updF, if_pos rfl]
              omega
            · exfalso
              revert hm
              show ¬(updF st.dfn n (st.nextIndex + 1) m ≠ 0)
              rw [updF, if_neg hmn]
              simp [h0]
          · intro m hm
            by_cases hmn : m = n
            · exact hmn ▸ hd
            · revert hm
              show updF st.dfn n (st.nextIndex + 1) m = 0 → st.dfn m = 0
              rw [updF, if_neg hmn]
              exact id
        have hbud2 : roundBudget g R st ≤ fuel := by omega
        have hFI3 := foldPredsAux g d R S M dep0 fuel hSclosed hRnodes hSR ih
          n st hS hbud2 hd (g.preds n) [] st1 rfl hFI1
        rw [List.nil_append] at hFI3
        set st3 := (g.preds n).foldl
          (predStep (fun m s => findSccAt g fuel m d s) n) st1 with hst3
        have hri3 := hFI3.rinv
        obtain ⟨B, hBstack, hBfacts⟩ := hFI3.stack_shape
        have hdn3 : st3.dfn n = st.nextIndex + 1 := hFI3.dfn_n
        have hBstack2 : st3.stack = (B ++ [n]) ++ st.stack := by
          rw [hBstack, List.append_assoc, List.singleton_append]
        have hnB : n ∉ B := by
          have hnd := hri3.stack_nodup
          rw [hBstack, List.nodup_append] at hnd
          exact fun hm => hnd.2.2 hm (List.mem_cons_self n _)
        have hn_stack3 : n ∈ st3.stack := by
          rw [hBstack]
          exact List.mem_append_right _ (List.mem_cons_self n _)
        have hBbig : ∀ b ∈ B, st.nextIndex < st3.dfn b := by
          intro b hb
          have hbs : b ∈ st3.stack := by
            rw [hBstack]
            exact List.mem_append_left _ hb
          have hpos := hri3.stack_pos b hbs
          obtain ⟨hSb, hd0b, _, _⟩ := hBfacts b hb
          exact hFI3.dfn_new_big b hd0b (by omega)
        have hup_frame : ∀ m, st.dfn m ≠ 0 → st3.uplink m = st.uplink m := by
          intro m hm
          have hmn : m ≠ n := by
            intro h
            rw [h, hd] at hm
            exact hm rfl
          exact hFI3.uplink_frame m hmn hm
        have hDmem : ∀ m ∈ B ++ [n], m ∈ st3.stack := by
          intro m hm
          rw [hBstack2]
          exact List.mem_append_left _ hm
        have hD0 : ∀ m ∈ B ++ [n], st.dfn m = 0 := by
          intro m hm
          rcases List.mem_append.mp hm with h | h
          · exact (hBfacts m h).2.1
          · rw [List.mem_singleton] at h
            exact h ▸ hd
        have hDL : ∀ m ∈ B ++ [n], Ledger g R M m st3 := by
          intro m hm
          rcases List.mem_append.mp hm with h | h
          · exact (hBfacts m h).2.2.1
          · rw [List.mem_singleton] at h
            subst h
            exact hFI3.pledger
        have hDQ : ∀ m ∈ B ++ [n], st3.uplink n ≤ st3.uplink m := by
          intro m hm
          rcases List.mem_append.mp hm with h | h
          · exact (hBfacts m h).2.2.2
          · rw [List.mem_singleton] at h
            subst h
            exact le_refl _
        cases hpop : st3.dfn n == st3.uplink n with
        | true =>
          rw [if_pos rfl]
          have hpope : st3.dfn n = st3.uplink n := by
            rw [← beq_iff_eq (a := st3.dfn n) (b := st3.uplink n)]
            exact hpop
          obtain ⟨f2, hploop, hf2⟩ := popLoop_spec n B st.stack st3.inStack hnB
          rw [hBstack, hploop]
          have hDnod : (B ++ [n]).Nodup := by
            have hnd := hri3.stack_nodup
            rw [hBstack2, List.nodup_append] at hnd
            exact hnd.1
          have hDdisj : ∀ m ∈ B ++ [n], m ∉ st.stack := by
            have hnd := hri3.stack_nodup
            rw [hBstack2, List.nodup_append] at hnd
            exact fun m hm hms => hnd.2.2 hm hms
          have hrestnod : st.stack.Nodup := by
            have hnd := hri3.stack_nodup
            rw [hBstack2, List.nodup_append] at hnd
            exact hnd.2.1
          have hDS : ∀ m ∈ B ++ [n], S m := fun m hm =>
            hri3.stack_S m (hDmem m hm)
          have hDdfn : ∀ m ∈ B ++ [n], st3.dfn m ≠ 0 := by
            intro m hm
            have := hri3.stack_pos m (hDmem m hm)
            omega
          -- the order property for the freshly collected SCC
          have hordnew : ∀ m ∈ B ++ [n], ∀ p ∈ g.preds m,
              R (resolve1 M p) = true →
              resolve1 M p ∈ sccListNodes st3.working ∨
              resolve1 M p ∈ B ++ [n] := by
            intro m hm p hp hRcp
            obtain ⟨hne, hdisj⟩ := hDL m hm p hp hRcp
            rcases hdisj with harith | hw
            · have hScp : S (resolve1 M p) :=
                hSclosed m (hDS m hm) p hp hRcp
              rcases hri3.vs (resolve1 M p) hScp hne with hstk | hw2
              · rw [hBstack2] at hstk
                rcases List.mem_append.mp hstk with h | h
                · exact Or.inr h
                · exfalso
                  have h1 : st.dfn (resolve1 M p) ≠ 0 := by
                    have := hri.stack_pos _ h
                    omega
                  have h2 : st3.dfn (resolve1 M p) = st.dfn (resolve1 M p) :=
                    hFI3.dfn_frame _ h1
                  have h3 : st.dfn (resolve1 M p) ≤ st.nextIndex := hri.dfn_le _
                  have h4 := hDQ m hm
                  rw [hpope] at hdn3
                  omega
              · exact Or.inl hw2
            · exact Or.inl hw
          refine { rinv := ?_, rstep := ?_, bool_eq := hR.symm,
                   false_frame := fun h => Bool.noConfusion h,
                   root_pop := fun _ _ => ⟨hdn3, Or.inr hpope.symm⟩ }
          · -- the invariant after the pop
            refine { map_eq := hri3.map_eq, rem_eq := hri3.rem_eq,
                     dep_eq := hri3.dep_eq, stack_nodup := hrestnod,
                     instack_iff := ?_, stack_pos := ?_, stack_S := ?_,
                     stack_uplink := ?_, stack_sorted := ?_,
                     dfn_le := hri3.dfn_le, uplink_wit := ?_, vs := ?_,
                     work_nodup := ?_, work_mem := ?_, work_depth := ?_,
                     work_disj := ?_, work_ord := ?_ }
            · intro m
              show f2 m = true ↔ m ∈ st.stack
              rw [hf2 m]
              by_cases hm : m ∈ B ++ [n]
              · rw [if_pos hm]
                simp only [Bool.false_eq_true, false_iff]
                exact hDdisj m hm
              · rw [if_neg hm, hri3.instack_iff m, hBstack2]
                constructor
                · intro h
                  rcases List.mem_append.mp h with h2 | h2
                  · exact absurd h2 hm
                  · exact h2
                · exact fun h => List.mem_append_right _ h
            · exact fun m hm => hri3.stack_pos m (by
                rw [hBstack2]
                exact List.mem_append_right _ hm)
            · exact fun m hm => hri3.stack_S m (by
                rw [hBstack2]
                exact List.mem_append_right _ hm)
            · exact fun m hm => hri3.stack_uplink m (by
                rw [hBstack2]
                exact List.mem_append_right _ hm)
            · have := hri3.stack_sorted
              rw [hBstack2] at this
              exact (List.pairwise_append.mp this).2.1
            · intro v hv
              obtain ⟨w, hw, hwe⟩ := hri3.uplink_wit v (by
                rw [hBstack2]
                exact List.mem_append_right _ hv)
              rw [hBstack2] at hw
              rcases List.mem_append.mp hw with hwD | hwrest
              · exfalso
                have hvne : st.dfn v ≠ 0 := by
                  have := hri.stack_pos v hv
                  omega
                have hupv : st3.uplink v = st.uplink v := hup_frame v hvne
                have h1 : st.uplink v ≤ st.dfn v := hri.stack_uplink v hv
                have h2 : st.dfn v ≤ st.nextIndex := hri.dfn_le v
                have h3 : st.nextIndex < st3.dfn w := by
                  rcases List.mem_append.mp hwD with h | h
                  · exact hBbig w h
                  · rw [List.mem_singleton] at h
                    rw [h, hdn3]
                    omega
                omega
              · exact ⟨w, hwrest, hwe⟩
            · intro m hSm hdm
              rcases hri3.vs m hSm hdm with hstk | hw
              · rw [hBstack2] at hstk
                rcases List.mem_append.mp hstk with h | h
                · right
                  show m ∈ sccListNodes (st3.working ++ [⟨B ++ [n], st3.depth n⟩])
                  rw [sccListNodes_append]
                  refine List.mem_append_right _ ?_
                  show m ∈ (B ++ [n]) ++ []
                  rw [List.append_nil]
                  exact h
                · exact Or.inl h
              · right
                show m ∈ sccListNodes (st3.working ++ [⟨B ++ [n], st3.depth n⟩])
                rw [sccListNodes_append]
                exact List.mem_append_left _ hw
            · intro scc hscc
              rcases List.mem_append.mp hscc with h | h
              · exact hri3.work_nodup scc h
              · rw [List.mem_singleton] at h
                subst h
                exact hDnod
            · intro scc hscc m hm
              rcases List.mem_append.mp hscc with h | h
              · obtain ⟨hSm, hdm, hnst⟩ := hri3.work_mem scc h m hm
                refine ⟨hSm, hdm, ?_⟩
                intro hmem
                exact hnst (by
                  rw [hBstack2]
                  exact List.mem_append_right _ hmem)
              · rw [List.mem_singleton] at h
                subst h
                exact ⟨hDS m hm, hDdfn m hm, hDdisj m hm⟩
            · intro scc hscc
              rcases List.mem_append.mp hscc with h | h
              · exact hri3.work_depth scc h
              · rw [List.mem_singleton] at h
                subst h
                show st3.depth n = dep0
                rw [hFI3.depth_frame n]
                exact hri.dep_eq n hS
            · intro l1 s1 l2 hsplit m hm s2 hs2
              rcases snoc_split st3.working _ l1 s1 l2 hsplit with
                ⟨hl2, _, _⟩ | ⟨l2p, hL, hl2⟩
              · rw [hl2] at hs2
                cases hs2
              · rcases (by rw [hl2] at hs2; exact List.mem_append.mp hs2 :
                  s2 ∈ l2p ∨ s2 ∈ [⟨B ++ [n], st3.depth n⟩]) with h | h
                · exact hri3.work_disj l1 s1 l2p hL m hm s2 h
                · rw [List.mem_singleton] at h
                  subst h
                  intro hmem
                  have := (hri3.work_mem s1 (by
                    rw [hL]
                    exact List.mem_append_right _ (List.mem_cons_self s1 l2p))
                    m hm).2.2
                  exact this (hDmem m hmem)
            · intro l1 s1 l2 hsplit m hm p hp hRcp
              rcases snoc_split st3.working _ l1 s1 l2 hsplit with
                ⟨hl2, hl1, hs1⟩ | ⟨l2p, hL2, hl2⟩
              · subst hs1
                subst hl1
                rcases hordnew m hm p hp hRcp with h | h
                · exact Or.inl h
                · exact Or.inr h
              · exact hri3.work_ord l1 s1 l2p hL2 m hm p hp hRcp
          · -- the step relation after the pop
            refine { stack_ext := ⟨[], rfl, by simp⟩,
                     dfn_frame := hFI3.dfn_frame,
                     uplink_frame := hup_frame,
                     depth_frame := hFI3.depth_frame,
                     next_mono := le_of_lt hFI3.next_mono,
                     dfn_new_S := hFI3.dfn_new_S,
                     dfn_new_big := hFI3.dfn_new_big,
                     work_ext := ?_,
                     ledger := fun a ha hna => absurd ha hna,
                     stack_empty := fun h => h,
                     budget_mono := hFI3.budget_mono }
            obtain ⟨W0, hW0, hW0f⟩ := hFI3.work_ext
            refine ⟨W0 ++ [⟨B ++ [n], st3.depth n⟩], ?_, ?_⟩
            · show st3.working ++ [⟨B ++ [n], st3.depth n⟩] =
                st.working ++ (W0 ++ [⟨B ++ [n], st3.depth n⟩])
              rw [hW0, List.append_assoc]
            · intro scc hscc m hm
              rcases List.mem_append.mp hscc with h | h
              · exact hW0f scc h m hm
              · rw [List.mem_singleton] at h
                subst h
                exact ⟨hDS m hm, hD0 m hm⟩
        | false =>
          rw [if_neg (by simp)]
          refine { rinv := hri3, rstep := ?_, bool_eq := hR.symm,
                   false_frame := fun h => Bool.noConfusion h,
                   root_pop := fun _ _ => ⟨hdn3, Or.inl hn_stack3⟩ }
          refine { stack_ext := ⟨B ++ [n], hBstack2, ?_⟩,
                   dfn_frame := hFI3.dfn_frame,
                   uplink_frame := hup_frame,
                   depth_frame := hFI3.depth_frame,
                   next_mono := le_of_lt hFI3.next_mono,
                   dfn_new_S := hFI3.dfn_new_S,
                   dfn_new_big := hFI3.dfn_new_big,
                   work_ext := ?_,
                   ledger := ?_,
                   stack_empty := ?_,
                   budget_mono := hFI3.budget_mono }
          · intro a ha
            rcases List.mem_append.mp ha with h | h
            · obtain ⟨hSa, hd0a, _, _⟩ := hBfacts a h
              exact ⟨hSa, hd0a⟩
            · rw [List.mem_singleton] at h
              subst h
              exact ⟨hS, hd⟩
          · obtain ⟨W0, hW0, hW0f⟩ := hFI3.work_ext
            exact ⟨W0, hW0, hW0f⟩
          · intro a ha hna
            have haD : a ∈ B ++ [n] := by
              rw [hBstack2] at ha
              rcases List.mem_append.mp ha with h | h
              · exact h
              · exact absurd h hna
            exact ⟨hDL a haD, hDQ a haD⟩
          · intro hempty
            exfalso
            obtain ⟨w, hw, hwe⟩ := hri3.uplink_wit n hn_stack3
            have hle := hri3.stack_uplink n hn_stack3
            have hge : st3.dfn n ≤ st3.dfn w := by
              rw [hBstack2, hempty, List.append_nil] at hw
              rcases List.mem_append.mp hw with h | h
              · have := hBbig w h
                omega
              · rw [List.mem_singleton] at h
                rw [h]
            have heqq : st3.dfn n = st3.uplink n := by omega
            rw [heqq] at hpop
            simp at hpop

/-- The aggregate effect of a sequence of find_scc_at calls of one round. -/

theorem RRun_refl (g : PhiGraph) (S : Nat → Prop) (st : SccState) :
    RRun g S st st where
  dfn_frame := fun _ _ => rfl
  depth_frame := fun _ => rfl
  dfn_new_S := fun _ h => Or.inl h
  work_ext := ⟨[], by simp, by simp⟩
  budget_mono := fun _ h => h
  stack_eq := fun h => h
  next_mono := le_refl _

theorem RRun_trans (g : PhiGraph) (S : Nat → Prop) (st1 st2 st3 : SccState)
    (hab : RRun g S st1 st2) (hbc : RRun g S st2 st3) : RRun g S st1 st3 where
  dfn_frame := fun m hm => by
    rw [hbc.dfn_frame m (by rw [hab.dfn_frame m hm]; exact hm), hab.dfn_frame m hm]
  depth_frame := fun m => by rw [hbc.depth_frame m, hab.depth_frame m]
  dfn_new_S := fun m hm => by
    rcases hbc.dfn_new_S m hm with h | h
    · exact hab.dfn_new_S m h
    · exact Or.inr h
  work_ext := by
    obtain ⟨W1, hW1, hW1f⟩ := hab.work_ext
    obtain ⟨W2, hW2, hW2f⟩ := hbc.work_ext
    refine ⟨W1 ++ W2, by rw [hW2, hW1, List.append_assoc], ?_⟩
    intro scc hscc m hm
    rcases List.mem_append.mp hscc with h | h
    · exact hW1f scc h m hm
    · obtain ⟨hS, hd⟩ := hW2f scc h m hm
      exact ⟨hS, hab.budget_mono m hd⟩
  budget_mono := fun m hm => hab.budget_mono m (hbc.budget_mono m hm)
  stack_eq := fun h => hbc.stack_eq (hab.stack_eq h)
  next_mono := le_trans hab.next_mono hbc.next_mono

theorem RRun_of_RStep (g : PhiGraph) (R : Nat → Bool) (S : Nat → Prop)
    (M : List (Nat × Nat)) (st st2 : SccState) (n : Nat)
    (h : RStep g R S M st st2 n) : RRun g S st st2 where
  dfn_frame := h.dfn_frame
  depth_frame := h.depth_frame
  dfn_new_S := h.dfn_new_S
  work_ext := h.work_ext
  budget_mono := h.budget_mono
  stack_eq := h.stack_empty
  next_mono := h.next_mono

theorem roundBudget_lt_sccFuel (g : PhiGraph) (R : Nat → Bool) (st : SccState) :
    roundBudget g R st < sccFuel g := by
  have := List.length_filter_le (fun m => R m && (st.dfn m == 0)) g.nodes
  rw [roundBudget, sccFuel]
  omega

/-- One round of the pass: find_scc_at run from every root in the list. -/
theorem roundRun (g : PhiGraph) (d : Nat) (R : Nat → Bool) (S : Nat → Prop)
    (M : List (Nat × Nat)) (dep0 : Nat)
    (hSclosed : ∀ m, S m → ∀ p ∈ g.preds m, R (resolve1 M p) = true → S (resolve1 M p))
    (hRnodes : ∀ n, R n = true → n ∈ g.nodes)
    (hSR : ∀ n, S n → R n = true) :
    ∀ (roots : List Nat) (st : SccState), RInv g d R S M dep0 st →
      (∀ m ∈ roots, R m = true → S m) →
      RInv g d R S M dep0
        (roots.foldl (fun s m => (findSccAt g (sccFuel g) m d s).2) st) ∧
      RRun g S st (roots.foldl (fun s m => (findSccAt g (sccFuel g) m d s).2) st) := by
  intro roots
  induction roots with
  | nil =>
    intro st hri _
    exact ⟨hri, RRun_refl g S st⟩
  | cons r rest ih =>
    intro st hri hroots
    rw [List.foldl_cons]
    have hcall := tarjanCall g d R S M dep0 hSclosed hRnodes hSR (sccFuel g) r st
      hri (roundBudget_lt_sccFuel g R st)
      (fun _ hR => hroots r (List.mem_cons_self r rest) hR)
    have hih := ih (findSccAt g (sccFuel g) r d st).2 hcall.rinv
      (fun m hm hR => hroots m (List.mem_cons_of_mem r hm) hR)
    exact ⟨hih.1, RRun_trans g S st _ _
      (RRun_of_RStep g R S M st _ r hcall.rstep) hih.2⟩

/-- The resolved outside predecessors a member contributes in
get_unique_pred, in scan order. -/

theorem upRed_false (outs : List Nat) :
    ∀ u : Option Nat, (upRed (u, false) outs).2 = false := by
  induction outs with
  | nil => intro u; rfl
  | cons c cs ih =>
    intro u
    show (upRed (some c, if u.isSome && u != some c then false else false) cs).2
      = false
    have h : (if u.isSome && u != some c then false else false) = false := by
      split_ifs <;> rfl
    rw [h]
    exact ih (some c)

theorem upRed_append (xs ys : List Nat) :
    ∀ ur : Option Nat × Bool, upRed ur (xs ++ ys) = upRed (upRed ur xs) ys := by
  induction xs with
  | nil => intro ur; rfl
  | cons c cs ih =>
    intro ur
    obtain ⟨u, r⟩ := ur
    show upRed (some c, _) (cs ++ ys) = _
    rw [ih]
    rfl

theorem upRed_gen (outs : List Nat) : ∀ (v u2 : Nat),
    upRed (some v, true) outs = (some u2, true) →
    v = u2 ∧ ∀ x ∈ outs, x = u2 := by
  induction outs with
  | nil =>
    intro v u2 h
    rw [upRed] at h
    simp only [Prod.mk.injEq, Option.some.injEq] at h
    exact ⟨h.1, by simp⟩
  | cons c cs ih =>
    intro v u2 h
    by_cases hvc : v = c
    · subst hvc
      have hcond : ((some v).isSome && (some v != some v)) = false := by
        simp
      rw [upRed, hcond] at h
      simp only [Bool.false_eq_true, if_false] at h
      obtain ⟨h1, h2⟩ := ih v u2 h
      exact ⟨h1, by
        intro x hx
        rcases List.mem_cons.mp hx with rfl | hx2
        · exact h1
        · exact h2 x hx2⟩
    · exfalso
      have hcond : ((some v).isSome && (some v != some c)) = true := by
        simp [hvc]
      rw [upRed, hcond] at h
      simp only [if_true] at h
      have := upRed_false cs (some c)
      rw [h] at this
      cases this

theorem upRed_none_some (outs : List Nat) : ∀ u2 : Nat,
    upRed (none, true) outs = (some u2, true) →
    u2 ∈ outs ∧ ∀ x ∈ outs, x = u2 := by
  cases outs with
  | nil =>
    intro u2 h
    rw [upRed] at h
    simp at h
  | cons c cs =>
    intro u2 h
    have hcond : ((none : Option Nat).isSome && (none != some c)) = false := by
      simp
    rw [upRed, hcond] at h
    simp only [Bool.false_eq_true, if_false] at h
    obtain ⟨h1, h2⟩ := upRed_gen cs c u2 h
    subst h1
    refine ⟨List.mem_cons_self c cs, ?_⟩
    intro x hx
    rcases List.mem_cons.mp hx with rfl | hx2
    · rfl
    · exact h2 x hx2

theorem mem_memberOutPreds (g : PhiGraph) (M : List (Nat × Nat))
    (sccN : List Nat) (m x : Nat) :
    x ∈ memberOutPreds g M sccN m ↔
    ∃ p ∈ g.preds m, p ≠ m ∧ resolve1 M p ∉ sccN ∧ resolve1 M p = x := by
  rw [memberOutPreds]
  simp only [List.mem_map, List.mem_filter, Bool.and_eq_true, Bool.not_eq_true',
    beq_eq_false_iff_ne, ne_eq, decide_eq_false_iff_not]
  tauto

theorem mem_outScc (g : PhiGraph) (M : List (Nat × Nat)) (sccN : List Nat)
    (ms : List Nat) (x : Nat) :
    x ∈ outScc g M sccN ms ↔ ∃ m ∈ ms, x ∈ memberOutPreds g M sccN m := by
  induction ms with
  | nil => simp [outScc]
  | cons m ms ih =>
    rw [outScc, List.mem_append, ih]
    constructor
    · rintro (h | ⟨m2, hm2, hx⟩)
      · exact ⟨m, List.mem_cons_self m ms, h⟩
      · exact ⟨m2, List.mem_cons_of_mem m hm2, hx⟩
    · rintro ⟨m2, hm2, hx⟩
      rcases List.mem_cons.mp hm2 with rfl | h
      · exact Or.inl hx
      · exact Or.inr ⟨m2, h, hx⟩

theorem innerFoldSpec (g : PhiGraph) (M : List (Nat × Nat)) (scc : Scc)
    (m : Nat) (st : SccState) (hM : st.repMap = M) :
    ∀ (ps : List Nat) (u : Option Nat) (r e : Bool),
    ps.foldl
      (fun (ac2 : Option Nat × Bool × Bool) p =>
        if p == m then ac2
        else if resolve1 st.repMap p ∈ scc.sccNodes then ac2
        else
          (some (resolve1 st.repMap p),
           if ac2.1.isSome && ac2.1 != some (resolve1 st.repMap p) then false
           else ac2.2.1,
           false))
      (u, r, e)
    = ((upRed (u, r) ((ps.filter (fun p => !(p == m) &&
          !(decide (resolve1 M p ∈ scc.sccNodes)))).map (resolve1 M))).1,
       (upRed (u, r) ((ps.filter (fun p => !(p == m) &&
          !(decide (resolve1 M p ∈ scc.sccNodes)))).map (resolve1 M))).2,
       e && ((ps.filter (fun p => !(p == m) &&
          !(decide (resolve1 M p ∈ scc.sccNodes)))).map (resolve1 M)).isEmpty) := by
  subst hM
  intro ps
  induction ps with
  | nil =>
    intro u r e
    simp [upRed]
  | cons p ps ih =>
    intro u r e
    rw [List.foldl_cons]
    cases hpm : p == m with
    | true =>
      have hfilt : (!(p == m) &&
          !(decide (resolve1 st.repMap p ∈ scc.sccNodes))) = false := by
        rw [hpm]
        rfl
      rw [List.filter_cons_of_neg (by simp [hfilt])]
      rw [if_pos (rfl : true = true)]
      exact ih u r e
    | false =>
      rw [if_neg (by simp : ¬(false = true))]
      by_cases hmem : resolve1 st.repMap p ∈ scc.sccNodes
      · have hfilt : (!(p == m) &&
            !(decide (resolve1 st.repMap p ∈ scc.sccNodes))) = false := by
          simp only [hpm, Bool.not_false, Bool.true_and]
          rw [decide_eq_true hmem]
          rfl
        rw [List.filter_cons_of_neg (by simp [hfilt])]
        rw [if_pos hmem]
        exact ih u r e
      · have hfilt : (!(p == m) &&
            !(decide (resolve1 st.repMap p ∈ scc.sccNodes))) = true := by
          simp only [hpm, Bool.not_false, Bool.true_and]
          rw [decide_eq_false hmem]
          rfl
        rw [List.filter_cons_of_pos (by simpa using hfilt)]
        rw [if_neg hmem]
        rw [ih]
        rw [List.map_cons]
        rw [upRed]
        simp

theorem outScc_cons (g : PhiGraph) (M : List (Nat × Nat)) (sccN : List Nat)
    (m : Nat) (ms : List Nat) :
    outScc g M sccN (m :: ms) = memberOutPreds g M sccN m ++ outScc g M sccN ms :=
  rfl

/-- The outcome of the member loop of get_unique_pred. -/

theorem gupFold (g : PhiGraph) (M : List (Nat × Nat)) (scc : Scc) (dp : Nat) :
    ∀ (ms : List Nat) (u : Option Nat) (r : Bool) (sccA : Scc) (st : SccState),
    st.repMap = M →
    ms.Nodup →
    (∀ m ∈ ms, st.depth m = dp) →
    GupOut g M scc.sccNodes dp ms u r sccA st
      (ms.foldl
        (fun (acc : Option Nat × Bool × Scc × SccState) m =>
          let st := acc.2.2.2
          let inner := (g.preds m).foldl
            (fun (ac2 : Option Nat × Bool × Bool) p =>
              if p == m then ac2
              else if resolve1 st.repMap p ∈ scc.sccNodes then ac2
              else
                (some (resolve1 st.repMap p),
                 if ac2.1.isSome && ac2.1 != some (resolve1 st.repMap p) then
                   false
                 else ac2.2.1,
                 false))
            (acc.1, acc.2.1, true)
          if inner.2.2 then
            let newDepth := st.depth m + 1
            (inner.1, inner.2.1, { acc.2.2.1 with depth := newDepth },
             { st with depth := updF st.depth m newDepth,
                       dfn := updF st.dfn m 0 })
          else (inner.1, inner.2.1, acc.2.2.1, st))
        (u, r, sccA, st)) := by
  intro ms
  induction ms with
  | nil =>
    intro u r sccA st hM hnodup hdep
    refine { up_eq := rfl, red_eq := rfl, nodes_eq := rfl,
             depth_none := fun _ => rfl,
             depth_some := fun h => absurd h (by simp),
             map_eq := rfl, stack_eq := rfl, instack_eq := rfl,
             next_eq := rfl, work_eq := rfl,
             out_frame := fun x _ => ⟨rfl, rfl⟩,
             mem_char := fun x hx => absurd hx (List.not_mem_nil x) }
  | cons m ms ih =>
    intro u r sccA st hM hnodup hdep
    have hmnotin : m ∉ ms := (List.nodup_cons.mp hnodup).1
    have hdm : st.depth m = dp := hdep m (List.mem_cons_self m ms)
    have haux : upRed (u, r) (outScc g M scc.sccNodes (m :: ms)) =
        upRed (upRed (u, r) (memberOutPreds g M scc.sccNodes m))
          (outScc g M scc.sccNodes ms) := by
      rw [outScc_cons, upRed_append]
    cases helig : eligMember g M scc.sccNodes m with
    | true =>
      have hD : (((g.preds m).filter (fun p => !(p == m) &&
          !(decide (resolve1 M p ∈ scc.sccNodes)))).map (resolve1 M)).isEmpty
          = true := helig
      have hstep : (fun (acc : Option Nat × Bool × Scc × SccState) m =>
          let st := acc.2.2.2
          let inner := (g.preds m).foldl
            (fun (ac2 : Option Nat × Bool × Bool) p =>
              if p == m then ac2
              else if resolve1 st.repMap p ∈ scc.sccNodes then ac2
              else
                (some (resolve1 st.repMap p),
                 if ac2.1.isSome && ac2.1 != some (resolve1 st.repMap p) then
                   false
                 else ac2.2.1,
                 false))
            (acc.1, acc.2.1, true)
          if inner.2.2 then
            let newDepth := st.depth m + 1
            (inner.1, inner.2.1, { acc.2.2.1 with depth := newDepth },
             { st with depth := updF st.depth m newDepth,
                       dfn := updF st.dfn m 0 })
          else (inner.1, inner.2.1, acc.2.2.1, st)) (u, r, sccA, st) m =
          ((upRed (u, r) (memberOutPreds g M scc.sccNodes m)).1,
           (upRed (u, r) (memberOutPreds g M scc.sccNodes m)).2,
           { sccA with depth := st.depth m + 1 },
           { st with depth := updF st.depth m (st.depth m + 1),
                     dfn := updF st.dfn m 0 }) := by
        dsimp only
        rw [innerFoldSpec g M scc m st hM (g.preds m) u r true]
        dsimp only
        rw [Bool.true_and]
        rw [if_pos hD]
        rfl
      have hih := ih (upRed (u, r) (memberOutPreds g M scc.sccNodes m)).1
        (upRed (u, r) (memberOutPreds g M scc.sccNodes m)).2
        { sccA with depth := st.depth m + 1 }
        { st with depth := updF st.depth m (st.depth m + 1),
                  dfn := updF st.dfn m 0 }
        hM (List.nodup_cons.mp hnodup).2
        (by
          intro m2 hm2
          show updF st.depth m (st.depth m + 1) m2 = dp
          rw [updF, if_neg (fun h => hmnotin (by rw [← h]; exact hm2))]
          exact hdep m2 (List.mem_cons_of_mem m hm2))
      rw [← hstep] at hih
      refine { up_eq := hih.up_eq.trans (congrArg Prod.fst haux.symm),
               red_eq := hih.red_eq.trans (congrArg Prod.snd haux.symm),
               nodes_eq := hih.nodes_eq,
               depth_none := ?_, depth_some := ?_,
               map_eq := hih.map_eq, stack_eq := hih.stack_eq,
               instack_eq := hih.instack_eq, next_eq := hih.next_eq,
               work_eq := hih.work_eq, out_frame := ?_, mem_char := ?_ }
      · intro hall
        exact absurd (hall m (List.mem_cons_self m ms)) (by rw [helig]; simp)
      · intro _
        by_cases hex2 : ∃ m2 ∈ ms, eligMember g M scc.sccNodes m2 = true
        · exact hih.depth_some hex2
        · have hall : ∀ m2 ∈ ms, eligMember g M scc.sccNodes m2 = false := by
            intro m2 hm2
            cases h : eligMember g M scc.sccNodes m2
            · rfl
            · exact absurd ⟨m2, hm2, h⟩ hex2
          exact (hih.depth_none hall).trans (by
            show st.depth m + 1 = dp + 1
            rw [hdm])
      · intro x hx
        have hxm : x ≠ m := fun h => hx (by rw [h]; exact List.mem_cons_self m ms)
        have hxms : x ∉ ms := fun h => hx (List.mem_cons_of_mem m h)
        obtain ⟨h1, h2⟩ := hih.out_frame x hxms
        refine ⟨h1.trans ?_, h2.trans ?_⟩
        · show updF st.dfn m 0 x = st.dfn x
          rw [updF, if_neg hxm]
        · show updF st.depth m (st.depth m + 1) x = st.depth x
          rw [updF, if_neg hxm]
      · intro x hx
        rcases List.mem_cons.mp hx with rfl | hx2
        · refine ⟨fun _ => ?_, fun hfalse => absurd helig (by rw [hfalse]; simp)⟩
          obtain ⟨h1, h2⟩ := hih.out_frame x hmnotin
          refine ⟨h1.trans ?_, h2.trans ?_⟩
          · show updF st.dfn x 0 x = 0
            rw [updF, if_pos rfl]
          · show updF st.depth x (st.depth x + 1) x = dp + 1
            rw [updF, if_pos rfl, hdm]
        · have hxm : x ≠ m := fun h => hmnotin (by rw [← h]; exact hx2)
          obtain ⟨hc1, hc2⟩ := hih.mem_char x hx2
          refine ⟨hc1, fun hfalse => ?_⟩
          obtain ⟨h1, h2⟩ := hc2 hfalse
          refine ⟨h1.trans ?_, h2.trans ?_⟩
          · show updF st.dfn m 0 x = st.dfn x
            rw [updF, if_neg hxm]
          · show updF st.depth m (st.depth m + 1) x = st.depth x
            rw [updF, if_neg hxm]
    | false =>
      have hD : (((g.preds m).filter (fun p => !(p == m) &&
          !(decide (resolve1 M p ∈ scc.sccNodes)))).map (resolve1 M)).isEmpty
          = false := helig
      have hstep : (fun (acc : Option Nat × Bool × Scc × SccState) m =>
          let st := acc.2.2.2
          let inner := (g.preds m).foldl
            (fun (ac2 : Option Nat × Bool × Bool) p =>
              if p == m then ac2
              else if resolve1 st.repMap p ∈ scc.sccNodes then ac2
              else
                (some (resolve1 st.repMap p),
                 if ac2.1.isSome && ac2.1 != some (resolve1 st.repMap p) then
                   false
                 else ac2.2.1,
                 false))
            (acc.1, acc.2.1, true)
          if inner.2.2 then
            let newDepth := st.depth m + 1
            (inner.1, inner.2.1, { acc.2.2.1 with depth := newDepth },
             { st with depth := updF st.depth m newDepth,
                       dfn := updF st.dfn m 0 })
          else (inner.1, inner.2.1, acc.2.2.1, st)) (u, r, sccA, st) m =
          ((upRed (u, r) (memberOutPreds g M scc.sccNodes m)).1,
           (upRed (u, r) (memberOutPreds g M scc.sccNodes m)).2,
           sccA, st) := by
        dsimp only
        rw [innerFoldSpec g M scc m st hM (g.preds m) u r true]
        dsimp only
        rw [Bool.true_and]
        rw [if_neg (by simp [hD])]
        rfl
      have hih := ih (upRed (u, r) (memberOutPreds g M scc.sccNodes m)).1
        (upRed (u, r) (memberOutPreds g M scc.sccNodes m)).2 sccA st
        hM (List.nodup_cons.mp hnodup).2
        (fun m2 hm2 => hdep m2 (List.mem_cons_of_mem m hm2))
      rw [← hstep] at hih
      refine { up_eq := hih.up_eq.trans (congrArg Prod.fst haux.symm),
               red_eq := hih.red_eq.trans (congrArg Prod.snd haux.symm),
               nodes_eq := hih.nodes_eq,
               depth_none := ?_, depth_some := ?_,
               map_eq := hih.map_eq, stack_eq := hih.stack_eq,
               instack_eq := hih.instack_eq, next_eq := hih.next_eq,
               work_eq := hih.work_eq, out_frame := ?_, mem_char := ?_ }
      · intro hall
        exact hih.depth_none (fun m2 hm2 => hall m2 (List.mem_cons_of_mem m hm2))
      · intro hex
        obtain ⟨m2, hm2, he2⟩ := hex
        rcases List.mem_cons.mp hm2 with rfl | hm2b
        · rw [helig] at he2
          cases he2
        · exact hih.depth_some ⟨m2, hm2b, he2⟩
      · intro x hx
        exact hih.out_frame x (fun h => hx (List.mem_cons_of_mem m h))
      · intro x hx
        rcases List.mem_cons.mp hx with rfl | hx2
        · refine ⟨fun htrue => absurd helig (by rw [htrue]; simp), fun _ => ?_⟩
          exact hih.out_frame x hmnotin
        · exact hih.mem_char x hx2

/-- Full characterization of one get_unique_pred evaluation. -/

theorem getUniquePredSpec (g : PhiGraph) (M : List (Nat × Nat))
    (st0 : SccState) (scc : Scc) (dp : Nat) (hM : st0.repMap = M)
    (hnodup : scc.sccNodes.Nodup)
    (hdep : ∀ m ∈ scc.sccNodes, st0.depth m = dp) :
    GupRes g M st0 scc dp (getUniquePred g st0 scc) := by
  have hgf := gupFold g M scc dp scc.sccNodes none true scc st0 hM hnodup hdep
  refine { map_eq := hgf.map_eq, stack_eq := hgf.stack_eq,
           instack_eq := hgf.instack_eq, next_eq := hgf.next_eq,
           work_eq := hgf.work_eq, nodes_eq := hgf.nodes_eq,
           out_frame := hgf.out_frame,
           mem_elig := fun x hx he => (hgf.mem_char x hx).1 he,
           mem_inelig := fun x hx he => (hgf.mem_char x hx).2 he,
           some_char := ?_, depth_kept := hgf.depth_some }
  intro u hsome
  have hup := hgf.up_eq
  have hrede := hgf.red_eq
  set fin := scc.sccNodes.foldl
    (fun (acc : Option Nat × Bool × Scc × SccState) m =>
      let st := acc.2.2.2
      let inner := (g.preds m).foldl
        (fun (ac2 : Option Nat × Bool × Bool) p =>
          if p == m then ac2
          else if resolve1 st.repMap p ∈ scc.sccNodes then ac2
          else
            (some (resolve1 st.repMap p),
             if ac2.1.isSome && ac2.1 != some (resolve1 st.repMap p) then false
             else ac2.2.1,
             false))
        (acc.1, acc.2.1, true)
      if inner.2.2 then
        let newDepth := st.depth m + 1
        (inner.1, inner.2.1, { acc.2.2.1 with depth := newDepth },
         { st with depth := updF st.depth m newDepth, dfn := updF st.dfn m 0 })
      else (inner.1, inner.2.1, acc.2.2.1, st))
    (none, true, scc, st0) with hfin
  have hsome2 : (if fin.2.1 then fin.1 else none) = some u := hsome
  cases hred : fin.2.1 with
  | false =>
    rw [hred] at hsome2
    simp at hsome2
  | true =>
    rw [hred] at hsome2
    simp only [if_true] at hsome2
    have hpair : upRed (none, true)
        (outScc g M scc.sccNodes scc.sccNodes) = (some u, true) := by
      have h1 : (upRed (none, true)
          (outScc g M scc.sccNodes scc.sccNodes)).1 = some u := by
        rw [← hup]
        exact hsome2
      have h2 : (upRed (none, true)
          (outScc g M scc.sccNodes scc.sccNodes)).2 = true := by
        rw [← hrede]
        exact hred
      exact Prod.ext h1 h2
    obtain ⟨humem, hall⟩ := upRed_none_some _ u hpair
    obtain ⟨m, hm, hmo⟩ := (mem_outScc g M scc.sccNodes scc.sccNodes u).mp humem
    obtain ⟨p, hp, hpm, hnotin, hres⟩ :=
      (mem_memberOutPreds g M scc.sccNodes m u).mp hmo
    refine ⟨by rw [← hres]; exact hnotin, ⟨m, hm, p, hp, hpm, hres⟩, ?_⟩
    intro m2 hm2 p2 hp2 hpm2
    by_cases hin : resolve1 M p2 ∈ scc.sccNodes
    · exact Or.inl hin
    · right
      refine hall _ ?_
      rw [mem_outScc]
      refine ⟨m2, hm2, ?_⟩
      rw [mem_memberOutPreds]
      exact ⟨p2, hp2, hpm2, hin, rfl⟩

theorem lookup_append_none_left (M N : List (Nat × Nat)) (k : Nat)
    (h : (M ++ N).lookup k = none) : M.lookup k = none := by
  induction M with
  | nil => rfl
  | cons e rest ih =>
    obtain ⟨a, b⟩ := e
    rw [List.cons_append, List.lookup_cons] at h
    rw [List.lookup_cons]
    cases hk : (k == a) with
    | true =>
      rw [hk] at h
      cases h
    | false =>
      rw [hk] at h
      exact ih h

theorem lookup_append_some_left (M N : List (Nat × Nat)) (k v : Nat)
    (h : M.lookup k = some v) : (M ++ N).lookup k = some v := by
  induction M with
  | nil => cases h
  | cons e rest ih =>
    obtain ⟨a, b⟩ := e
    rw [List.cons_append, List.lookup_cons]
    rw [List.lookup_cons] at h
    cases hk : (k == a) with
    | true =>
      rw [hk] at h
      exact h
    | false =>
      rw [hk] at h
      exact ih h

theorem lookup_append_none (M N : List (Nat × Nat)) (k : Nat)
    (h : M.lookup k = none) : (M ++ N).lookup k = N.lookup k := by
  induction M with
  | nil => rfl
  | cons e rest ih =>
    obtain ⟨a, b⟩ := e
    rw [List.cons_append, List.lookup_cons]
    rw [List.lookup_cons] at h
    cases hk : (k == a) with
    | true =>
      rw [hk] at h
      cases h
    | false =>
      rw [hk] at h
      exact ih h

theorem lookup_map_const : ∀ (l : List Nat) (u p : Nat),
    (l.map (fun m => (m, u))).lookup p =
      if p ∈ l then some u else none := by
  intro l u
  induction l with
  | nil =>
    intro p
    simp
  | cons a t ih =>
    intro p
    rw [List.map_cons, List.lookup_cons]
    by_cases hp : p = a
    · subst hp
      simp
    · have hne : (p == a) = false := by simpa using hp
      rw [hne, ih p]
      simp [List.mem_cons, hp]

theorem resolve1_not_key (M : List (Nat × Nat))
    (hcf : ∀ e ∈ M, ∀ e2 ∈ M, e.2 ≠ e2.1) (x : Nat) :
    M.lookup (resolve1 M x) = none := by
  rw [resolve1]
  cases h : M.lookup x with
  | none => exact h
  | some v =>
    have hmem : (x, v) ∈ M := lookup_mem M x v h
    refine lookup_none_of_not_mem M v (fun w hw => ?_)
    exact hcf (x, v) hmem (v, w) hw rfl

theorem append_split (W rest l1 : List Scc) (s1 : Scc) (l2 : List Scc)
    (h : W ++ rest = l1 ++ s1 :: l2) :
    (∃ l2w, W = l1 ++ s1 :: l2w ∧ l2 = l2w ++ rest) ∨
    (∃ l1r, l1 = W ++ l1r ∧ rest = l1r ++ s1 :: l2) := by
  rcases List.append_eq_append_iff.mp h with ⟨a, h1, h2⟩ | ⟨c, h1, h2⟩
  · exact Or.inr ⟨a, h1, h2⟩
  · cases c with
    | nil =>
      rw [List.append_nil] at h1
      simp only [List.nil_append] at h2
      exact Or.inr ⟨[], by rw [h1, List.append_nil], by rw [← h2]; rfl⟩
    | cons x xs =>
      simp only [List.cons_append, List.cons.injEq] at h2
      obtain ⟨hx, hl2⟩ := h2
      subst hx
      exact Or.inl ⟨xs, by rw [h1], hl2⟩

theorem lookup_isSome_of_mem (M : List (Nat × Nat)) (k v : Nat)
    (h : (k, v) ∈ M) : M.lookup k ≠ none := by
  induction M with
  | nil => cases h
  | cons e rest ih =>
    obtain ⟨a, b⟩ := e
    rw [List.lookup_cons]
    by_cases hk : k = a
    · subst hk
      simp
    · have hne : (k == a) = false := by simpa using hk
      rw [hne]
      rcases List.mem_cons.mp h with he | hm
      · cases he
        exact absurd rfl hk
      · exact ih hm

theorem elig_closure (g : PhiGraph) (M : List (Nat × Nat)) (sccN : List Nat)
    (m : Nat) (he : eligMember g M sccN m = true) :
    ∀ p ∈ g.preds m, p ≠ m → resolve1 M p ∈ sccN := by
  intro p hp hpm
  by_contra hnot
  have hmem : resolve1 M p ∈ memberOutPreds g M sccN m :=
    (mem_memberOutPreds g M sccN m (resolve1 M p)).mpr ⟨p, hp, hpm, hnot, rfl⟩
  rw [eligMember, List.isEmpty_iff] at he
  rw [he] at hmem
  cases hmem

theorem keys_of_new_entries (sccN : List Nat) (u : Nat) :
    (sccN.map (fun m => (m, u))).map Prod.fst = sccN := by
  induction sccN with
  | nil => rfl
  | cons a l ih =>
    simp only [List.map_cons]
    rw [ih]

/-- The invariant of the work-stack evaluation loop of
prepare_next_iteration. -/

theorem cons_split (x : Scc) (xs l1 : List Scc) (s1 : Scc) (l2 : List Scc)
    (h : x :: xs = l1 ++ s1 :: l2) :
    (l1 = [] ∧ s1 = x ∧ l2 = xs) ∨
    (∃ l1p, l1 = x :: l1p ∧ xs = l1p ++ s1 :: l2) := by
  cases l1 with
  | nil =>
    simp only [List.nil_append] at h
    injection h with h1 h2
    exact Or.inl ⟨rfl, h1.symm, h2.symm⟩
  | cons a l1p =>
    simp only [List.cons_append] at h
    injection h with h1 h2
    exact Or.inr ⟨l1p, by rw [h1], h2⟩

theorem prepareLoopSpec (g : PhiGraph) : ∀ (L : List Scc) (st : SccState),
    PInv g L st →
    (∀ scc ∈ L, ∀ m ∈ scc.sccNodes, st.dfn m ≠ 0) →
    PrepOut g st (prepareLoop g L st) ∧
    sccSize (prepareLoop g L st).1 ≤ sccSize L ∧
    (sccSize (prepareLoop g L st).1 = sccSize L →
      (prepareLoop g L st).1 = [] ∨ headClosed g (prepareLoop g L st)) := by
  intro L
  induction L with
  | nil =>
    intro st hpi _
    refine ⟨?_, Nat.le_refl _, fun _ => Or.inl rfl⟩
    refine { pinv := ?_, map_ext := ⟨[], by rw [List.append_nil]; rfl⟩,
             stack_eq := rfl,
             instack_eq := rfl, next_eq := rfl, work_eq := rfl,
             dfn_or := fun m => Or.inl rfl,
             head_char := fun s1 r2 h => by cases h }
    exact { chain_free := hpi.chain_free, keys_nodup := hpi.keys_nodup,
            keys_pend := fun e he => List.not_mem_nil e.1,
            vals_pend := fun e he => List.not_mem_nil e.2,
            pend_nodup := fun scc h => absurd h (List.not_mem_nil _),
            pend_disj := fun l1 s1 l2 h => by
              have hlen := congrArg List.length h
              simp [prepareLoop] at hlen
              omega,
            pend_ord := fun l1 s1 l2 h => by
              have hlen := congrArg List.length h
              simp [prepareLoop] at hlen
              omega,
            pend_depth := fun scc h => absurd h (List.not_mem_nil _),
            pend_phi := fun scc h => absurd h (List.not_mem_nil _),
            key_phi := hpi.key_phi, key_pred := hpi.key_pred }
  | cons scc rest ih =>
    intro st hpi hdfn
    have hsccmem : scc ∈ scc :: rest := List.mem_cons_self scc rest
    have hnodup := hpi.pend_nodup scc hsccmem
    have hdep : ∀ m ∈ scc.sccNodes, st.depth m = scc.depth :=
      hpi.pend_depth scc hsccmem
    have hdfnhd : ∀ m ∈ scc.sccNodes, st.dfn m ≠ 0 := hdfn scc hsccmem
    have hdisjhd : ∀ m ∈ scc.sccNodes, ∀ s2 ∈ rest, m ∉ s2.sccNodes :=
      hpi.pend_disj [] scc rest rfl
    have hgup := getUniquePredSpec g st.repMap st scc scc.depth rfl hnodup hdep
    cases hval : getUniquePred g st scc with
    | mk res pr =>
    obtain ⟨scc2, st2⟩ := pr
    rw [hval] at hgup
    have hdfn2 : ∀ m, st2.dfn m = st.dfn m ∨ st2.dfn m = 0 := by
      intro m
      by_cases hm : m ∈ scc.sccNodes
      · cases he : eligMember g st.repMap scc.sccNodes m with
        | true => exact Or.inr (hgup.mem_elig m hm he).1
        | false => exact Or.inl (hgup.mem_inelig m hm he).1
      · exact Or.inl (hgup.out_frame m hm).1
    have hdepframe : ∀ scc3 ∈ rest, ∀ m ∈ scc3.sccNodes,
        st2.depth m = st.depth m ∧ st2.dfn m = st.dfn m := by
      intro scc3 h3 m hm
      have hnot : m ∉ scc.sccNodes := by
        intro hmem
        exact hdisjhd m hmem scc3 h3 hm
      exact ⟨(hgup.out_frame m hnot).2, (hgup.out_frame m hnot).1⟩
    cases res with
    | some up =>
      obtain ⟨hnotin, ⟨m0, hm0, p0, hp0, hpm0, hres0⟩, halluniq⟩ :=
        hgup.some_char up rfl
      have heq : prepareLoop g (scc :: rest) st = prepareLoop g rest
          { st2 with
            repMap := st2.repMap ++ scc.sccNodes.map (fun m => (m, up)) } := by
        simp only [prepareLoop]
        rw [hval]
      rw [heq]
      set st3 : SccState :=
        { st2 with
          repMap := st2.repMap ++ scc.sccNodes.map (fun m => (m, up)) }
        with hst3
      have hmap3 : st3.repMap = st.repMap ++
          scc.sccNodes.map (fun m => (m, up)) := by
        show st2.repMap ++ _ = _
        rw [hgup.map_eq]
      -- the new value is not a key of the old map
      have hupnk : st.repMap.lookup up = none := by
        rw [← hres0]
        exact resolve1_not_key st.repMap hpi.chain_free p0
      -- membership in the extended map
      have hmem3 : ∀ e, e ∈ st3.repMap →
          e ∈ st.repMap ∨ (e.1 ∈ scc.sccNodes ∧ e.2 = up) := by
        intro e he
        rw [hmap3] at he
        rcases List.mem_append.mp he with h | h
        · exact Or.inl h
        · obtain ⟨m, hm, hme⟩ := List.mem_map.mp h
          right
          rw [← hme]
          exact ⟨hm, rfl⟩
      have hlookN : ∀ q, (scc.sccNodes.map (fun m => (m, up))).lookup q =
          if q ∈ scc.sccNodes then some up else none :=
        fun q => lookup_map_const scc.sccNodes up q
      have hlift : ∀ p, (resolve1 st.repMap p ∈ scc.sccNodes ∨
          resolve1 st.repMap p = up) → resolve1 st3.repMap p = up := by
        intro p hcase
        cases hlp : st.repMap.lookup p with
        | some w =>
          have hw : resolve1 st.repMap p = w := resolve1_lookup_some _ _ _ hlp
          rcases hcase with hin | hup2
          · exfalso
            rw [hw] at hin
            refine hpi.vals_pend (p, w) (lookup_mem _ _ _ hlp) ?_
            rw [sccListNodes_cons]
            exact List.mem_append_left _ hin
          · have h3 : st3.repMap.lookup p = some w := by
              rw [hmap3]
              exact lookup_append_some_left _ _ _ _ hlp
            rw [resolve1_lookup_some _ _ _ h3, ← hw]
            exact hup2
        | none =>
          have hw : resolve1 st.repMap p = p := resolve1_lookup_none _ _ hlp
          rcases hcase with hin | hup2
          · rw [hw] at hin
            have h3 : st3.repMap.lookup p = some up := by
              rw [hmap3, lookup_append_none _ _ _ hlp, hlookN p, if_pos hin]
            exact resolve1_lookup_some _ _ _ h3
          · rw [hw] at hup2
            have hnin : p ∉ scc.sccNodes := by
              rw [hup2]
              exact hnotin
            have h3 : st3.repMap.lookup p = none := by
              rw [hmap3, lookup_append_none _ _ _ hlp, hlookN p, if_neg hnin]
            rw [resolve1_lookup_none _ _ h3]
            exact hup2
      have hkp3 : ∀ e ∈ st3.repMap,
          g.isPhi e.1 = true ∧ g.phiLoop e.1 = false := by
        intro e he
        rcases hmem3 e he with h | ⟨hk, _⟩
        · exact hpi.key_phi e h
        · exact hpi.pend_phi scc hsccmem e.1 hk
      have hkpr3 : ∀ e ∈ st3.repMap, ∀ p ∈ g.preds e.1, p ≠ e.1 →
          resolve1 st3.repMap p = e.2 := by
        intro e he p hp hpne
        rcases hmem3 e he with h | ⟨hk, hv⟩
        · have hold : resolve1 st.repMap p = e.2 := hpi.key_pred e h p hp hpne
          cases hlp : st.repMap.lookup p with
          | some w =>
            have h3 : st3.repMap.lookup p = some w := by
              rw [hmap3]
              exact lookup_append_some_left _ _ _ _ hlp
            rw [resolve1_lookup_some _ _ _ h3]
            rw [resolve1_lookup_some _ _ _ hlp] at hold
            exact hold
          | none =>
            rw [resolve1_lookup_none _ _ hlp] at hold
            have hnk : st.repMap.lookup e.2 = none := by
              refine lookup_none_of_not_mem _ _ (fun w hw => ?_)
              exact hpi.chain_free e h (e.2, w) hw rfl
            have hnscc : e.2 ∉ scc.sccNodes := by
              intro hc
              refine hpi.vals_pend e h ?_
              rw [sccListNodes_cons]
              exact List.mem_append_left _ hc
            have h3 : st3.repMap.lookup p = none := by
              rw [hold, hmap3, lookup_append_none _ _ _ hnk, hlookN e.2,
                if_neg hnscc]
            rw [resolve1_lookup_none _ _ h3]
            exact hold
        · rw [hv]
          exact hlift p (halluniq e.1 hk p hp hpne)
      have hpinext : PInv g rest st3 := by
        refine { chain_free := ?_, keys_nodup := ?_, keys_pend := ?_,
                 vals_pend := ?_, pend_nodup := ?_, pend_disj := ?_,
                 pend_ord := ?_, pend_depth := ?_, pend_phi := ?_,
                 key_phi := hkp3, key_pred := hkpr3 }
        · intro e he e2 he2
          rcases hmem3 e he with h | ⟨hk, hv⟩
          · rcases hmem3 e2 he2 with h2 | ⟨hk2, hv2⟩
            · exact hpi.chain_free e h e2 h2
            · intro hcon
              have : e.2 ∈ sccListNodes (scc :: rest) := by
                rw [sccListNodes_cons]
                exact List.mem_append_left _ (hcon ▸ hk2)
              exact hpi.vals_pend e h this
          · rcases hmem3 e2 he2 with h2 | ⟨hk2, hv2⟩
            · intro hcon
              rw [hv] at hcon
              refine lookup_isSome_of_mem st.repMap e2.1 e2.2 h2 ?_
              rw [← hcon]
              exact hupnk
            · intro hcon
              rw [hv] at hcon
              rw [hcon] at hnotin
              exact hnotin hk2
        · rw [hmap3, List.map_append, keys_of_new_entries]
          rw [List.nodup_append]
          refine ⟨hpi.keys_nodup, hnodup, ?_⟩
          intro k hk hk2
          have : k ∈ sccListNodes (scc :: rest) := by
            rw [sccListNodes_cons]
            exact List.mem_append_left _ hk2
          obtain ⟨e, he, hke⟩ := List.mem_map.mp hk
          rw [← hke] at this
          exact hpi.keys_pend e he this
        · intro e he
          rcases hmem3 e he with h | ⟨hk, _⟩
          · intro hcon
            refine hpi.keys_pend e h ?_
            rw [sccListNodes_cons]
            exact List.mem_append_right _ hcon
          · intro hcon
            rw [mem_sccListNodes] at hcon
            obtain ⟨s2, hs2, hmem2⟩ := hcon
            exact hdisjhd e.1 hk s2 hs2 hmem2
        · intro e he
          rcases hmem3 e he with h | ⟨_, hv⟩
          · intro hcon
            refine hpi.vals_pend e h ?_
            rw [sccListNodes_cons]
            exact List.mem_append_right _ hcon
          · rw [hv]
            cases hlp : st.repMap.lookup p0 with
            | some v =>
              have hupv : up = v := by
                rw [← hres0, resolve1, hlp]
              rw [hupv]
              intro hcon
              refine hpi.vals_pend (p0, v) (lookup_mem _ _ _ hlp) ?_
              rw [sccListNodes_cons]
              exact List.mem_append_right _ hcon
            | none =>
              have hupp : up = p0 := by
                rw [← hres0, resolve1, hlp]
              rw [hupp]
              exact hpi.pend_ord [] scc rest rfl m0 hm0 p0 hp0 hlp
        · exact fun s h => hpi.pend_nodup s (List.mem_cons_of_mem scc h)
        · intro l1 s1 l2 hsplit
          exact hpi.pend_disj (scc :: l1) s1 l2 (by rw [hsplit]; rfl)
        · intro l1 s1 l2 hsplit m hm p hp hlook
          have hlook2 : st.repMap.lookup p = none := by
            have h0 : (st.repMap ++
                scc.sccNodes.map (fun m => (m, up))).lookup p = none := by
              rw [← hmap3]
              exact hlook
            exact lookup_append_none_left _ _ _ h0
          exact hpi.pend_ord (scc :: l1) s1 l2 (by rw [hsplit]; rfl) m hm p hp hlook2
        · intro s h m hm
          have := (hdepframe s h m hm).1
          show st2.depth m = s.depth
          rw [this]
          exact hpi.pend_depth s (List.mem_cons_of_mem scc h) m hm
        · exact fun s h => hpi.pend_phi s (List.mem_cons_of_mem scc h)
      have hdfnnext : ∀ s ∈ rest, ∀ m ∈ s.sccNodes, st3.dfn m ≠ 0 := by
        intro s h m hm
        show st2.dfn m ≠ 0
        rw [(hdepframe s h m hm).2]
        exact hdfn s (List.mem_cons_of_mem scc h) m hm
      have hres := ih st3 hpinext hdfnnext
      have hsccpos : 0 < scc.sccNodes.length := List.length_pos_of_mem hm0
      refine ⟨?_, ?_, ?_⟩
      · refine { pinv := hres.1.pinv, map_ext := ?_, stack_eq := ?_,
                 instack_eq := ?_, next_eq := ?_, work_eq := ?_,
                 dfn_or := ?_, head_char := hres.1.head_char }
        · obtain ⟨N, hN⟩ := hres.1.map_ext
          refine ⟨scc.sccNodes.map (fun m => (m, up)) ++ N, ?_⟩
          rw [hN, hmap3, List.append_assoc]
        · rw [hres.1.stack_eq]
          show st2.stack = st.stack
          exact hgup.stack_eq
        · rw [hres.1.instack_eq]
          exact hgup.instack_eq
        · rw [hres.1.next_eq]
          exact hgup.next_eq
        · rw [hres.1.work_eq]
          exact hgup.work_eq
        · intro m
          rcases hres.1.dfn_or m with h | h
          · rw [h]
            exact hdfn2 m
          · exact Or.inr h
      · have h1 := hres.2.1
        rw [sccSize_cons]
        omega
      · intro hsz
        exfalso
        have h1 := hres.2.1
        rw [sccSize_cons] at hsz
        omega
    | none =>
      by_cases hbig : (scc2.sccNodes.filter (fun m => st2.dfn m == 0)).length > 1
      · have heq : prepareLoop g (scc :: rest) st =
            (⟨scc2.sccNodes.filter (fun m => st2.dfn m == 0), scc2.depth⟩ :: rest,
             st2) := by
          simp only [prepareLoop]
          rw [hval]
          simp only [hbig, if_true]
        rw [heq]
        set kept := scc2.sccNodes.filter (fun m => st2.dfn m == 0) with hkept
        have hkmem : ∀ m, m ∈ kept → m ∈ scc.sccNodes ∧ st2.dfn m = 0 := by
          intro m hm
          rw [hkept, List.mem_filter] at hm
          exact ⟨hgup.nodes_eq ▸ hm.1, by simpa using hm.2⟩
        have hkelig : ∀ m, m ∈ kept →
            eligMember g st.repMap scc.sccNodes m = true := by
          intro m hm
          obtain ⟨hms, hd0⟩ := hkmem m hm
          cases he : eligMember g st.repMap scc.sccNodes m with
          | true => rfl
          | false =>
            exfalso
            have := (hgup.mem_inelig m hms he).1
            rw [this] at hd0
            exact hdfnhd m hms hd0
        have hkex : ∃ x ∈ scc.sccNodes, eligMember g st.repMap scc.sccNodes x
            = true := by
          have : kept ≠ [] := by
            intro h
            rw [h] at hbig
            simp at hbig
          obtain ⟨m, hm⟩ := List.exists_mem_of_ne_nil kept this
          exact ⟨m, (hkmem m hm).1, hkelig m hm⟩
        have hkdepth : scc2.depth = scc.depth + 1 := hgup.depth_kept hkex
        have heligk : ∀ m ∈ scc.sccNodes,
            eligMember g st.repMap scc.sccNodes m = true → m ∈ kept := by
          intro m hm he
          rw [hkept, List.mem_filter]
          refine ⟨?_, ?_⟩
          · rw [hgup.nodes_eq]
            exact hm
          · have h0 : st2.dfn m = 0 := (hgup.mem_elig m hm he).1
            simp [h0]
        refine ⟨{ pinv := ?_,
                  map_ext := ⟨[], by rw [List.append_nil]; exact hgup.map_eq⟩,
                  stack_eq := hgup.stack_eq, instack_eq := hgup.instack_eq,
                  next_eq := hgup.next_eq, work_eq := hgup.work_eq,
                  dfn_or := hdfn2, head_char := ?_ }, ?_, ?_⟩
        · refine { chain_free := ?_, keys_nodup := ?_, keys_pend := ?_,
                   vals_pend := ?_, pend_nodup := ?_, pend_disj := ?_,
                   pend_ord := ?_, pend_depth := ?_, pend_phi := ?_,
                   key_phi := ?_, key_pred := ?_ }
          · intro e he e2 he2
            rw [hgup.map_eq] at he he2
            exact hpi.chain_free e he e2 he2
          · rw [hgup.map_eq]
            exact hpi.keys_nodup
          · intro e he hcon
            rw [hgup.map_eq] at he
            rw [sccListNodes_cons] at hcon
            rcases List.mem_append.mp hcon with h | h
            · refine hpi.keys_pend e he ?_
              rw [sccListNodes_cons]
              exact List.mem_append_left _ (hkmem e.1 h).1
            · refine hpi.keys_pend e he ?_
              rw [sccListNodes_cons]
              exact List.mem_append_right _ h
          · intro e he hcon
            rw [hgup.map_eq] at he
            rw [sccListNodes_cons] at hcon
            rcases List.mem_append.mp hcon with h | h
            · refine hpi.vals_pend e he ?_
              rw [sccListNodes_cons]
              exact List.mem_append_left _ (hkmem e.2 h).1
            · refine hpi.vals_pend e he ?_
              rw [sccListNodes_cons]
              exact List.mem_append_right _ h
          · intro s hs
            rcases List.mem_cons.mp hs with rfl | h
            · exact List.Nodup.filter _ (hgup.nodes_eq ▸ hnodup)
            · exact hpi.pend_nodup s (List.mem_cons_of_mem scc h)
          · intro l1 s1 l2 hsplit m hm s2 hs2
            rcases cons_split _ _ _ _ _ hsplit with ⟨h1, h2, h3⟩ | ⟨l1p, h1, h2⟩
            · rw [h2] at hm
              rw [h3] at hs2
              exact hdisjhd m (hkmem m hm).1 s2 hs2
            · exact hpi.pend_disj (scc :: l1p) s1 l2 (by rw [h2]; rfl) m hm s2 hs2
          · intro l1 s1 l2 hsplit m hm p hp hlook
            rw [hgup.map_eq] at hlook
            rcases cons_split _ _ _ _ _ hsplit with ⟨h1, h2, h3⟩ | ⟨l1p, h1, h2⟩
            · rw [h2] at hm
              rw [h3]
              exact hpi.pend_ord [] scc rest rfl m (hkmem m hm).1 p hp hlook
            · exact hpi.pend_ord (scc :: l1p) s1 l2 (by rw [h2]; rfl) m hm p hp hlook
          · intro s hs m hm
            rcases List.mem_cons.mp hs with rfl | h
            · have h2 := (hgup.mem_elig m (hkmem m hm).1 (hkelig m hm)).2
              show st2.depth m = scc2.depth
              rw [h2, hkdepth]
            · have := (hdepframe s h m hm).1
              rw [this]
              exact hpi.pend_depth s (List.mem_cons_of_mem scc h) m hm
          · intro s hs m hm
            rcases List.mem_cons.mp hs with rfl | h
            · exact hpi.pend_phi scc hsccmem m (hkmem m hm).1
            · exact hpi.pend_phi s (List.mem_cons_of_mem scc h) m hm
          · intro e he
            rw [hgup.map_eq] at he
            exact hpi.key_phi e he
          · intro e he p hp hpne
            rw [hgup.map_eq] at he ⊢
            exact hpi.key_pred e he p hp hpne
        · intro s1 rest2 hout
          injection hout with hs1 hrest2
          subst hrest2
          refine ⟨?_, ?_, ?_, ?_⟩
          · intro m hm
            rw [← hs1] at hm
            exact (hkmem m hm).2
          · intro m hm p hp hrem
            rw [← hs1] at hm ⊢
            obtain ⟨hms, _⟩ := hkmem m hm
            have hmM : st2.repMap.lookup m = none := by
              rw [hgup.map_eq]
              refine lookup_none_of_not_mem _ _ (fun v hv => ?_)
              refine hpi.keys_pend (m, v) hv ?_
              rw [sccListNodes_cons]
              exact List.mem_append_left _ hms
            by_cases hpm : p = m
            · subst hpm
              have : resolve1 st2.repMap p = p := by
                rw [resolve1, hmM]
              rw [this]
              exact hm
            · have hcp : resolve1 st.repMap p ∈ scc.sccNodes :=
                elig_closure g st.repMap scc.sccNodes m (hkelig m hm) p hp hpm
              have hcp2 : resolve1 st2.repMap p = resolve1 st.repMap p := by
                rw [hgup.map_eq]
              rw [hcp2] at hrem ⊢
              cases he : eligMember g st.repMap scc.sccNodes
                  (resolve1 st.repMap p) with
              | true => exact heligk _ hcp he
              | false =>
                exfalso
                have hdepold := (hgup.mem_inelig _ hcp he).2
                rw [is_removable] at hrem
                simp only [Bool.and_eq_true, decide_eq_true_eq] at hrem
                have h2 := hrem.2
                rw [← hs1] at h2
                dsimp only at h2
                rw [hdepold, hdep _ hcp, hkdepth] at h2
                omega
          · intro s h m hm
            show st2.dfn m ≠ 0
            rw [(hdepframe s h m hm).2]
            exact hdfn s (List.mem_cons_of_mem scc h) m hm
          · rw [← hs1]
            exact hbig
        · have hout1 : sccSize ((⟨kept, scc2.depth⟩ : Scc) :: rest) =
              kept.length + sccSize rest := by
            rw [sccSize_cons]
          have hlef : kept.length ≤ scc2.sccNodes.length := by
            rw [hkept]
            exact List.length_filter_le _ _
          have hl2 : scc2.sccNodes.length = scc.sccNodes.length :=
            congrArg List.length hgup.nodes_eq
          rw [hout1, sccSize_cons]
          omega
        · intro hsz
          refine Or.inr ?_
          have hout1 : sccSize ((⟨kept, scc2.depth⟩ : Scc) :: rest) =
              kept.length + sccSize rest := by
            rw [sccSize_cons]
          rw [hout1, sccSize_cons] at hsz
          have hl2 : scc2.sccNodes.length = scc.sccNodes.length :=
            congrArg List.length hgup.nodes_eq
          have hall : ∀ m ∈ scc.sccNodes,
              eligMember g st.repMap scc.sccNodes m = true := by
            intro m hm
            cases he : eligMember g st.repMap scc.sccNodes m with
            | true => rfl
            | false =>
              exfalso
              have hdm := (hgup.mem_inelig m hm he).1
              have hne0 : st2.dfn m ≠ 0 := by
                rw [hdm]
                exact hdfnhd m hm
              have hmem2 : m ∈ scc2.sccNodes := by
                rw [hgup.nodes_eq]
                exact hm
              have hlt : kept.length < scc2.sccNodes.length := by
                rw [hkept]
                refine length_filter_lt_of_mem_false _ _ m hmem2 ?_
                simp [hne0]
              omega
          refine ⟨⟨kept, scc2.depth⟩, rest, rfl, ?_, ?_⟩
          · intro hk0
            have hk1 : kept = [] := hk0
            have hb2 : kept.length > 1 := hbig
            rw [hk1] at hb2
            simp at hb2
          · intro m hm p hp hpne
            have hms : m ∈ scc.sccNodes := (hkmem m hm).1
            have hcp := elig_closure g st.repMap scc.sccNodes m
              (hall m hms) p hp hpne
            have hcp2 : resolve1 st2.repMap p = resolve1 st.repMap p := by
              rw [hgup.map_eq]
            show resolve1 st2.repMap p ∈ kept
            rw [hcp2]
            exact heligk _ hcp (hall _ hcp)
      · have heq : prepareLoop g (scc :: rest) st = prepareLoop g rest st2 := by
          simp only [prepareLoop]
          rw [hval]
          simp only [hbig, if_false]
        rw [heq]
        have hpinext : PInv g rest st2 := by
          refine { chain_free := ?_, keys_nodup := ?_, keys_pend := ?_,
                   vals_pend := ?_, pend_nodup := ?_, pend_disj := ?_,
                   pend_ord := ?_, pend_depth := ?_, pend_phi := ?_,
                   key_phi := ?_, key_pred := ?_ }
          · intro e he e2 he2
            rw [hgup.map_eq] at he he2
            exact hpi.chain_free e he e2 he2
          · rw [hgup.map_eq]
            exact hpi.keys_nodup
          · intro e he hcon
            rw [hgup.map_eq] at he
            refine hpi.keys_pend e he ?_
            rw [sccListNodes_cons]
            exact List.mem_append_right _ hcon
          · intro e he hcon
            rw [hgup.map_eq] at he
            refine hpi.vals_pend e he ?_
            rw [sccListNodes_cons]
            exact List.mem_append_right _ hcon
          · exact fun s h => hpi.pend_nodup s (List.mem_cons_of_mem scc h)
          · intro l1 s1 l2 hsplit
            exact hpi.pend_disj (scc :: l1) s1 l2 (by rw [hsplit]; rfl)
          · intro l1 s1 l2 hsplit m hm p hp hlook
            rw [hgup.map_eq] at hlook
            exact hpi.pend_ord (scc :: l1) s1 l2 (by rw [hsplit]; rfl) m hm p hp hlook
          · intro s h m hm
            have := (hdepframe s h m hm).1
            rw [this]
            exact hpi.pend_depth s (List.mem_cons_of_mem scc h) m hm
          · exact fun s h => hpi.pend_phi s (List.mem_cons_of_mem scc h)
          · intro e he
            rw [hgup.map_eq] at he
            exact hpi.key_phi e he
          · intro e he p hp hpne
            rw [hgup.map_eq] at he ⊢
            exact hpi.key_pred e he p hp hpne
        have hdfnnext : ∀ s ∈ rest, ∀ m ∈ s.sccNodes, st2.dfn m ≠ 0 := by
          intro s h m hm
          rw [(hdepframe s h m hm).2]
          exact hdfn s (List.mem_cons_of_mem scc h) m hm
        have hres := ih st2 hpinext hdfnnext
        refine ⟨?_, ?_, ?_⟩
        · refine { pinv := hres.1.pinv, map_ext := ?_, stack_eq := ?_,
                   instack_eq := ?_, next_eq := ?_, work_eq := ?_,
                   dfn_or := ?_, head_char := hres.1.head_char }
          · obtain ⟨N, hN⟩ := hres.1.map_ext
            refine ⟨N, ?_⟩
            rw [hN, hgup.map_eq]
          · rw [hres.1.stack_eq]
            exact hgup.stack_eq
          · rw [hres.1.instack_eq]
            exact hgup.instack_eq
          · rw [hres.1.next_eq]
            exact hgup.next_eq
          · rw [hres.1.work_eq]
            exact hgup.work_eq
          · intro m
            rcases hres.1.dfn_or m with h | h
            · rw [h]
              exact hdfn2 m
            · exact Or.inr h
        · have h1 := hres.2.1
          rw [sccSize_cons]
          omega
        · intro hsz
          have h1 := hres.2.1
          rw [sccSize_cons] at hsz
          exact hres.2.2 (by omega)

/-- After a completed Tarjan round, prepare_next_iteration restores the
between-phase invariant. -/
theorem postRound (g : PhiGraph) (d : Nat) (R : Nat → Bool) (S : Nat → Prop)
    (M : List (Nat × Nat)) (dep0 : Nat) (st stF : SccState) (rest : List Scc)
    (hriF : RInv g d R S M dep0 stF) (hrun : RRun g S st stF)
    (hstack : st.stack = []) (hwork : st.working = [])
    (hSR : ∀ n, S n → R n = true)
    (hSphi : ∀ n, S n → g.isPhi n = true ∧ g.phiLoop n = false)
    (hcf : ∀ e ∈ M, ∀ e2 ∈ M, e.2 ≠ e2.1)
    (hknd : (M.map Prod.fst).Nodup)
    (hKphi : ∀ e ∈ M, g.isPhi e.1 = true ∧ g.phiLoop e.1 = false)
    (hKpred : ∀ e ∈ M, ∀ p ∈ g.preds e.1, p ≠ e.1 → resolve1 M p = e.2)
    (hkeyS : ∀ e ∈ M, ¬ S e.1)
    (hkeyR : ∀ e ∈ M, e.1 ∉ sccListNodes rest)
    (hvalS : ∀ e ∈ M, ¬ S e.2)
    (hvalR : ∀ e ∈ M, e.2 ∉ sccListNodes rest)
    (hrn : ∀ scc ∈ rest, scc.sccNodes.Nodup)
    (hrdisj : ∀ l1 s1 l2, rest = l1 ++ s1 :: l2 → ∀ m ∈ s1.sccNodes,
        ∀ s2 ∈ l2, m ∉ s2.sccNodes)
    (hrord : ∀ l1 s1 l2, rest = l1 ++ s1 :: l2 → ∀ m ∈ s1.sccNodes,
        ∀ p ∈ g.preds m, M.lookup p = none → p ∉ sccListNodes l2)
    (hrdepth : ∀ scc ∈ rest, ∀ m ∈ scc.sccNodes, st.depth m = scc.depth)
    (hrphi : ∀ scc ∈ rest, ∀ m ∈ scc.sccNodes,
        g.isPhi m = true ∧ g.phiLoop m = false)
    (hrdfn : ∀ scc ∈ rest, ∀ m ∈ scc.sccNodes, st.dfn m ≠ 0)
    (hSrest : ∀ m, S m → ∀ s2 ∈ rest, m ∉ s2.sccNodes)
    (hSord : ∀ m, S m → ∀ p ∈ g.preds m, M.lookup p = none →
        p ∉ sccListNodes rest) :
    OInv g (prepareNextIteration g rest stF).1 (prepareNextIteration g rest stF).2 ∧
    (∃ N, (prepareNextIteration g rest stF).2.repMap = M ++ N) ∧
    sccSize (prepareNextIteration g rest stF).1 ≤
      sccSize stF.working + sccSize rest ∧
    (sccSize (prepareNextIteration g rest stF).1 =
        sccSize stF.working + sccSize rest →
      (prepareNextIteration g rest stF).1 = [] ∨
        headClosed g (prepareNextIteration g rest stF)) := by
  obtain ⟨W, hW, hWf⟩ := hrun.work_ext
  rw [hwork, List.nil_append] at hW
  have hWm : ∀ scc ∈ W, ∀ m ∈ scc.sccNodes, S m ∧ stF.dfn m ≠ 0 := by
    intro scc hscc m hm
    have := hriF.work_mem scc (by rw [hW]; exact hscc) m hm
    exact ⟨this.1, this.2.1⟩
  have hstFstack : stF.stack = [] := hrun.stack_eq hstack
  have hresolveM : ∀ p, M.lookup p = none → resolve1 M p = p := by
    intro p hp
    rw [resolve1, hp]
  -- the prepare entry state
  set stp : SccState := { stF with working := [] } with hstp
  have hpmap : stp.repMap = M := hriF.map_eq
  have hpinv : PInv g (W ++ rest) stp := by
    refine { chain_free := ?_, keys_nodup := ?_, keys_pend := ?_,
             vals_pend := ?_, pend_nodup := ?_, pend_disj := ?_,
             pend_ord := ?_, pend_depth := ?_, pend_phi := ?_,
             key_phi := ?_, key_pred := ?_ }
    · intro e he e2 he2
      rw [hpmap] at he he2
      exact hcf e he e2 he2
    · rw [hpmap]
      exact hknd
    · intro e he hcon
      rw [hpmap] at he
      rw [sccListNodes_append, List.mem_append] at hcon
      rcases hcon with h | h
      · rw [mem_sccListNodes] at h
        obtain ⟨s2, hs2, hm2⟩ := h
        exact hkeyS e he (hWm s2 hs2 e.1 hm2).1
      · exact hkeyR e he h
    · intro e he hcon
      rw [hpmap] at he
      rw [sccListNodes_append, List.mem_append] at hcon
      rcases hcon with h | h
      · rw [mem_sccListNodes] at h
        obtain ⟨s2, hs2, hm2⟩ := h
        exact hvalS e he (hWm s2 hs2 e.2 hm2).1
      · exact hvalR e he h
    · intro scc hscc
      rcases List.mem_append.mp hscc with h | h
      · exact hriF.work_nodup scc (by rw [hW]; exact h)
      · exact hrn scc h
    · intro l1 s1 l2 hsplit m hm s2 hs2
      rcases append_split W rest l1 s1 l2 hsplit with
        ⟨l2w, hWsp, hl2⟩ | ⟨l1r, hl1, hrsp⟩
      · rw [hl2] at hs2
        rcases List.mem_append.mp hs2 with h2 | h2
        · exact hriF.work_disj l1 s1 l2w (by rw [hW, hWsp]) m hm s2 h2
        · have hs1W : s1 ∈ W := by
            rw [hWsp]
            exact List.mem_append_right _ (List.mem_cons_self s1 l2w)
          have hSm : S m := (hWm s1 hs1W m hm).1
          exact hSrest m hSm s2 h2
      · exact hrdisj l1r s1 l2 hrsp m hm s2 hs2
    · intro l1 s1 l2 hsplit m hm p hp hlook
      rw [hpmap] at hlook
      have hrp := hresolveM p hlook
      rcases append_split W rest l1 s1 l2 hsplit with
        ⟨l2w, hWsp, hl2⟩ | ⟨l1r, hl1, hrsp⟩
      · have hs1W : s1 ∈ W := by
          rw [hWsp]
          exact List.mem_append_right _ (List.mem_cons_self s1 l2w)
        have hSm : S m := (hWm s1 hs1W m hm).1
        rw [hl2, sccListNodes_append]
        intro hcon
        rcases List.mem_append.mp hcon with h2 | h2
        · -- inside the fresh SCCs: use the reverse-topological order
          cases hRp : R p with
          | false =>
            rw [mem_sccListNodes] at h2
            obtain ⟨s2, hs2, hm2⟩ := h2
            have hs2W : s2 ∈ W := by
              rw [hWsp]
              exact List.mem_append_right _ (List.mem_cons_of_mem s1 hs2)
            have hSp : S p := (hWm s2 hs2W p hm2).1
            rw [hSR p hSp] at hRp
            cases hRp
          | true =>
            have hord := hriF.work_ord l1 s1 l2w (by rw [hW, hWsp]) m hm p hp
              (by rw [hrp]; exact hRp)
            rw [hrp] at hord
            rcases hord with h3 | h3
            · -- p in an earlier SCC yet also in a later one: contradiction
              rw [mem_sccListNodes] at h3
              obtain ⟨se, hse, hme⟩ := h3
              obtain ⟨a, b, hab⟩ := List.append_of_mem hse
              have : stF.working = a ++ se :: (b ++ s1 :: l2w) := by
                rw [hW, hWsp, hab]
                simp
              rw [mem_sccListNodes] at h2
              obtain ⟨s2, hs2, hm2⟩ := h2
              refine hriF.work_disj a se (b ++ s1 :: l2w) this p hme s2 ?_ hm2
              exact List.mem_append_right _ (List.mem_cons_of_mem s1 hs2)
            · -- p in its own SCC yet also in a later one: contradiction
              rw [mem_sccListNodes] at h2
              obtain ⟨s2, hs2, hm2⟩ := h2
              exact hriF.work_disj l1 s1 l2w (by rw [hW, hWsp]) p h3 s2 hs2 hm2
        · exact hSord m hSm p hp hlook h2
      · exact hrord l1r s1 l2 hrsp m hm p hp hlook
    · intro scc hscc m hm
      rcases List.mem_append.mp hscc with h | h
      · have hSm := (hWm scc h m hm).1
        show stF.depth m = scc.depth
        rw [hriF.dep_eq m hSm]
        exact (hriF.work_depth scc (by rw [hW]; exact h)).symm
      · show stF.depth m = scc.depth
        rw [hrun.depth_frame m]
        exact hrdepth scc h m hm
    · intro scc hscc m hm
      rcases List.mem_append.mp hscc with h | h
      · exact hSphi m (hWm scc h m hm).1
      · exact hrphi scc h m hm
    · intro e he
      rw [hpmap] at he
      exact hKphi e he
    · intro e he p hp hpne
      rw [hpmap] at he ⊢
      exact hKpred e he p hp hpne
  have hpdfn : ∀ scc ∈ W ++ rest, ∀ m ∈ scc.sccNodes, stp.dfn m ≠ 0 := by
    intro scc hscc m hm
    rcases List.mem_append.mp hscc with h | h
    · exact (hWm scc h m hm).2
    · show stF.dfn m ≠ 0
      rw [hrun.dfn_frame m (hrdfn scc h m hm)]
      exact hrdfn scc h m hm
  have hprep := prepareLoopSpec g (W ++ rest) stp hpinv hpdfn
  have hunf : prepareNextIteration g rest stF = prepareLoop g (W ++ rest) stp := by
    rw [prepareNextIteration, hW]
  rw [hunf]
  refine ⟨?_, ?_, ?_, ?_⟩
  · refine { pinv := hprep.1.pinv, stack_nil := ?_, instack_false := ?_,
             work_nil := ?_, dfn_le := ?_, head_f := ?_ }
    · rw [hprep.1.stack_eq]
      exact hstFstack
    · intro n
      rw [hprep.1.instack_eq]
      show stF.inStack n = false
      cases hc : stF.inStack n
      · rfl
      · exfalso
        have := (hriF.instack_iff n).mp hc
        rw [hstFstack] at this
        cases this
    · rw [hprep.1.work_eq]
    · intro n
      rcases hprep.1.dfn_or n with h | h
      · rw [h, hprep.1.next_eq]
        show stF.dfn n ≤ stF.nextIndex
        exact hriF.dfn_le n
      · rw [h]
        omega
    · intro s1 rest2 hout
      obtain ⟨h1, h2, h3, _⟩ := hprep.1.head_char s1 rest2 hout
      exact ⟨h1, h2, h3⟩
  · obtain ⟨N, hN⟩ := hprep.1.map_ext
    refine ⟨N, ?_⟩
    rw [hN, hpmap]
  · rw [hW, ← sccSize_append]
    exact hprep.2.1
  · intro hsz
    rw [hW, ← sccSize_append] at hsz
    exact hprep.2.2 hsz

theorem mainIteration (g : PhiGraph)
    (hwf : ∀ n, g.isPhi n = true → n ∈ g.nodes)
    (s1 : Scc) (rest : List Scc) (st : SccState)
    (hO : OInv g (s1 :: rest) st) :
    OInv g
      (prepareNextIteration g rest
        (s1.sccNodes.foldl
          (fun s m => (findSccAt g (sccFuel g) m s1.depth s).2) st)).1
      (prepareNextIteration g rest
        (s1.sccNodes.foldl
          (fun s m => (findSccAt g (sccFuel g) m s1.depth s).2) st)).2 ∧
    (∃ N, (prepareNextIteration g rest
        (s1.sccNodes.foldl
          (fun s m => (findSccAt g (sccFuel g) m s1.depth s).2) st)).2.repMap =
      st.repMap ++ N) ∧
    ((prepareNextIteration g rest
        (s1.sccNodes.foldl
          (fun s m => (findSccAt g (sccFuel g) m s1.depth s).2) st)).1 = [] ∨
      sccSize (prepareNextIteration g rest
        (s1.sccNodes.foldl
          (fun s m => (findSccAt g (sccFuel g) m s1.depth s).2) st)).1 <
        sccSize (s1 :: rest) ∨
      headClosed g (prepareNextIteration g rest
        (s1.sccNodes.foldl
          (fun s m => (findSccAt g (sccFuel g) m s1.depth s).2) st))) := by
  obtain ⟨hd0, hclos, hrdfn⟩ := hO.head_f s1 rest rfl
  have hs1mem : s1 ∈ s1 :: rest := List.mem_cons_self s1 rest
  have hphi := hO.pinv.pend_phi s1 hs1mem
  have hdep := hO.pinv.pend_depth s1 hs1mem
  set d := s1.depth with hdd
  set R : Nat → Bool := fun n => is_removable g st d n with hR
  set S : Nat → Prop := fun n => n ∈ s1.sccNodes with hS
  set M := st.repMap with hM
  have hSR : ∀ n, S n → R n = true := by
    intro n hn
    rw [hR]
    show is_removable g st d n = true
    rw [is_removable]
    obtain ⟨h1, h2⟩ := hphi n hn
    rw [h1, h2, hdep n hn]
    simp
  have hSphi : ∀ n, S n → g.isPhi n = true ∧ g.phiLoop n = false :=
    fun n hn => hphi n hn
  have hRnodes : ∀ n, R n = true → n ∈ g.nodes := by
    intro n hn
    rw [hR] at hn
    have : is_removable g st d n = true := hn
    rw [is_removable] at this
    simp only [Bool.and_eq_true] at this
    exact hwf n this.1.1
  have hSclosed : ∀ m, S m → ∀ p ∈ g.preds m, R (resolve1 M p) = true →
      S (resolve1 M p) := by
    intro m hm p hp hr
    exact hclos m hm p hp hr
  have hri0 : RInv g d R S M d st := by
    refine { map_eq := rfl, rem_eq := fun n => rfl,
             dep_eq := fun n hn => hdep n hn,
             stack_nodup := by rw [hO.stack_nil]; exact List.nodup_nil,
             instack_iff := ?_, stack_pos := ?_, stack_S := ?_,
             stack_uplink := ?_, stack_sorted := ?_,
             dfn_le := hO.dfn_le, uplink_wit := ?_, vs := ?_,
             work_nodup := ?_, work_mem := ?_, work_depth := ?_,
             work_disj := ?_, work_ord := ?_ }
    · intro n
      rw [hO.instack_false n, hO.stack_nil]
      simp
    · intro n hn
      rw [hO.stack_nil] at hn
      cases hn
    · intro n hn
      rw [hO.stack_nil] at hn
      cases hn
    · intro n hn
      rw [hO.stack_nil] at hn
      cases hn
    · rw [hO.stack_nil]
      exact List.Pairwise.nil
    · intro v hv
      rw [hO.stack_nil] at hv
      cases hv
    · intro n hn hdn
      exact absurd (hd0 n hn) hdn
    · intro scc hscc
      rw [hO.work_nil] at hscc
      cases hscc
    · intro scc hscc
      rw [hO.work_nil] at hscc
      cases hscc
    · intro scc hscc
      rw [hO.work_nil] at hscc
      cases hscc
    · intro l1 s2 l2 hsplit
      rw [hO.work_nil] at hsplit
      have := congrArg List.length hsplit
      simp at this
      omega
    · intro l1 s2 l2 hsplit
      rw [hO.work_nil] at hsplit
      have := congrArg List.length hsplit
      simp at this
      omega
  have hround := roundRun g d R S M d hSclosed hRnodes hSR s1.sccNodes st hri0
    (fun m hm _ => hm)
  have hpr := postRound g d R S M d st _ rest hround.1 hround.2
    hO.stack_nil hO.work_nil hSR hSphi
    (fun e he e2 he2 => hO.pinv.chain_free e he e2 he2)
    hO.pinv.keys_nodup
    hO.pinv.key_phi
    hO.pinv.key_pred
    (fun e he hcon => hO.pinv.keys_pend e he (by
      rw [sccListNodes_cons]
      exact List.mem_append_left _ hcon))
    (fun e he hcon => hO.pinv.keys_pend e he (by
      rw [sccListNodes_cons]
      exact List.mem_append_right _ hcon))
    (fun e he hcon => hO.pinv.vals_pend e he (by
      rw [sccListNodes_cons]
      exact List.mem_append_left _ hcon))
    (fun e he hcon => hO.pinv.vals_pend e he (by
      rw [sccListNodes_cons]
      exact List.mem_append_right _ hcon))
    (fun scc h => hO.pinv.pend_nodup scc (List.mem_cons_of_mem s1 h))
    (fun l1 s2 l2 hsplit => hO.pinv.pend_disj (s1 :: l1) s2 l2
      (by rw [hsplit]; rfl))
    (fun l1 s2 l2 hsplit => hO.pinv.pend_ord (s1 :: l1) s2 l2
      (by rw [hsplit]; rfl))
    (fun scc h => hO.pinv.pend_depth scc (List.mem_cons_of_mem s1 h))
    (fun scc h => hO.pinv.pend_phi scc (List.mem_cons_of_mem s1 h))
    hrdfn
    (fun m hm s2 hs2 => hO.pinv.pend_disj [] s1 rest rfl m hm s2 hs2)
    (fun m hm p hp hlook => hO.pinv.pend_ord [] s1 rest rfl m hm p hp hlook)
  obtain ⟨hO2, hN2, hle2, heq2⟩ := hpr
  refine ⟨hO2, hN2, ?_⟩
  have hWsub : sccListNodes (s1.sccNodes.foldl
      (fun s m => (findSccAt g (sccFuel g) m d s).2) st).working ⊆
      s1.sccNodes := by
    intro m hm
    rw [mem_sccListNodes] at hm
    obtain ⟨scc, hscc, hmm⟩ := hm
    exact (hround.1.work_mem scc hscc m hmm).1
  have hWnd : (sccListNodes (s1.sccNodes.foldl
      (fun s m => (findSccAt g (sccFuel g) m d s).2) st).working).Nodup :=
    sccListNodes_nodup _ hround.1.work_nodup hround.1.work_disj
  have hWlen : sccSize (s1.sccNodes.foldl
      (fun s m => (findSccAt g (sccFuel g) m d s).2) st).working ≤
      s1.sccNodes.length :=
    (List.Nodup.subperm hWnd hWsub).length_le
  by_cases hcase : sccSize (prepareNextIteration g rest
      (s1.sccNodes.foldl
        (fun s m => (findSccAt g (sccFuel g) m d s).2) st)).1 =
      sccSize (s1 :: rest)
  · have hsq : sccSize (prepareNextIteration g rest
        (s1.sccNodes.foldl
          (fun s m => (findSccAt g (sccFuel g) m d s).2) st)).1 =
        sccSize (s1.sccNodes.foldl
          (fun s m => (findSccAt g (sccFuel g) m d s).2) st).working +
          sccSize rest := by
      rw [sccSize_cons] at hcase
      omega
    rcases heq2 hsq with h | h
    · exact Or.inl h
    · exact Or.inr (Or.inr h)
  · refine Or.inr (Or.inl ?_)
    rw [sccSize_cons]
    rw [sccSize_cons] at hcase
    omega

theorem mainLoopSpec (g : PhiGraph)
    (hwf : ∀ n, g.isPhi n = true → n ∈ g.nodes) :
    ∀ (fuel : Nat) (L : List Scc) (st : SccState), OInv g L st →
    (∀ e ∈ (mainLoop g fuel L st).1.repMap,
      ∀ e2 ∈ (mainLoop g fuel L st).1.repMap, e.2 ≠ e2.1) ∧
    ((mainLoop g fuel L st).1.repMap.map Prod.fst).Nodup := by
  intro fuel
  induction fuel with
  | zero =>
    intro L st hO
    exact ⟨hO.pinv.chain_free, hO.pinv.keys_nodup⟩
  | succ fuel ih =>
    intro L st hO
    cases L with
    | nil => exact ⟨hO.pinv.chain_free, hO.pinv.keys_nodup⟩
    | cons s1 rest =>
      have hiter := mainIteration g hwf s1 rest st hO
      have heq : mainLoop g (fuel + 1) (s1 :: rest) st =
          mainLoop g fuel
            (prepareNextIteration g rest
              (s1.sccNodes.foldl
                (fun s m => (findSccAt g (sccFuel g) m s1.depth s).2) st)).1
            (prepareNextIteration g rest
              (s1.sccNodes.foldl
                (fun s m => (findSccAt g (sccFuel g) m s1.depth s).2) st)).2 := by
        rfl
      rw [heq]
      exact ih _ _ hiter.1

/-- The replacement map the pass builds is chain-free and has pairwise
distinct keys. -/
theorem optPhiSccMapFacts (g : PhiGraph)
    (hwf : ∀ n, g.isPhi n = true → n ∈ g.nodes) :
    (∀ e ∈ (optPhiSccFull g).2.1, ∀ e2 ∈ (optPhiSccFull g).2.1, e.2 ≠ e2.1) ∧
    (((optPhiSccFull g).2.1).map Prod.fst).Nodup := by
  set R : Nat → Bool := fun n => is_removable g initSccState 0 n with hR
  set S : Nat → Prop := fun n => R n = true with hS
  have hSR : ∀ n, S n → R n = true := fun n hn => hn
  have hRnodes : ∀ n, R n = true → n ∈ g.nodes := by
    intro n hn
    have : is_removable g initSccState 0 n = true := hn
    rw [is_removable] at this
    simp only [Bool.and_eq_true] at this
    exact hwf n this.1.1
  have hSphi : ∀ n, S n → g.isPhi n = true ∧ g.phiLoop n = false := by
    intro n hn
    have : is_removable g initSccState 0 n = true := hn
    rw [is_removable] at this
    simp only [Bool.and_eq_true, Bool.not_eq_true'] at this
    exact ⟨this.1.1, this.1.2⟩
  have hSclosed : ∀ m, S m → ∀ p ∈ g.preds m,
      R (resolve1 [] p) = true → S (resolve1 [] p) := fun m _ p _ hr => hr
  have hri0 : RInv g 0 R S [] 0 initSccState := by
    refine { map_eq := rfl, rem_eq := fun n => rfl,
             dep_eq := fun n _ => rfl,
             stack_nodup := List.nodup_nil,
             instack_iff := fun n => by simp [initSccState],
             stack_pos := fun n hn => absurd hn (List.not_mem_nil n),
             stack_S := fun n hn => absurd hn (List.not_mem_nil n),
             stack_uplink := fun n hn => absurd hn (List.not_mem_nil n),
             stack_sorted := List.Pairwise.nil,
             dfn_le := fun n => Nat.le_refl 0,
             uplink_wit := fun v hv => absurd hv (List.not_mem_nil v),
             vs := fun n _ hdn => absurd rfl hdn,
             work_nodup := fun scc hscc => absurd hscc (List.not_mem_nil scc),
             work_mem := fun scc hscc => absurd hscc (List.not_mem_nil scc),
             work_depth := fun scc hscc => absurd hscc (List.not_mem_nil scc),
             work_disj := ?_, work_ord := ?_ }
    · intro l1 s2 l2 hsplit
      have := congrArg List.length hsplit
      simp [initSccState] at this
      omega
    · intro l1 s2 l2 hsplit
      have := congrArg List.length hsplit
      simp [initSccState] at this
      omega
  have hround := roundRun g 0 R S [] 0 hSclosed hRnodes hSR g.nodes
    initSccState hri0 (fun m _ hr => hr)
  have hpr := postRound g 0 R S [] 0 initSccState _ [] hround.1 hround.2
    rfl rfl hSR hSphi
    (fun e he => absurd he (List.not_mem_nil e))
    List.nodup_nil
    (fun e he => absurd he (List.not_mem_nil e))
    (fun e he => absurd he (List.not_mem_nil e))
    (fun e he => absurd he (List.not_mem_nil e))
    (fun e he => absurd he (List.not_mem_nil e))
    (fun e he => absurd he (List.not_mem_nil e))
    (fun e he => absurd he (List.not_mem_nil e))
    (fun scc hscc => absurd hscc (List.not_mem_nil scc))
    (fun l1 s2 l2 hsplit => by
      have := congrArg List.length hsplit
      simp at this
      omega)
    (fun l1 s2 l2 hsplit => by
      have := congrArg List.length hsplit
      simp at this
      omega)
    (fun scc hscc => absurd hscc (List.not_mem_nil scc))
    (fun scc hscc => absurd hscc (List.not_mem_nil scc))
    (fun scc hscc => absurd hscc (List.not_mem_nil scc))
    (fun m _ s2 hs2 => absurd hs2 (List.not_mem_nil s2))
    (fun m _ p _ _ => List.not_mem_nil p)
  have hml := mainLoopSpec g hwf (mainFuel g)
    (prepareNextIteration g []
      (g.nodes.foldl (fun s n => (findSccAt g (sccFuel g) n 0 s).2)
        initSccState)).1
    (prepareNextIteration g []
      (g.nodes.foldl (fun s n => (findSccAt g (sccFuel g) n 0 s).2)
        initSccState)).2
    hpr.1
  exact hml

theorem exchangeAll_keep_phi (E : List (Nat × Nat)) :
    ∀ g : PhiGraph, (exchangeAll g E).isPhi = g.isPhi ∧
      (exchangeAll g E).phiLoop = g.phiLoop := by
  induction E with
  | nil => exact fun g => ⟨rfl, rfl⟩
  | cons e rest ih =>
    intro g
    obtain ⟨h1, h2⟩ := ih (exchangeOne g e.1 e.2)
    exact ⟨h1, h2⟩

theorem phiGraph_eq (a b : PhiGraph) (h1 : a.nodes = b.nodes)
    (h2 : a.preds = b.preds) (h3 : a.isPhi = b.isPhi)
    (h4 : a.phiLoop = b.phiLoop) : a = b := by
  cases a
  cases b
  simp only [PhiGraph.mk.injEq]
  exact ⟨h1, h2, h3, h4⟩

/-- C2: in the final rewiring step, whatever order the hash map yields the
replacement entries in, the rewritten graph is the one of the pass: every
operand is the full resolution of the replacement chain through the map,
chain values are never themselves keys, and no operand edge to a mapped
key remains. -/
theorem c2_rewiring (g : PhiGraph) (σ : List (Nat × Nat))
    (hwf : ∀ n, g.isPhi n = true → n ∈ g.nodes)
    (hperm : σ.Perm (optPhiSccFull g).2.1) :
    exchangeAll g σ = optRemoveUnnecessaryPhiSccs g ∧
    (∀ n, (exchangeAll g σ).preds n =
        (g.preds n).map (resolve1 (optPhiSccFull g).2.1)) ∧
    (∀ k v, (k, v) ∈ (optPhiSccFull g).2.1 →
        ((optPhiSccFull g).2.1).lookup v = none) ∧
    (∀ n q, q ∈ (exchangeAll g σ).preds n →
        ((optPhiSccFull g).2.1).lookup q = none) := by
  obtain ⟨hcf, hknd⟩ := optPhiSccMapFacts g hwf
  have hndσ : (σ.map Prod.fst).Nodup :=
    ((hperm.map Prod.fst).nodup_iff).mpr hknd
  have hcfσ : ∀ e ∈ σ, ∀ e2 ∈ σ, e.2 ≠ e2.1 := fun e he e2 he2 =>
    hcf e (hperm.mem_iff.mp he) e2 (hperm.mem_iff.mp he2)
  obtain ⟨hpσ, hnσ⟩ := exchangeAll_preds_eq σ g hndσ hcfσ
  obtain ⟨hpM, hnM⟩ := exchangeAll_preds_eq (optPhiSccFull g).2.1 g hknd hcf
  have hlook : ∀ q, σ.lookup q = ((optPhiSccFull g).2.1).lookup q :=
    lookup_eq_of_perm σ (optPhiSccFull g).2.1 hperm hknd
  have hres : ∀ q, resolve1 σ q = resolve1 (optPhiSccFull g).2.1 q := by
    intro q
    rw [resolve1, resolve1, hlook q]
  have hpreds : ∀ n, (exchangeAll g σ).preds n =
      (g.preds n).map (resolve1 (optPhiSccFull g).2.1) := by
    intro n
    rw [hpσ n]
    exact List.map_congr_left (fun q _ => hres q)
  refine ⟨?_, hpreds, ?_, ?_⟩
  · have hgoal : exchangeAll g σ = exchangeAll g (optPhiSccFull g).2.1 := by
      refine phiGraph_eq _ _ ?_ ?_ ?_ ?_
      · rw [hnσ, hnM]
        exact List.filter_congr (fun a _ => by rw [hlook a])
      · funext n
        rw [hpreds n, hpM n]
      · rw [(exchangeAll_keep_phi σ g).1,
          (exchangeAll_keep_phi (optPhiSccFull g).2.1 g).1]
      · rw [(exchangeAll_keep_phi σ g).2,
          (exchangeAll_keep_phi (optPhiSccFull g).2.1 g).2]
    rw [hgoal]
    rfl
  · intro k v hkv
    refine lookup_none_of_not_mem _ v (fun w hw => ?_)
    exact hcf (k, v) hkv (v, w) hw rfl
  · intro n q hq
    rw [hpreds n] at hq
    obtain ⟨p, _, hpq⟩ := List.mem_map.mp hq
    rw [← hpq]
    exact resolve1_not_key _ hcf p

theorem c2_rewiring_witness :
    exchangeAll gC1w (((optPhiSccFull gC1w).2.1).reverse) =
        optRemoveUnnecessaryPhiSccs gC1w ∧
    (∀ n, (exchangeAll gC1w (((optPhiSccFull gC1w).2.1).reverse)).preds n =
        (gC1w.preds n).map (resolve1 (optPhiSccFull gC1w).2.1)) ∧
    (∀ k v, (k, v) ∈ (optPhiSccFull gC1w).2.1 →
        ((optPhiSccFull gC1w).2.1).lookup v = none) ∧
    (∀ n q, q ∈ (exchangeAll gC1w (((optPhiSccFull gC1w).2.1).reverse)).preds n →
        ((optPhiSccFull gC1w).2.1).lookup q = none) :=
  c2_rewiring gC1w (((optPhiSccFull gC1w).2.1).reverse)
    (by
      intro n hn
      have h2 : n = 2 ∨ n = 3 := by simpa [gC1w] using hn
      rcases h2 with h | h <;> simp [gC1w, h])
    (List.reverse_perm _)

/-- The between-phase invariant holds when the main loop of
opt_remove_unnecessary_phi_sccs is first entered, after the initial graph
walk and the first prepare_next_iteration. -/
theorem initialOInv (g : PhiGraph)
    (hwf : ∀ n, g.isPhi n = true → n ∈ g.nodes) :
    OInv g
      (prepareNextIteration g []
        (g.nodes.foldl (fun s n => (findSccAt g (sccFuel g) n 0 s).2)
          initSccState)).1
      (prepareNextIteration g []
        (g.nodes.foldl (fun s n => (findSccAt g (sccFuel g) n 0 s).2)
          initSccState)).2 := by
  set R : Nat → Bool := fun n => is_removable g initSccState 0 n with hR
  set S : Nat → Prop := fun n => R n = true with hS
  have hSR : ∀ n, S n → R n = true := fun n hn => hn
  have hRnodes : ∀ n, R n = true → n ∈ g.nodes := by
    intro n hn
    have : is_removable g initSccState 0 n = true := hn
    rw [is_removable] at this
    simp only [Bool.and_eq_true] at this
    exact hwf n this.1.1
  have hSphi : ∀ n, S n → g.isPhi n = true ∧ g.phiLoop n = false := by
    intro n hn
    have : is_removable g initSccState 0 n = true := hn
    rw [is_removable] at this
    simp only [Bool.and_eq_true, Bool.not_eq_true'] at this
    exact ⟨this.1.1, this.1.2⟩
  have hSclosed : ∀ m, S m → ∀ p ∈ g.preds m,
      R (resolve1 [] p) = true → S (resolve1 [] p) := fun m _ p _ hr => hr
  have hri0 : RInv g 0 R S [] 0 initSccState := by
    refine { map_eq := rfl, rem_eq := fun n => rfl,
             dep_eq := fun n _ => rfl,
             stack_nodup := List.nodup_nil,
             instack_iff := fun n => by simp [initSccState],
             stack_pos := fun n hn => absurd hn (List.not_mem_nil n),
             stack_S := fun n hn => absurd hn (List.not_mem_nil n),
             stack_uplink := fun n hn => absurd hn (List.not_mem_nil n),
             stack_sorted := List.Pairwise.nil,
             dfn_le := fun n => Nat.le_refl 0,
             uplink_wit := fun v hv => absurd hv (List.not_mem_nil v),
             vs := fun n _ hdn => absurd rfl hdn,
             work_nodup := fun scc hscc => absurd hscc (List.not_mem_nil scc),
             work_mem := fun scc hscc => absurd hscc (List.not_mem_nil scc),
             work_depth := fun scc hscc => absurd hscc (List.not_mem_nil scc),
             work_disj := ?_, work_ord := ?_ }
    · intro l1 s2 l2 hsplit
      have := congrArg List.length hsplit
      simp [initSccState] at this
      omega
    · intro l1 s2 l2 hsplit
      have := congrArg List.length hsplit
      simp [initSccState] at this
      omega
  have hround := roundRun g 0 R S [] 0 hSclosed hRnodes hSR g.nodes
    initSccState hri0 (fun m _ hr => hr)
  have hpr := postRound g 0 R S [] 0 initSccState _ [] hround.1 hround.2
    rfl rfl hSR hSphi
    (fun e he => absurd he (List.not_mem_nil e))
    List.nodup_nil
    (fun e he => absurd he (List.not_mem_nil e))
    (fun e he => absurd he (List.not_mem_nil e))
    (fun e he => absurd he (List.not_mem_nil e))
    (fun e he => absurd he (List.not_mem_nil e))
    (fun e he => absurd he (List.not_mem_nil e))
    (fun e he => absurd he (List.not_mem_nil e))
    (fun scc hscc => absurd hscc (List.not_mem_nil scc))
    (fun l1 s2 l2 hsplit => by
      have := congrArg List.length hsplit
      simp at this
      omega)
    (fun l1 s2 l2 hsplit => by
      have := congrArg List.length hsplit
      simp at this
      omega)
    (fun scc hscc => absurd hscc (List.not_mem_nil scc))
    (fun scc hscc => absurd hscc (List.not_mem_nil scc))
    (fun scc hscc => absurd hscc (List.not_mem_nil scc))
    (fun m _ s2 hs2 => absurd hs2 (List.not_mem_nil s2))
    (fun m _ p _ _ => List.not_mem_nil p)
  exact hpr.1

/-- The pending work-stack nodes are pairwise distinct members of the
graph, so their total count is bounded by the node count. -/
theorem pinv_sccSize_le (g : PhiGraph) (L : List Scc) (st : SccState)
    (hwf : ∀ n, g.isPhi n = true → n ∈ g.nodes) (hpi : PInv g L st) :
    sccSize L ≤ g.nodes.length := by
  have hnd := sccListNodes_nodup L hpi.pend_nodup hpi.pend_disj
  have hsub : sccListNodes L ⊆ g.nodes := by
    intro m hm
    rw [mem_sccListNodes] at hm
    obtain ⟨s, hs, hms⟩ := hm
    exact hwf m (hpi.pend_phi s hs m hms).1
  exact (List.Nodup.subperm hnd hsub).length_le

/-- A fully pred-closed head SCC yields a nonempty pred-closed set of
non-loop Phi nodes: the SCC together with the map keys that resolve into
it — a completely isolated Phi SCC in the original graph. -/
theorem headClosed_isolated (g : PhiGraph) (out : List Scc × SccState)
    (hpi : PInv g out.1 out.2) (hhc : headClosed g out) :
    ∃ P : List Nat, P ≠ [] ∧
      (∀ m ∈ P, g.isPhi m = true ∧ g.phiLoop m = false) ∧
      (∀ m ∈ P, ∀ p ∈ g.preds m, p ∈ P) := by
  obtain ⟨s1, rest2, hout, hne, hclos⟩ := hhc
  refine ⟨s1.sccNodes ++
    ((out.2.repMap.filter (fun e => decide (e.2 ∈ s1.sccNodes))).map
      Prod.fst), ?_, ?_, ?_⟩
  · intro h
    rcases List.append_eq_nil.mp h with ⟨h1, _⟩
    exact hne h1
  · intro m hm
    rcases List.mem_append.mp hm with h | h
    · have hs1 : s1 ∈ out.1 := by
        rw [hout]
        exact List.mem_cons_self _ _
      exact hpi.pend_phi s1 hs1 m h
    · obtain ⟨e, he, hem⟩ := List.mem_map.mp h
      have he2 := List.mem_filter.mp he
      rw [← hem]
      exact hpi.key_phi e he2.1
  · have hres_in : ∀ p, resolve1 out.2.repMap p ∈ s1.sccNodes →
        p ∈ s1.sccNodes ++
          ((out.2.repMap.filter (fun e => decide (e.2 ∈ s1.sccNodes))).map
            Prod.fst) := by
      intro p hp
      cases hlp : out.2.repMap.lookup p with
      | some w =>
        have hw : resolve1 out.2.repMap p = w := resolve1_lookup_some _ _ _ hlp
        refine List.mem_append_right _ ?_
        refine List.mem_map.mpr ⟨(p, w), ?_, rfl⟩
        refine List.mem_filter.mpr ⟨lookup_mem _ _ _ hlp, ?_⟩
        simp only [decide_eq_true_eq]
        rw [← hw]
        exact hp
      | none =>
        have hw : resolve1 out.2.repMap p = p := resolve1_lookup_none _ _ hlp
        rw [hw] at hp
        exact List.mem_append_left _ hp
    intro m hm p hp
    rcases List.mem_append.mp hm with h | h
    · by_cases hpm : p = m
      · rw [hpm]
        exact hm
      · exact hres_in p (hclos m h p hp hpm)
    · obtain ⟨e, he0, hem⟩ := List.mem_map.mp h
      have he2 := List.mem_filter.mp he0
      have hev : e.2 ∈ s1.sccNodes := by
        simpa using he2.2
      by_cases hpm : p = m
      · rw [hpm]
        exact hm
      · have hkp : resolve1 out.2.repMap p = e.2 := by
          refine hpi.key_pred e he2.1 p ?_ ?_
          · rw [hem]
            exact hp
          · rw [hem]
            exact hpm
        refine hres_in p ?_
        rw [hkp]
        exact hev

/-- If no nonempty pred-closed set of non-loop Phis exists, the total
pending node count strictly decreases at every main-loop iteration, so
the work-stack loop finishes within any fuel exceeding it. -/
theorem mainLoopTermination (g : PhiGraph)
    (hwf : ∀ n, g.isPhi n = true → n ∈ g.nodes)
    (hiso : ∀ P : List Nat, P ≠ [] →
      (∀ m ∈ P, g.isPhi m = true ∧ g.phiLoop m = false) →
      (∀ m ∈ P, ∀ p ∈ g.preds m, p ∈ P) → False) :
    ∀ (fuel : Nat) (L : List Scc) (st : SccState), OInv g L st →
      sccSize L + 1 ≤ fuel → (mainLoop g fuel L st).2 = true := by
  intro fuel
  induction fuel with
  | zero =>
    intro L st _ hb
    omega
  | succ fuel ih =>
    intro L st hO hb
    cases L with
    | nil => exact mainLoop_nil g (fuel + 1) st
    | cons s1 rest =>
      obtain ⟨hO2, hN2, hdis⟩ := mainIteration g hwf s1 rest st hO
      have heqm : mainLoop g (fuel + 1) (s1 :: rest) st =
          mainLoop g fuel
            (prepareNextIteration g rest
              (s1.sccNodes.foldl
                (fun s m => (findSccAt g (sccFuel g) m s1.depth s).2) st)).1
            (prepareNextIteration g rest
              (s1.sccNodes.foldl
                (fun s m => (findSccAt g (sccFuel g) m s1.depth s).2) st)).2 :=
        rfl
      rw [heqm]
      rcases hdis with h | h | h
      · rw [h]
        exact mainLoop_nil g fuel _
      · refine ih _ _ hO2 ?_
        rw [sccSize_cons] at hb
        rw [sccSize_cons] at h
        omega
      · exfalso
        obtain ⟨P, hP1, hP2, hP3⟩ := headClosed_isolated g _ hO2.pinv h
        exact hiso P hP1 hP2 hP3


/-- C3: opt_remove_unnecessary_phi_sccs terminates on every graph in which
no Phi-only strongly connected component is completely isolated — stated
as: there is no nonempty set of non-loop Phi nodes closed under all
operand edges (the node set of a completely isolated Phi SCC is such a
set, and conversely any such set contains one).  The work-stack loop then
finishes within its fuel, and every iteration of the work-stack loop
either exhausts the stack or strictly decreases the total pending node
count: each SCC it touches is discarded from consideration or strictly
shrunk. -/
theorem c3_termination (g : PhiGraph)
    (hwf : ∀ n, g.isPhi n = true → n ∈ g.nodes)
    (hiso : ∀ P : List Nat, P ≠ [] →
      (∀ m ∈ P, g.isPhi m = true ∧ g.phiLoop m = false) →
      (∀ m ∈ P, ∀ p ∈ g.preds m, p ∈ P) → False) :
    (optPhiSccFull g).2.2 = true ∧
    (∀ s1 rest st, OInv g (s1 :: rest) st →
      (prepareNextIteration g rest
        (s1.sccNodes.foldl
          (fun s m => (findSccAt g (sccFuel g) m s1.depth s).2) st)).1 = [] ∨
      sccSize (prepareNextIteration g rest
        (s1.sccNodes.foldl
          (fun s m => (findSccAt g (sccFuel g) m s1.depth s).2) st)).1 <
        sccSize (s1 :: rest)) := by
  constructor
  · have hO := initialOInv g hwf
    have hsz := pinv_sccSize_le g _ _ hwf hO.pinv
    have hfl : sccSize (prepareNextIteration g []
        (g.nodes.foldl (fun s n => (findSccAt g (sccFuel g) n 0 s).2)
          initSccState)).1 + 1 ≤ mainFuel g := by
      rw [mainFuel]
      have h2 : g.nodes.length + 1 ≤ (g.nodes.length + 1) * (g.nodes.length + 1) :=
        Nat.le_mul_of_pos_left _ (Nat.succ_pos _)
      omega
    exact mainLoopTermination g hwf hiso (mainFuel g) _ _ hO hfl
  · intro s1 rest st hO1
    obtain ⟨hO2, hN2, hdis⟩ := mainIteration g hwf s1 rest st hO1
    rcases hdis with h | h | h
    · exact Or.inl h
    · exact Or.inr h
    · exfalso
      obtain ⟨P, h1, h2, h3⟩ := headClosed_isolated g _ hO2.pinv h
      exact hiso P h1 h2 h3

theorem c3_termination_witness :
    (optPhiSccFull gC1w).2.2 = true ∧
    (∀ s1 rest st, OInv gC1w (s1 :: rest) st →
      (prepareNextIteration gC1w rest
        (s1.sccNodes.foldl
          (fun s m => (findSccAt gC1w (sccFuel gC1w) m s1.depth s).2) st)).1 =
        [] ∨
      sccSize (prepareNextIteration gC1w rest
        (s1.sccNodes.foldl
          (fun s m => (findSccAt gC1w (sccFuel gC1w) m s1.depth s).2) st)).1 <
        sccSize (s1 :: rest)) :=
  c3_termination gC1w
    (by
      intro n hn
      have h2 : n = 2 ∨ n = 3 := by simpa [gC1w] using hn
      rcases h2 with h | h <;> simp [gC1w, h])
    (by
      intro P hne hphi hcl
      obtain ⟨m, hm⟩ := List.exists_mem_of_ne_nil P hne
      have h23 : m = 2 ∨ m = 3 := by
        have h := (hphi m hm).1
        simpa [gC1w] using h
      have h0 : (0 : Nat) ∈ P := by
        rcases h23 with h | h
        · have := hcl m hm 0
          rw [h] at this
          exact this (by simp [gC1w])
        · have := hcl m hm 0
          rw [h] at this
          exact this (by simp [gC1w])
      have := (hphi 0 h0).1
      simp [gC1w] at this)
